import Mathlib

/-!
Verification of the cylon robots.txt matcher against its specification.

The definitions below are a shallow embedding of the three source files:
`src/nfa.rs` (the weighted non-deterministic matcher), `src/dfa.rs`
(the deterministic matcher) and `src/parse.rs` (line classifier, group
reader, agent selector and duplicate filter).  Bytes are modelled as
`Nat`, byte strings as `List Nat`, Rust `String`s as `List Char`, and
the `BTreeSet`/`BTreeMap` containers as sorted lists.  Rust indexing
that can panic is modelled with `getD`/`[·]?`; in the compile loops the
index is always in range, mirroring the source's `unwrap()` calls, and
the query loop of the deterministic matcher keeps the possible panics
visible by returning an `Option`.
-/

namespace Cylon

/-- Byte list of an ASCII string literal, for readable test inputs. -/
def bs (s : String) : List Nat := s.data.map Char.toNat

/-- Character list of a string literal, for readable test inputs. -/
def cs (s : String) : List Char := s.data

/-- End-of-word metacharacter, byte value of the dollar sign (nfa.rs `EOW_BYTE`). -/
def EOW_BYTE : Nat := 36

/-- Wildcard metacharacter, byte value of the asterisk (nfa.rs `WILDCARD_BYTE`). -/
def WILDCARD_BYTE : Nat := 42

/-- A rule of a robots.txt rule list (nfa.rs `enum Rule`; the optional
crawl-delay feature is not compiled in). -/
inductive Rule where
  | allow (pat : List Nat)
  | disallow (pat : List Nat)
deriving DecidableEq, Repr

/-- Payload bytes of a rule (nfa.rs `Rule::inner`). -/
def Rule.inner : Rule → List Nat
  | .allow p => p
  | .disallow p => p

/-- Accept classification of an automaton state (nfa.rs `enum Accept`). -/
inductive Accept where
  | allow
  | disallow
deriving DecidableEq, Repr

namespace Nfa

/-- A state of the NFA (nfa.rs `struct Node`). -/
structure Node where
  accept : Accept
  edges : List (Nat × Nat)
  weight : Nat
  wildcards : List Nat
deriving DecidableEq, Repr

/-- Default node used to totalize list indexing; the compile loop only
indexes states that exist, mirroring the source's `unwrap()`. -/
def dNode : Node := ⟨.allow, [], 0, []⟩

/-- Successors of a node on one input byte (nfa.rs `Node::follow_edges`):
matching labeled edges, then all wildcard targets, and the fallback
only when there is no wildcard. -/
def Node.followEdges (n : Node) (edge : Nat) (fallback : Nat) : List Nat :=
  ((n.edges.filter (fun e => e.1 == edge)).map Prod.snd)
    ++ n.wildcards
    ++ (if n.wildcards.isEmpty then [fallback] else [])

/-- Whether the node's verdict is Allow (nfa.rs `Node::allow`). -/
def Node.allow (n : Node) : Bool :=
  match n.accept with
  | .allow => true
  | .disallow => false

/-- Weight used to rank active states (nfa.rs `Node::normalized_weight`):
twice the weight plus one for Allow states, so Allow wins ties. -/
def Node.normalizedWeight (n : Node) : Nat :=
  match n.accept with
  | .allow => 1 + 2 * n.weight
  | .disallow => 2 * n.weight

/-- Insert into a sorted duplicate-free list of state indices; this is
the model of Rust's `BTreeSet<usize>` used by the query loop. -/
def setInsert (x : Nat) : List Nat → List Nat
  | [] => [x]
  | y :: ys => if x < y then x :: y :: ys else if x = y then y :: ys else y :: setInsert x ys

/-- Model of `Iterator::max_by_key`: the last element attaining the
maximal key, or `none` for an empty list. -/
def maxByKey (key : Node → Nat) (l : List Node) : Option Node :=
  l.foldl
    (fun acc n =>
      match acc with
      | none => some n
      | some m => if key m ≤ key n then some n else some m)
    none

/-- The compiled NFA matcher (nfa.rs `struct Cylon`, crawl-delay feature off). -/
structure Cylon where
  states : List Node
deriving DecidableEq, Repr

/-- One step of the query loop: the set of successors of all active
states on one byte.  States absent from the state list are skipped,
mirroring `self.states.get(s)`. -/
def stepSet (c : Cylon) (cur : List Nat) (edge : Nat) : List Nat :=
  cur.foldl
    (fun next s =>
      match c.states[s]? with
      | some st => (st.followEdges edge s).foldl (fun acc t => setInsert t acc) next
      | none => next)
    []

/-- Active state set after consuming a path (the loop body of
nfa.rs `Cylon::allow`), starting from state 0. -/
def activeAfter (c : Cylon) (path : List Nat) : List Nat :=
  path.foldl (stepSet c) [0]

/-- The allow query (nfa.rs `Cylon::allow`): an empty path is replaced
by "/", then the active state of maximal normalized weight decides;
with no surviving state the path is allowed. -/
def Cylon.allow (c : Cylon) (path : List Nat) : Bool :=
  let path := if path.isEmpty then [47] else path
  match maxByKey Node.normalizedWeight ((activeAfter c path).filterMap (c.states[·]?)) with
  | some st => st.allow
  | none => true

/-- An item of the construction work queue (nfa.rs `struct QueueItem`). -/
structure QueueItem where
  parentPfx : List Nat
  parentState : Nat
  epsilonState : Option Nat
deriving DecidableEq, Repr

/-- Replace the node at an index by a modified copy. -/
def modifyNode (l : List Node) (i : Nat) (f : Node → Node) : List Node :=
  l.set i (f (l.getD i dNode))

/-- Add the epsilon edge installed after the branch on the edge byte
(nfa.rs, the `if let Some(grandparent_state) = epsilon_state` block). -/
def addEps (eps : Option Nat) (edge state : Nat) (l : List Node) : List Node :=
  match eps with
  | some gp => modifyNode l gp (fun n => { n with edges := n.edges ++ [(edge, state)] })
  | none => l

/-- Accumulator of the inner rule loop of nfa.rs `Cylon::compile`:
the global state vector, the queue items pushed so far by this loop,
and the `last_prefix` deduplication marker. -/
structure BuildAcc where
  states : List Node
  pushed : List QueueItem
  lastPfx : List Nat
deriving Repr

/-- Body of the inner `for rule in rules.iter()` loop of
nfa.rs `Cylon::compile`, processing one rule for one queue item. -/
def stepRule (pp : List Nat) (ps : Nat) (eps : Option Nat) (acc : BuildAcc) (rule : Rule) :
    BuildAcc :=
  if rule.inner.length < pp.length + 1 then acc else
  let pfx := rule.inner.take (pp.length + 1)
  if ¬ pp.isPrefixOf pfx then acc else
  if acc.lastPfx = pfx then acc else
  let isTerminal := pfx = rule.inner
  let acceptState :=
    if isTerminal then
      match rule with
      | .allow _ => Accept.allow
      | .disallow _ => Accept.disallow
    else (acc.states.getD ps dNode).accept
  let state := acc.states.length
  let edge := pfx.getLastD 0
  let parentEdge := pp.getLast?
  if edge = WILDCARD_BYTE ∧ parentEdge ≠ some WILDCARD_BYTE then
    -- a wildcard child: self-loop, wildcard from parent and all siblings,
    -- accept promotion for a terminal wildcard, epsilon for zero-width match
    let states1 := modifyNode acc.states ps (fun p =>
      { p with wildcards := p.wildcards ++ [state],
               accept := if isTerminal then acceptState else p.accept })
    let sib := (states1.getD ps dNode).edges
    let states2 := sib.foldl
      (fun l e => modifyNode l e.2 (fun n => { n with wildcards := n.wildcards ++ [state] }))
      states1
    let states3 := addEps eps edge state states2
    let child : Node := ⟨acceptState, [], pfx.length, [state]⟩
    ⟨states3 ++ [child], acc.pushed ++ [⟨pfx, state, some ps⟩], pfx⟩
  else if edge = WILDCARD_BYTE then
    -- consecutive wildcards collapse: re-queue under the same parent state
    ⟨acc.states, acc.pushed ++ [⟨pfx, ps, none⟩], pfx⟩
  else if edge = EOW_BYTE then
    -- end-of-word child: swap accepts with the parent and transfer the weight
    let parentAcc := (acc.states.getD ps dNode).accept
    let states1 := modifyNode acc.states ps (fun p =>
      { p with wildcards := p.wildcards ++ [state], accept := acceptState, weight := pfx.length })
    let states2 := addEps eps edge state states1
    let child : Node := ⟨parentAcc, [], pfx.length, []⟩
    ⟨states2 ++ [child], acc.pushed ++ [⟨pfx, state, none⟩], pfx⟩
  else
    -- literal child: labeled edge, inherited wildcards, and for a terminal
    -- child an extra sink state with a wildcard self-loop
    let states1 := modifyNode acc.states ps (fun p =>
      { p with edges := p.edges ++ [(edge, state)] })
    let pw := (acc.states.getD ps dNode).wildcards
    let childWc := if isTerminal then [state + 1] else pw.filter (fun e => state != e)
    let child : Node := ⟨acceptState, [], pfx.length, childWc⟩
    let states2 := addEps eps edge state states1
    let states3 := states2 ++ [child] ++
      (if isTerminal then [(⟨acceptState, [], pfx.length, []⟩ : Node)] else [])
    ⟨states3, acc.pushed ++ [⟨pfx, state, none⟩], pfx⟩

/-- Process one queue item against every rule (one iteration of the
outer `while let Some(..) = queue.pop_front()` loop). -/
def processItem (rules : List Rule) (it : QueueItem) (states : List Node) :
    List Node × List QueueItem :=
  let acc := rules.foldl (stepRule it.parentPfx it.parentState it.epsilonState) ⟨states, [], []⟩
  (acc.states, acc.pushed)

/-- The construction loop, with fuel standing in for the termination
measure of the Rust `while` loop; `nfaFuel` below always suffices. -/
def compileLoop (rules : List Rule) : Nat → List Node → List QueueItem → List Node
  | 0, states, _ => states
  | _ + 1, states, [] => states
  | fuel + 1, states, it :: rest =>
    let r := processItem rules it states
    compileLoop rules fuel r.1 (rest ++ r.2)

/-- Lexicographic byte order used to sort the rules, matching
`Ord::cmp(a.inner(), b.inner())` on Rust byte slices. -/
def bytesLe : List Nat → List Nat → Bool
  | [], _ => true
  | _ :: _, [] => false
  | x :: xs, y :: ys => if x < y then true else if y < x then false else bytesLe xs ys

/-- Stable sort of the rules by pattern bytes (nfa.rs
`rules.sort_by(|a, b| Ord::cmp(a.inner(), b.inner()))`). -/
def sortRules (rules : List Rule) : List Rule :=
  List.insertionSort (fun a b => bytesLe a.inner b.inner = true) rules

/-- Fuel that is always enough for `compileLoop`: every queue item ever
pushed carries a distinct nonempty prefix of some rule, so the loop runs
at most `1 + Σ (pattern length)` iterations. -/
def nfaFuel (rules : List Rule) : Nat :=
  rules.foldl (fun a r => a + r.inner.length) 0 + 2

/-- Compilation of a rule list into the NFA (nfa.rs `Cylon::compile`). -/
def Cylon.compile (rules : List Rule) : Cylon :=
  let sorted := sortRules rules
  let first : Node := ⟨.allow, [], 0, [1]⟩
  let second : Node := ⟨.allow, [], 0, []⟩
  ⟨compileLoop sorted (nfaFuel rules) [first, second] [⟨[], 0, none⟩]⟩

/-- The state at index `i` of the automaton compiled from the single
anchored rule `Disallow (s ++ "$")`, for nonempty metacharacter-free
`s`: state 0 is the root, state 1 the Allow sink, states `2 .. n` the
literal chain, state `n+1` the Disallow end of the chain (weight
`n+1` after the end-of-word transfer) and state `n+2` the Allow
continuation past the anchor. -/
def anchoredNode (s : List Nat) (i : Nat) : Node :=
  if i = 0 then ⟨.allow, [(s.getD 0 0, 2)], 0, [1]⟩
  else if i = 1 then ⟨.allow, [], 0, []⟩
  else if i = s.length + 1 then ⟨.disallow, [], s.length + 1, [1, s.length + 2]⟩
  else if i = s.length + 2 then ⟨.allow, [], s.length + 1, []⟩
  else ⟨.allow, [(s.getD (i - 1) 0, i + 1)], i - 1, [1]⟩

/-- The full state vector of the single-anchored-rule automaton. -/
def anchoredStates (s : List Nat) : List Node :=
  (List.range (s.length + 3)).map (anchoredNode s)

/-- The state at index `i` midway through the construction of the
single-anchored-rule automaton, just before the queue item for the
prefix of length `j` is processed: the chain reaches index `j+1` and
the last chain node has no outgoing edge yet. -/
def anchoredMidNode (s : List Nat) (j i : Nat) : Node :=
  if i = 0 then
    (if j = 0 then ⟨.allow, [], 0, [1]⟩ else ⟨.allow, [(s.getD 0 0, 2)], 0, [1]⟩)
  else if i = 1 then ⟨.allow, [], 0, []⟩
  else if i = j + 1 then ⟨.allow, [], j, [1]⟩
  else ⟨.allow, [(s.getD (i - 1) 0, i + 1)], i - 1, [1]⟩

/-- The state vector midway through the construction. -/
def anchoredMid (s : List Nat) (j : Nat) : List Node :=
  (List.range (j + 2)).map (anchoredMidNode s j)

/-- The state at index `i` of the automaton compiled from the single
rule `Disallow (u ++ "*" ++ v)` for metacharacter-free `u` and `v`:
state 0 is the root, state 1 the Allow sink, states `2 .. m` the
literal chain over `u` (`m = u.length`), state `m+1` the end of that
chain, state `m+2` the wildcard self-loop, states `m+3 .. m+k+1` the
literal chain over `v` (`k = v.length`), state `m+k+2` the Disallow
end and state `m+k+3` its trailing twin.  When `v` is empty states
`m+1` and `m+2` are themselves the Disallow ends and the automaton
stops there; when `u` is empty the root doubles as the end of the
(empty) `u` chain. -/
def wildNode (u v : List Nat) (i : Nat) : Node :=
  if i = 0 then
    (if u.length = 0 then
      (if v.length = 0 then ⟨.disallow, [], 0, [1, 2]⟩
       else ⟨.allow, [(v.getD 0 0, 3)], 0, [1, 2]⟩)
     else ⟨.allow, [(u.getD 0 0, 2)], 0, [1]⟩)
  else if i = 1 then ⟨.allow, [], 0, []⟩
  else if i ≤ u.length then ⟨.allow, [(u.getD (i - 1) 0, i + 1)], i - 1, [1]⟩
  else if i = u.length + 1 then
    (if v.length = 0 then ⟨.disallow, [], u.length, [1, u.length + 2]⟩
     else ⟨.allow, [(v.getD 0 0, u.length + 3)], u.length, [1, u.length + 2]⟩)
  else if i = u.length + 2 then
    (if v.length = 0 then ⟨.disallow, [], u.length + 1, [u.length + 2]⟩
     else ⟨.allow, [(v.getD 0 0, u.length + 3)], u.length + 1, [u.length + 2]⟩)
  else if i ≤ u.length + v.length + 1 then
    ⟨.allow, [(v.getD (i - u.length - 2) 0, i + 1)], i - 1, [u.length + 2]⟩
  else if i = u.length + v.length + 2 then
    ⟨.disallow, [], u.length + v.length + 1, [u.length + v.length + 3]⟩
  else ⟨.disallow, [], u.length + v.length + 1, []⟩

/-- Number of states of the single-wildcard-rule automaton. -/
def wildLen (u v : List Nat) : Nat :=
  if v.length = 0 then u.length + 3 else u.length + v.length + 4

/-- The full state vector of the single-wildcard-rule automaton. -/
def wildStates (u v : List Nat) : List Node :=
  (List.range (wildLen u v)).map (wildNode u v)

/-- The state at index `i` just after the wildcard child has been
created, before the queue item for the prefix `u ++ "*"` is
processed. -/
def wildMid2Node (u v : List Nat) (i : Nat) : Node :=
  if i = 0 then
    (if u.length = 0 then
       ⟨(if v.length = 0 then .disallow else .allow), [], 0, [1, 2]⟩
     else ⟨.allow, [(u.getD 0 0, 2)], 0, [1]⟩)
  else if i = 1 then ⟨.allow, [], 0, []⟩
  else if i ≤ u.length then ⟨.allow, [(u.getD (i - 1) 0, i + 1)], i - 1, [1]⟩
  else if i = u.length + 1 then
    ⟨(if v.length = 0 then .disallow else .allow), [], u.length, [1, u.length + 2]⟩
  else ⟨(if v.length = 0 then .disallow else .allow), [], u.length + 1, [u.length + 2]⟩

/-- The state vector just after the wildcard child has been created. -/
def wildMid2 (u v : List Nat) : List Node :=
  (List.range (u.length + 3)).map (wildMid2Node u v)

/-- The state at index `i` midway through the `v` chain, before the
queue item for the prefix `u ++ "*" ++ v.take j` is processed
(`1 ≤ j ≤ v.length - 1`): the chain reaches index `u.length + j + 2`
and the newest chain node has no outgoing edge yet. -/
def wildMid3Node (u v : List Nat) (j i : Nat) : Node :=
  if i = 0 then
    (if u.length = 0 then ⟨.allow, [(v.getD 0 0, 3)], 0, [1, 2]⟩
     else ⟨.allow, [(u.getD 0 0, 2)], 0, [1]⟩)
  else if i = 1 then ⟨.allow, [], 0, []⟩
  else if i ≤ u.length then ⟨.allow, [(u.getD (i - 1) 0, i + 1)], i - 1, [1]⟩
  else if i = u.length + 1 then
    ⟨.allow, [(v.getD 0 0, u.length + 3)], u.length, [1, u.length + 2]⟩
  else if i = u.length + 2 then
    ⟨.allow, [(v.getD 0 0, u.length + 3)], u.length + 1, [u.length + 2]⟩
  else if i = u.length + j + 2 then ⟨.allow, [], u.length + j + 1, [u.length + 2]⟩
  else ⟨.allow, [(v.getD (i - u.length - 2) 0, i + 1)], i - 1, [u.length + 2]⟩

/-- The state vector midway through the `v` chain. -/
def wildMid3 (u v : List Nat) (j : Nat) : List Node :=
  (List.range (u.length + j + 3)).map (wildMid3Node u v j)

/-- Whether `q = u ++ w ++ v` for some `w`: the wildcard pattern is
fully consumed exactly at `q`. -/
def termAt (u v q : List Nat) : Bool :=
  u.isPrefixOf q && v.isSuffixOf q && decide (u.length + v.length ≤ q.length)

/-- Whether `u ++ w ++ v` is a strict prefix of `p` for some `w`. -/
def sinkCond (u v p : List Nat) : Bool :=
  (List.range p.length).any (fun n => termAt u v (p.take n))

/-- Membership of state `i` in the active set of the
single-wildcard-rule automaton after consuming `p`. -/
def wildMem (u v p : List Nat) (i : Nat) : Bool :=
  if i = 0 then p.isEmpty
  else if i = 1 then !p.isEmpty
  else if i ≤ u.length + 1 then p == u.take (i - 1)
  else if i = u.length + 2 then u.isPrefixOf p && decide (u.length < p.length)
  else if i ≤ u.length + v.length + 2 then
    u.isPrefixOf p && (v.take (i - u.length - 2)).isSuffixOf p &&
      decide (i - 2 ≤ p.length)
  else sinkCond u v p

/-- The active state set of the single-wildcard-rule automaton after
consuming `p`, as a sorted list. -/
def wildActive (u v p : List Nat) : List Nat :=
  (List.range (wildLen u v)).filter (wildMem u v p)

end Nfa

namespace Dfa

/-- Kind of a transition label (dfa.rs `enum Edge`). -/
inductive Edge where
  | matchByte (b : Nat)
  | matchAny
  | matchEow
deriving DecidableEq, Repr

/-- A labeled transition to a target state (dfa.rs `struct Transition`). -/
structure Transition where
  edge : Edge
  target : Nat
deriving DecidableEq, Repr

/-- Acceptance classification of a DFA state (dfa.rs `enum State`,
crawl-delay feature off). -/
inductive State where
  | allow
  | disallow
  | intermediate
deriving DecidableEq, Repr

/-- The compiled DFA matcher (dfa.rs `struct Cylon`). -/
structure Cylon where
  states : List State
  transitions : List (List Transition)
deriving DecidableEq, Repr

/-- One byte step of dfa.rs `Cylon::state`: scan the transition row from
the tail so labeled matches shadow the any-byte fallback.  `none` models
the `unwrap()` panic when no transition matches. -/
def findStep (row : List Transition) (ch : Nat) : Option Nat :=
  (row.reverse.find? (fun t =>
    match t.edge with
    | .matchAny => true
    | .matchEow => false
    | .matchByte b => b == ch)).map Transition.target

/-- Trailing step of dfa.rs `Cylon::state`: follow an end-of-word (or
any-byte) transition if present, otherwise stay. -/
def eowStep (row : List Transition) (s : Nat) : Nat :=
  match (row.reverse.find? (fun t =>
    match t.edge with
    | .matchEow => true
    | .matchAny => true
    | .matchByte _ => false)).map Transition.target with
  | some n => n
  | none => s

/-- The state reached by a path (dfa.rs `Cylon::state`), starting from
state 2.  `none` models the panics of `self.transitions[state]` on an
out-of-range index and of the `unwrap()` on a failed find. -/
def stateOf (c : Cylon) (path : List Nat) : Option Nat :=
  let fin := path.foldl
    (fun st ch =>
      match st with
      | none => none
      | some s =>
        match c.transitions[s]? with
        | none => none
        | some row => findStep row ch)
    (some 2)
  match fin with
  | none => none
  | some s =>
    match c.transitions[s]? with
    | none => none
    | some row => some (eowStep row s)

/-- The allow query (dfa.rs `Cylon::allow`).  `none` models a panic:
either an out-of-range index or the `unreachable!()` branch reached on
an intermediate final state. -/
def Cylon.allow (c : Cylon) (path : List Nat) : Option Bool :=
  match stateOf c path with
  | none => none
  | some s =>
    match c.states[s]? with
    | none => none
    | some .allow => some true
    | some .disallow => some false
    | some .intermediate => none

/-- An item of the construction queue of dfa.rs `Cylon::compile`:
parent prefix, wildcard fallback state, parent state index, and the
acceptance classification decided when the item was pushed. -/
structure DItem where
  pfx : List Nat
  wildcardState : Nat
  parentState : Nat
  state : State
deriving DecidableEq, Repr

/-- Replace a transition row at an index by a modified copy. -/
def modifyRow (l : List (List Transition)) (i : Nat) (f : List Transition → List Transition) :
    List (List Transition) :=
  l.set i (f (l.getD i []))

/-- Accumulator of the inner `for_each` over rules in dfa.rs
`Cylon::compile`: the row being built, the newly pushed queue items,
the global transition table (mutated for wildcard parents), and the
`curr_prefix` deduplication marker. -/
structure DAcc where
  t : List Transition
  pushed : List DItem
  transitions : List (List Transition)
  currPfx : List Nat
deriving Repr

/-- Body of the inner rule loop of dfa.rs `Cylon::compile`.  `restLen`
is the number of queue items awaiting processing ahead of the pushes of
this loop; it enters the predicted child index `transitions.len() +
queue.len()`. -/
def dStepRule (pp : List Nat) (ws : Nat) (lastByte : Option Nat) (parentState : Nat)
    (restLen : Nat) (acc : DAcc) (rule : Rule) : DAcc :=
  let path := rule.inner
  if ¬ pp.isPrefixOf path then acc
  else if path = pp then acc
  else
    let childPfx := path.take (pp.length + 1)
    if acc.currPfx = childPfx then acc
    else
      let eow := childPfx = path
      let st :=
        if eow then
          match rule with
          | .allow _ => State.allow
          | .disallow _ => State.disallow
        else State.intermediate
      let pushed2 := acc.pushed ++ [⟨childPfx, ws, acc.transitions.length, st⟩]
      let childIndex := acc.transitions.length + (restLen + pushed2.length)
      let edgeChar := childPfx.getLastD 0
      let tr : Transition :=
        ⟨if edgeChar = WILDCARD_BYTE then .matchAny
          else if edgeChar = EOW_BYTE then .matchEow
          else .matchByte edgeChar, childIndex⟩
      let transitions2 :=
        if lastByte = some WILDCARD_BYTE then
          modifyRow acc.transitions parentState (fun row => row ++ [tr])
        else acc.transitions
      ⟨acc.t ++ [tr], pushed2, transitions2, childPfx⟩

/-- Process one queue item of dfa.rs `Cylon::compile`: compute the
wildcard fallback, seed the transition row, visit the children, then
push the new state and row. -/
def dProcessItem (rules : List Rule) (it : DItem) (states : List State)
    (transitions : List (List Transition)) (restLen : Nat) :
    List State × List (List Transition) × List DItem :=
  let lastByte := it.pfx.getLast?
  let ws :=
    match it.state with
    | .allow => 0
    | .disallow => if lastByte = some EOW_BYTE then it.wildcardState else 1
    | .intermediate => it.wildcardState
  let t0 : List Transition :=
    if lastByte = some EOW_BYTE then [⟨.matchAny, ws⟩]
    else if lastByte = some WILDCARD_BYTE then [⟨.matchAny, transitions.length⟩]
    else [⟨.matchAny, ws⟩]
  let acc := rules.foldl (dStepRule it.pfx ws lastByte it.parentState restLen)
    ⟨t0, [], transitions, []⟩
  let newState :=
    match it.state with
    | .intermediate => states.getD ws State.intermediate
    | s => s
  (states ++ [newState], acc.transitions ++ [acc.t], acc.pushed)

/-- The DFA construction loop with explicit fuel; `dfaFuel` below always
suffices for the same reason as in the NFA loop. -/
def dCompileLoop (rules : List Rule) :
    Nat → List State → List (List Transition) → List DItem →
    List State × List (List Transition)
  | 0, states, transitions, _ => (states, transitions)
  | _ + 1, states, transitions, [] => (states, transitions)
  | fuel + 1, states, transitions, it :: rest =>
    let r := dProcessItem rules it states transitions rest.length
    dCompileLoop rules fuel r.1 r.2.1 (rest ++ r.2.2)

/-- Fuel bound for the DFA construction loop. -/
def dfaFuel (rules : List Rule) : Nat :=
  rules.foldl (fun a r => a + r.inner.length) 0 + 2

/-- Compilation of a rule list into the DFA (dfa.rs `Cylon::compile`). -/
def Cylon.compile (rules : List Rule) : Cylon :=
  let sorted := Nfa.sortRules rules
  let r := dCompileLoop sorted (dfaFuel rules)
    [State.allow, State.disallow]
    [[⟨.matchAny, 0⟩], [⟨.matchAny, 1⟩]]
    [⟨[], 0, 0, State.intermediate⟩]
  ⟨r.1, r.2⟩

end Dfa

namespace Parse

/-- Whitespace recognized by trimming; the robots inputs of interest are
ASCII, where this coincides with Rust's `str::trim`. -/
def isWs (c : Char) : Bool :=
  c = ' ' || c = '\t' || c = '\n' || c = '\r'

/-- Trim leading and trailing whitespace from a line. -/
def trim (l : List Char) : List Char :=
  ((l.dropWhile isWs).reverse.dropWhile isWs).reverse

/-- Lowercase one ASCII character; on ASCII input this coincides with
both `to_ascii_lowercase` and `to_lowercase` in the source. -/
def asciiLower (c : Char) : Char :=
  if 'A' ≤ c ∧ c ≤ 'Z' then Char.ofNat (c.toNat + 32) else c

/-- Keep the part of the line before any comment marker (parse.rs
`strip_comments`). -/
def stripComments (l : List Char) : List Char :=
  l.takeWhile (fun c => c ≠ '#')

/-- Key prefix for user-agent lines (parse.rs `UA_PREFIX`). -/
def UA_PREFIX : List Char := "user-agent:".data

/-- Key prefix for allow lines (parse.rs `ALLOW_PREFIX`). -/
def ALLOW_PREFIX : List Char := "allow:".data

/-- Key prefix for disallow lines (parse.rs `DISALLOW_PREFIX`). -/
def DISALLOW_PREFIX : List Char := "disallow:".data

/-- Shared shape of parse.rs `parse_user_agent` / `parse_allow` /
`parse_disallow`: compare the lowercased head against the key and
return the trimmed remainder. -/
def parseKeyed (key : List Char) (line : List Char) : Option (List Char) :=
  if line.length < key.length then none
  else if (line.take key.length).map asciiLower = key then some (trim (line.drop key.length))
  else none

/-- A parsed rule line (parse.rs `enum ParsedRule`, crawl-delay off).
Payloads are the character lists of the Rust `String`s. -/
inductive ParsedRule where
  | allow (path : List Char)
  | disallow (path : List Char)
deriving DecidableEq, Repr

/-- Payload of a parsed rule. -/
def ParsedRule.inner : ParsedRule → List Char
  | .allow p => p
  | .disallow p => p

/-- Classification of one input line (parse.rs `enum ParsedLine`). -/
inductive ParsedLine where
  | userAgent (ua : List Char)
  | rule (r : ParsedRule)
  | nothing
deriving DecidableEq, Repr

/-- The line classifier (parse.rs `parse_line`, crawl-delay off):
strip comments, trim, then try disallow, user-agent, allow in order. -/
def parseLine (line : List Char) : ParsedLine :=
  let l := trim (stripComments line)
  match parseKeyed DISALLOW_PREFIX l with
  | some s => .rule (.disallow s)
  | none =>
    match parseKeyed UA_PREFIX l with
    | some s => .userAgent (s.map asciiLower)
    | none =>
      match parseKeyed ALLOW_PREFIX l with
      | some s => .rule (.allow s)
      | none => .nothing

/-- State of the group reader (parse.rs `struct GroupReader`). -/
structure ReaderState where
  parsingAgents : Bool
  agents : List (List Char)
  rules : List ParsedRule
deriving DecidableEq, Repr

/-- The line loop of parse.rs `GroupReader::next_header`; returns the
reader state at the break (or end of input) and the unread lines. -/
def nextHeaderLoop : ReaderState → List (List Char) → ReaderState × List (List Char)
  | st, [] => (st, [])
  | st, line :: rest =>
    match parseLine line with
    | .userAgent ua =>
      if st.parsingAgents then nextHeaderLoop { st with agents := st.agents ++ [ua] } rest
      else nextHeaderLoop ⟨true, [ua], []⟩ rest
    | .rule r =>
      if st.parsingAgents then ({ st with parsingAgents := false, rules := st.rules ++ [r] }, rest)
      else nextHeaderLoop st rest
    | .nothing => nextHeaderLoop st rest

/-- Scan forward to the next group header (parse.rs
`GroupReader::next_header`): `none` means no further group. -/
def nextHeader (st : ReaderState) (lines : List (List Char)) :
    Option (List (List Char)) × ReaderState × List (List Char) :=
  let r := nextHeaderLoop st lines
  let agents := r.1.agents
  (if agents.isEmpty then none else some agents, { r.1 with agents := [] }, r.2)

/-- The line loop of parse.rs `GroupReader::next_rules`. -/
def nextRulesLoop : ReaderState → List (List Char) → ReaderState × List (List Char)
  | st, [] => (st, [])
  | st, line :: rest =>
    match parseLine line with
    | .rule r => nextRulesLoop { st with parsingAgents := false, rules := st.rules ++ [r] } rest
    | .userAgent ua =>
      if ¬ st.parsingAgents then
        ({ st with parsingAgents := true, agents := st.agents ++ [ua] }, rest)
      else nextRulesLoop st rest
    | .nothing => nextRulesLoop st rest

/-- Collect the rules of the current group (parse.rs
`GroupReader::next_rules`). -/
def nextRules (st : ReaderState) (lines : List (List Char)) :
    List ParsedRule × ReaderState × List (List Char) :=
  let r := nextRulesLoop st lines
  (r.1.rules, { r.1 with rules := [] }, r.2)

/-- Whether `needle` occurs as a contiguous substring of `hay`
(Rust `str::contains`). -/
def containsSub (hay needle : List Char) : Bool :=
  hay.tails.any (fun t => needle.isPrefixOf t)

/-- The group-selection loop of parse.rs `Compiler::compile`: keep the
first token of each header that matches the user agent and is strictly
longer than the previously kept token; on a match the group's rules
replace the kept rule list. -/
def selectLoop (userAgent : List Char) :
    Nat → List Char × List ParsedRule → ReaderState → List (List Char) → List ParsedRule
  | 0, ar, _, _ => ar.2
  | fuel + 1, ar, st, lines =>
    match nextHeader st lines with
    | (none, _, _) => ar.2
    | (some agents, st2, rest) =>
      match agents.find? (fun a =>
          (a = ['*'] || containsSub userAgent a) && decide (ar.1.length < a.length)) with
      | some a =>
        let r := nextRules st2 rest
        selectLoop userAgent fuel (a, r.1) r.2.1 r.2.2
      | none => selectLoop userAgent fuel ar st2 rest

/-- Rule count plus two always bounds the iterations of the selector
loop: every iteration except the last two consumes at least one line. -/
def selectFuel (lines : List (List Char)) : Nat := lines.length + 2

/-- The parsing half of parse.rs `Compiler::compile`: the rule list of
the most specific matching group for the (lowercased) user agent. -/
def compileRules (userAgent : List Char) (lines : List (List Char)) : List ParsedRule :=
  selectLoop (userAgent.map asciiLower) (selectFuel lines) ([], []) ⟨true, [], []⟩ lines

/-- Byte view of a parsed rule (`impl From<&ParsedRule> for Rule`,
`path.as_bytes()`); on the ASCII inputs of the claims the codepoints
are the UTF-8 bytes. -/
def ruleOfParsed : ParsedRule → Rule
  | .allow p => .allow (p.map Char.toNat)
  | .disallow p => .disallow (p.map Char.toNat)

/-- Lexicographic order on keys, matching `Ord` on Rust `String`s for
ASCII content. -/
def keyLt : List Char → List Char → Bool
  | [], [] => false
  | [], _ :: _ => true
  | _ :: _, [] => false
  | x :: xs, y :: ys => if x < y then true else if y < x then false else keyLt xs ys

/-- Insert into the sorted association list modelling the `BTreeMap`
of parse.rs `Compiler::filter_dupes`; an existing entry with the same
key is overwritten. -/
def mapInsert (k : List Char) (v : Rule) : List (List Char × Rule) → List (List Char × Rule)
  | [] => [(k, v)]
  | (k2, v2) :: rest =>
    if keyLt k k2 then (k, v) :: (k2, v2) :: rest
    else if k = k2 then (k, v) :: rest
    else (k2, v2) :: mapInsert k v rest

/-- Key membership in the association list (`BTreeMap::contains_key`). -/
def mapContains (k : List Char) (m : List (List Char × Rule)) : Bool :=
  m.any (fun e => e.1 = k)

/-- The fold inside parse.rs `Compiler::filter_dupes`: allow entries
overwrite, disallow entries are kept only for fresh keys. -/
def dedupeStep (m : List (List Char × Rule)) (r : ParsedRule) : List (List Char × Rule) :=
  match r with
  | .allow inner => mapInsert inner (ruleOfParsed r) m
  | .disallow inner => if mapContains inner m then m else mapInsert inner (ruleOfParsed r) m

/-- The duplicate filter (parse.rs `Compiler::filter_dupes`): values of
the map in ascending key order. -/
def filterDupes (rules : List ParsedRule) : List Rule :=
  (rules.foldl dedupeStep []).map Prod.snd

/-- The full pipeline of parse.rs `Compiler::compile`: select the rules
for the user agent, filter duplicates, and compile the NFA. -/
def compileFile (userAgent : List Char) (lines : List (List Char)) : Nfa.Cylon :=
  Nfa.Cylon.compile (filterDupes (compileRules userAgent lines))

end Parse

/-- Modelled from the spec (§3, §8): the pattern match relation on byte
strings.  A `*` matches a run of zero or more arbitrary bytes, a
trailing `$` anchors the match to the end of the input, and a pattern
matches a path when it matches some prefix of it.  This definition is
the specification-side reference used to state the claims; the code
under test never computes it. -/
def specMatch : List Nat → List Nat → Bool
  | [], _ => true
  | c :: pat, path =>
    if c = EOW_BYTE ∧ pat = [] then path.isEmpty
    else if c = WILDCARD_BYTE then (path.tails.any (fun t => specMatch pat t))
    else
      match path with
      | [] => false
      | b :: rest => b == c && specMatch pat rest

/-- Modelled from the spec (§8): pattern length with a trailing anchor
not counted, wildcards and literal bytes counted equally. -/
def unanchoredLen (pat : List Nat) : Nat :=
  if pat.getLast? = some EOW_BYTE then pat.length - 1 else pat.length

/-- Modelled from the spec (§8, wildcard semantics as written): there
exist `x, y` with `p = x ++ y`, `x` starting with `u` and `y` ending
with `v`.  The split point ranges over all positions of `p`. -/
def splitEndsMatch (u v p : List Nat) : Bool :=
  (List.range (p.length + 1)).any
    (fun i => u.isPrefixOf (p.take i) && v.isSuffixOf (p.drop i))

/-- The match relation the wildcard code actually implements for a
pattern `u*v` without anchors: some `u ++ w ++ v` is a prefix of `p`;
equivalently `p = x ++ y` with `x` starting with `u` and `y` starting
with `v`. -/
def uwvMatch (u v p : List Nat) : Bool :=
  (List.range (p.length + 1)).any
    (fun i => u.length ≤ i && u.isPrefixOf p && v.isPrefixOf (p.drop i))

/-- A byte string free of both metacharacters. -/
def metaFree (s : List Nat) : Prop :=
  WILDCARD_BYTE ∉ s ∧ EOW_BYTE ∉ s

instance (s : List Nat) : Decidable (metaFree s) := by
  unfold metaFree; infer_instance

namespace Parse

/-- Modelled from the spec (§4.2, amended by the end-of-input
counterexample): the group decomposition of a line stream.  Consecutive
user-agent declarations form a header, the following rules form the
body, a user-agent line after rules closes the group, rules before any
header are discarded, and at end of input a pending group is emitted
whenever its header is nonempty. -/
def groupsAux : List (List Char) → List (List Char) → List ParsedRule → Bool →
    List (List (List Char) × List ParsedRule)
  | [], hdr, rls, _ => if hdr.isEmpty then [] else [(hdr, rls)]
  | line :: rest, hdr, rls, inRules =>
    match parseLine line with
    | .nothing => groupsAux rest hdr rls inRules
    | .userAgent ua =>
      if inRules then (hdr, rls) :: groupsAux rest [ua] [] false
      else groupsAux rest (hdr ++ [ua]) rls false
    | .rule r =>
      if hdr.isEmpty then groupsAux rest hdr rls inRules
      else groupsAux rest hdr (rls ++ [r]) true

/-- Group decomposition of a robots file, modelled from the spec
(§4.2), starting before any header. -/
def groupsOf (lines : List (List Char)) : List (List (List Char) × List ParsedRule) :=
  groupsAux lines [] [] false

/-- Modelled from the spec (§4.3, amended by the selector
counterexample): scan the groups in order; in each header keep the
first token that matches the user agent and is strictly longer than the
previously kept token, replacing the kept rule list by that group's
rules. -/
def selectSpec (userAgent : List Char) :
    List (List (List Char) × List ParsedRule) → List Char × List ParsedRule → List ParsedRule
  | [], ar => ar.2
  | g :: gs, ar =>
    match g.1.find? (fun a =>
        (a = ['*'] || containsSub userAgent a) && decide (ar.1.length < a.length)) with
    | some a => selectSpec userAgent gs (a, g.2)
    | none => selectSpec userAgent gs ar

/-- Whether some rule line precedes every user-agent line.  On such
files the reader's first header scan stops with an empty agent list and
the selector exits immediately; the group decomposition above only
matches the code in the absence of such a line. -/
def noLeadingRule : List (List Char) → Bool
  | [] => true
  | line :: rest =>
    match parseLine line with
    | .rule _ => false
    | .userAgent _ => true
    | .nothing => noLeadingRule rest

end Parse

namespace Nfa

/-- Invariant of the NFA construction: at least the two reserved states
exist, state 1 is the untouched Allow fallback sink, and every labeled
edge targets a non-reserved state. -/
def SinkInv (states : List Node) : Prop :=
  2 ≤ states.length ∧ states[1]? = some ⟨.allow, [], 0, []⟩ ∧
    ∀ n ∈ states, ∀ e ∈ n.edges, 2 ≤ e.2

/-- Invariant of NFA queue items: neither the parent nor the epsilon
state is the reserved sink 1. -/
def ItemInv (it : QueueItem) : Prop :=
  it.parentState ≠ 1 ∧ it.epsilonState ≠ some 1

end Nfa

namespace Dfa

/-- Invariant of the DFA state vector: the two reserved acceptance
entries are in place. -/
def StInv (states : List State) : Prop :=
  2 ≤ states.length ∧ states[0]? = some .allow ∧ states[1]? = some .disallow

/-- Invariant of the DFA transition table: the two reserved self-loop
rows are in place. -/
def TrInv (transitions : List (List Transition)) : Prop :=
  2 ≤ transitions.length ∧ transitions[0]? = some [⟨.matchAny, 0⟩] ∧
    transitions[1]? = some [⟨.matchAny, 1⟩]

/-- Invariant of DFA queue items: an item whose prefix ends in the
wildcard byte has a non-reserved parent row. -/
def ItemInv (it : DItem) : Prop :=
  it.pfx.getLast? = some WILDCARD_BYTE → 2 ≤ it.parentState

/-- The per-byte step of dfa.rs `Cylon::state` as a named function:
`none` stands for a panic already raised or raised on this byte. -/
def dfaStep (c : Cylon) (st : Option Nat) (ch : Nat) : Option Nat :=
  match st with
  | none => none
  | some s =>
    match c.transitions[s]? with
    | none => none
    | some row => findStep row ch

/-- A transition row is well formed for a table of `n` rows when it
holds an any-byte transition (so the `find(..).unwrap()` inside dfa.rs
`Cylon::state` always succeeds) and every target is in range. -/
def rowOk (n : Nat) (row : List Transition) : Prop :=
  (∃ t ∈ row, t.edge = Edge.matchAny) ∧ ∀ t ∈ row, t.target < n

/-- Well-formedness of a compiled DFA: one row per state, no
intermediate state survives compilation, and every row is well formed
for the table itself.  This is what makes the indexing, the `unwrap()`
and the `unreachable!()` of the query path safe. -/
def machOk (c : Cylon) : Prop :=
  c.states.length = c.transitions.length ∧
  (∀ s ∈ c.states, s ≠ State.intermediate) ∧
  ∀ row ∈ c.transitions, rowOk c.transitions.length row

/-- Invariant of the DFA construction loop: lengths agree, the reserved
sinks are in place, no built state is intermediate, every queued item
carries a reserved wildcard fallback, and all transition targets stay
below the number of rows the loop is still guaranteed to build (one per
existing row plus one per pending queue item). -/
def buildOk (states : List State) (transitions : List (List Transition))
    (queue : List DItem) : Prop :=
  states.length = transitions.length ∧
  states[0]? = some State.allow ∧ states[1]? = some State.disallow ∧
  (∀ s ∈ states, s ≠ State.intermediate) ∧
  (∀ row ∈ transitions, rowOk (transitions.length + queue.length) row) ∧
  ∀ it ∈ queue, it.wildcardState = 0 ∨ it.wildcardState = 1

/-- Invariant of the rule fold inside one construction step: the number
of rows is unchanged and the target bound of every touched row grows
with the number of children pushed so far. -/
def accOk (L restLen ws : Nat) (acc : DAcc) : Prop :=
  acc.transitions.length = L ∧
  (∀ row ∈ acc.transitions, rowOk (L + 1 + restLen + acc.pushed.length) row) ∧
  (∃ t ∈ acc.t, t.edge = Edge.matchAny) ∧
  (∀ t ∈ acc.t, t.target < L + 1 + restLen + acc.pushed.length) ∧
  ∀ x ∈ acc.pushed, x.wildcardState = ws

/-- Strict version of the lexicographic byte order. -/
def bytesLt (a b : List Nat) : Prop :=
  Nfa.bytesLe a b = true ∧ a ≠ b

instance (a b : List Nat) : Decidable (bytesLt a b) := by
  unfold bytesLt; infer_instance

/-- Number of trie edges the rule `r` can still force the construction
to build strictly below the prefix `pp`. -/
def ruleSlack (pp : List Nat) (r : Rule) : Nat :=
  if pp.isPrefixOf r.inner ∧ r.inner ≠ pp then r.inner.length - pp.length else 0

/-- Potential of a queue-item prefix: the total slack of all rules
strictly below it. -/
def pfxPot (rules : List Rule) (pp : List Nat) : Nat :=
  (rules.map (ruleSlack pp)).sum

/-- Potential of the whole queue: each item costs one loop iteration
plus whatever children its prefix can still spawn. -/
def queuePot (rules : List Rule) (queue : List DItem) : Nat :=
  (queue.map (fun it => 1 + pfxPot rules it.pfx)).sum

/-- Slack of a rule counted only when its one-byte child extension of
`pp` lies strictly beyond the deduplication cursor `c`. -/
def cursorSlack (pp c : List Nat) (r : Rule) : Nat :=
  if pp.isPrefixOf r.inner ∧ r.inner ≠ pp ∧ bytesLt c (r.inner.take (pp.length + 1))
  then r.inner.length - pp.length else 0

/-- Slack of a rule counted only when its one-byte child extension of
`pp` is exactly the just-pushed prefix `q0`. -/
def blockSlack (pp q0 : List Nat) (r : Rule) : Nat :=
  if pp.isPrefixOf r.inner ∧ r.inner ≠ pp ∧ r.inner.take (pp.length + 1) = q0
  then r.inner.length - pp.length else 0

end Dfa

end Cylon

namespace Cylon.Sanity

/-! Sanity checks that the embedding reproduces the behaviour pinned by
the unit tests of nfa.rs (`test_allow`, `test_priority_2`,
`test_allow_match_eow`, `test_compile_1`). -/

open Nfa

example :
    (Cylon.compile [.disallow [47], .allow [47, 97], .allow [47, 97, 98, 99], .allow [47, 98]]).allow
      [47] = false := by decide

example :
    (Cylon.compile [.disallow [47], .allow [47, 97], .allow [47, 97, 98, 99], .allow [47, 98]]).allow
      [47, 97, 47, 98] = true := by decide

example :
    (Cylon.compile [.disallow [47, 97, 98, 46, 99], .allow [47, 42, 46, 99]]).allow
      [47, 97, 98, 46, 99] = false := by decide

example :
    (Cylon.compile [.disallow [47, 97, 98, 46, 99], .allow [47, 42, 46, 99]]).allow
      [47, 97, 46, 99] = true := by decide

example :
    (Cylon.compile [.allow [47], .disallow [47, 105, 103, 110, 111, 114, 101, 36]]).allow
      [47, 105, 103, 110, 111, 114, 101] = false := by decide

example :
    (Cylon.compile [.allow [47], .disallow [47, 105, 103, 110, 111, 114, 101, 36]]).allow
      [47, 105, 103, 110, 111, 114, 101, 97] = true := by decide

example :
    (Cylon.compile [.allow [47, 97], .disallow [47, 97, 98, 99], .allow [47, 97, 42, 99]]).states =
      [⟨.allow, [(47, 2)], 0, [1]⟩,
       ⟨.allow, [], 0, []⟩,
       ⟨.allow, [(97, 3)], 1, [1]⟩,
       ⟨.allow, [(98, 6), (99, 7)], 2, [4, 5]⟩,
       ⟨.allow, [], 2, []⟩,
       ⟨.allow, [(99, 7)], 3, [5]⟩,
       ⟨.allow, [(99, 9)], 3, [4, 5]⟩,
       ⟨.allow, [], 4, [8]⟩,
       ⟨.allow, [], 4, []⟩,
       ⟨.disallow, [], 4, [10]⟩,
       ⟨.disallow, [], 4, []⟩] := by decide

example :
    (Dfa.Cylon.compile [.disallow [47], .allow [47, 97], .allow [47, 97, 98, 99], .allow [47, 98]]).transitions =
      [[⟨.matchAny, 0⟩],
       [⟨.matchAny, 1⟩],
       [⟨.matchAny, 0⟩, ⟨.matchByte 47, 3⟩],
       [⟨.matchAny, 1⟩, ⟨.matchByte 97, 4⟩, ⟨.matchByte 98, 5⟩],
       [⟨.matchAny, 0⟩, ⟨.matchByte 98, 6⟩],
       [⟨.matchAny, 0⟩],
       [⟨.matchAny, 0⟩, ⟨.matchByte 99, 7⟩],
       [⟨.matchAny, 0⟩]] := by decide

example :
    (Dfa.Cylon.compile [.disallow [47], .allow [47, 97], .allow [47, 42, 46, 98]]).transitions =
      [[⟨.matchAny, 0⟩],
       [⟨.matchAny, 1⟩],
       [⟨.matchAny, 0⟩, ⟨.matchByte 47, 3⟩],
       [⟨.matchAny, 1⟩, ⟨.matchAny, 4⟩, ⟨.matchByte 97, 5⟩, ⟨.matchByte 46, 6⟩],
       [⟨.matchAny, 4⟩, ⟨.matchByte 46, 6⟩],
       [⟨.matchAny, 0⟩],
       [⟨.matchAny, 1⟩, ⟨.matchByte 98, 7⟩],
       [⟨.matchAny, 0⟩]] := by decide

example :
    (Dfa.Cylon.compile [.disallow [47], .allow [47, 97], .allow [47, 42, 46, 98]]).states =
      [.allow, .disallow, .allow, .disallow, .disallow, .allow, .disallow, .allow] := by decide

example :
    (Dfa.Cylon.compile [.allow [47], .disallow [47, 97, 36], .disallow [47, 120, 36, 121]]).transitions =
      [[⟨.matchAny, 0⟩],
       [⟨.matchAny, 1⟩],
       [⟨.matchAny, 0⟩, ⟨.matchByte 47, 3⟩],
       [⟨.matchAny, 0⟩, ⟨.matchByte 97, 4⟩, ⟨.matchByte 120, 5⟩],
       [⟨.matchAny, 0⟩, ⟨.matchEow, 6⟩],
       [⟨.matchAny, 0⟩, ⟨.matchEow, 7⟩],
       [⟨.matchAny, 0⟩],
       [⟨.matchAny, 0⟩, ⟨.matchByte 121, 8⟩],
       [⟨.matchAny, 1⟩]] := by decide

example :
    (Dfa.Cylon.compile [.disallow [47], .allow [47, 102, 105, 115, 104, 47]]).allow
      [47, 102, 105, 115, 104, 47, 120] = some true := by decide

example :
    (Dfa.Cylon.compile [.disallow [47], .allow [47, 102, 105, 115, 104, 47]]).allow
      [47, 102, 105, 115, 104] = some false := by decide

/-! Sanity checks for the parser, mirroring parse.rs `test_parse_allow`,
`test_parse_user_agent`, `test_parse_nothing`, `test_end_to_end` and
`test_invalid_2`. -/

example : Parse.parseLine (cs "allow: /   #  Root with comment") =
    .rule (.allow (cs "/")) := by decide

example : Parse.parseLine (cs "Disallow:   /abc/def  ") =
    .rule (.disallow (cs "/abc/def")) := by decide

example : Parse.parseLine (cs "  USER-AGENT:   ImABot  ") =
    .userAgent (cs "imabot") := by decide

example : Parse.parseLine (cs "Useragent: *") = .nothing := by decide

example : Parse.parseLine (cs "alow: /") = .nothing := by decide

example :
    (Parse.compileFile (cs "foobar")
      [cs "User-agent: jones-bot", cs "Disallow: /", cs "",
       cs "User-agent: foo", cs "Allow: /", cs "Crawl-Delay: 20", cs "",
       cs "User-agent: jones", cs "User-agent: foobar", cs "Allow: /", cs "",
       cs "User-agent: *", cs "Disallow: /"]).allow (bs "/index.html") = true := by decide

example :
    (Parse.compileFile (cs "imabot")
      [cs "User-agent: jones-bot", cs "Disallow: /", cs "",
       cs "User-agent: foo", cs "Allow: /", cs "Crawl-Delay: 20", cs "",
       cs "User-agent: jones", cs "User-agent: foobar", cs "Allow: /", cs "",
       cs "User-agent: *", cs "Disallow: /"]).allow (bs "/index.html") = false := by decide

example :
    (Parse.compileFile (cs "foobar")
      [cs "User-agent: jones", cs "User-agent: foobar", cs "Disallow: /", cs "",
       cs "User-agent: imabot"]).allow (bs "/index.html") = false := by decide

example :
    (Parse.compileFile (cs "imabot")
      [cs "User-agent: jones", cs "User-agent: foobar", cs "Disallow: /", cs "",
       cs "User-agent: imabot"]).allow (bs "/index.html") = true := by decide

end Cylon.Sanity

namespace Cylon

open Parse

/-- C1: the spec says that when both an Allow and a Disallow pattern
match a path, the pattern of greater unanchored length decides.  At the
failing input below the rules are `Allow *` and `Disallow a*`, the path
is `a`, both patterns match it, the Disallow pattern is strictly longer
(2 against 1), yet the compiled matcher allows the path: the terminal
weight of the wildcard rule lives on a state that is not active yet,
and the Allow tie bonus of the shorter pattern wins. -/
theorem c1_longer_pattern_failure :
    specMatch (bs "*") (bs "a") = true ∧
    specMatch (bs "a*") (bs "a") = true ∧
    unanchoredLen (bs "*") < unanchoredLen (bs "a*") ∧
    (Nfa.Cylon.compile [.allow (bs "*"), .disallow (bs "a*")]).allow (bs "a") = true := by
  decide

/-- C2: the duplicate filter does keep a single Allow entry for the
duplicated pattern `/ab`, but the resulting matcher denies the path
`/abx` although `/ab` is its longest matching pattern (`/a` is shorter
and `/a*xz` does not match): the intermediate prefix state of the
unmatched rule `/a*xz` carries an inherited Disallow acceptance with a
larger weight. -/
theorem c2_dupe_filter_failure :
    Parse.filterDupes
        [.disallow (cs "/ab"), .disallow (cs "/a"), .disallow (cs "/a*xz"), .allow (cs "/ab")] =
      [.disallow (bs "/a"), .disallow (bs "/a*xz"), .allow (bs "/ab")] ∧
    specMatch (bs "/ab") (bs "/abx") = true ∧
    specMatch (bs "/a") (bs "/abx") = true ∧
    specMatch (bs "/a*xz") (bs "/abx") = false ∧
    unanchoredLen (bs "/a") < unanchoredLen (bs "/ab") ∧
    (Nfa.Cylon.compile
        [.disallow (bs "/a"), .disallow (bs "/a*xz"), .allow (bs "/ab")]).allow (bs "/abx")
      = false := by
  decide

/-- C3 counterexample: for `s = "/"` the matcher compiled from the
single rule `Disallow /$` must, by the claim, return true on every path
other than `s`; but the empty path, which differs from `s`, is rewritten
to `/` by the query and is denied. -/
theorem c3_anchored_counterexample :
    (Nfa.Cylon.compile [.disallow (bs "/$")]).allow (bs "") = false ∧ bs "" ≠ bs "/" := by
  decide

/-- C4 counterexample: the claim's match relation for `u*v` demands a
split `p = x ++ y` with `y` ending in `v`.  For the pattern `a*b` and
the path `aba` no such split exists, so by the claim the single rule
`Disallow a*b` does not match `aba` and the query must allow it; the
compiled matcher denies it, because the code matches `v` anywhere after
`u`, not only at the end. -/
theorem c4_wildcard_counterexample :
    splitEndsMatch (bs "a") (bs "b") (bs "aba") = false ∧
    (Nfa.Cylon.compile [.disallow (bs "a*b")]).allow (bs "aba") = false := by
  decide

/-- C5 counterexample: the header of the first group is `a, abc`, both
matching the caller identity `abc`; the claim says the selector keeps
the longest such token `abc` (length 3), which would bar the second
group's token `ab` (length 2) and leave the rules `Disallow /x`.  The
code keeps the first matching token `a` (length 1), so the second group
wins and the selected rules are `Allow /`. -/
theorem c5_selector_counterexample :
    containsSub (cs "abc") (cs "abc") = true ∧
    containsSub (cs "abc") (cs "ab") = true ∧
    Parse.compileRules (cs "abc")
        [cs "user-agent: a", cs "user-agent: abc", cs "disallow: /x",
         cs "user-agent: ab", cs "allow: /"]
      = [.allow (cs "/")] := by
  decide

/-- C6 counterexample: a robots file whose last line is a user-agent
header with no following rules.  The claim says such a pending group is
never emitted and never replaces a previously selected rule list; but
for the identity `foobar` the trailing header `foobar` is emitted, is
more specific than the previously kept token `foo`, and replaces the
selected rules `Disallow /` with the empty list, so the path `/x`
becomes allowed.  Dropping the trailing line restores the denial. -/
theorem c6_trailing_header_counterexample :
    (Parse.compileFile (cs "foobar")
        [cs "user-agent: foo", cs "disallow: /", cs "user-agent: foobar"]).allow (bs "/x")
      = true ∧
    (Parse.compileFile (cs "foobar")
        [cs "user-agent: foo", cs "disallow: /"]).allow (bs "/x") = false := by
  decide

/-- C7 counterexample: in the non-deterministic variant state 1 is not
an always-Disallow sink: already for the empty rule list its acceptance
is Allow (state 0 is the root and state 1 the Allow fallback sink). -/
theorem c7_reserved_states_counterexample :
    ((Nfa.Cylon.compile []).states[1]?).map Nfa.Node.accept ≠ some Accept.disallow := by
  decide

/-- C9 (amended): on the rule list with the malformed pattern
`/foo$bar` the two variants disagree at the path `/foo$bar`: the
deterministic matcher allows it and the non-deterministic matcher
denies it, exactly as pinned by the two `test_allow_match_eow` tests. -/
theorem c9_eow_disagreement :
    (Dfa.Cylon.compile
        [.allow (bs "/"), .disallow (bs "/ignore$"), .disallow (bs "/foo$bar")]).allow
      (bs "/foo$bar") = some true ∧
    (Nfa.Cylon.compile
        [.allow (bs "/"), .disallow (bs "/ignore$"), .disallow (bs "/foo$bar")]).allow
      (bs "/foo$bar") = false := by
  decide

/-- C9 counterexample: the claim also asserts that the two variants
agree on all well-formed patterns.  The rule list `Disallow /*b`,
`Allow //` contains no dollar sign at all, yet on the path `//b` the
non-deterministic matcher denies and the deterministic matcher
allows. -/
theorem c9_wellformed_disagreement :
    (Nfa.Cylon.compile [.disallow (bs "/*b"), .allow (bs "//")]).allow (bs "//b") = false ∧
    (Dfa.Cylon.compile [.disallow (bs "/*b"), .allow (bs "//")]).allow (bs "//b")
      = some true := by
  decide

end Cylon

namespace Cylon

/-- C10: the allow query of the non-deterministic variant fails open.
Missing states are skipped by the lookup (`self.states.get(s)` in the
source, `c.states[s]?` here), and when no surviving index resolves to a
state — in particular for an empty state list, as obtained by
deserializing a degenerate matcher — the query returns true. -/
theorem c10_fail_open (c : Nfa.Cylon) (path : List Nat)
    (h : c.states = [] ∨
      (Nfa.activeAfter c (if path.isEmpty then [47] else path)).filterMap
        (fun s => c.states[s]?) = []) :
    c.allow path = true := by
  have hnil : (Nfa.activeAfter c (if path.isEmpty then [47] else path)).filterMap
      (fun s => c.states[s]?) = [] := by
    rcases h with h | h
    · rw [List.filterMap_eq_nil_iff]
      intro a _
      simp [h]
    · exact h
  simp only [Nfa.Cylon.allow, hnil, Nfa.maxByKey, List.foldl_nil]

/-- Witness for C10 at the empty matcher and the path "/". -/
theorem c10_fail_open_witness : (Nfa.Cylon.mk []).allow [47] = true :=
  c10_fail_open ⟨[]⟩ [47] (Or.inl rfl)

/-- C6 (amended): at end of input the group reader emits the pending
header exactly when it is nonempty, regardless of buffered rules; and
on the counterexample file the trailing matching header replaces the
previously selected rules with the empty list. -/
theorem c6_end_of_input_emission :
    (∀ st : Parse.ReaderState,
      (Parse.nextHeader st []).1 = if st.agents.isEmpty then none else some st.agents) ∧
    Parse.compileRules (cs "foobar")
      [cs "user-agent: foo", cs "disallow: /", cs "user-agent: foobar"] = [] := by
  refine ⟨fun st => rfl, by decide⟩

end Cylon

namespace Cylon.Nfa

theorem getD_cases (l : List Node) (i : Nat) (d : Node) : l.getD i d ∈ l ∨ l.getD i d = d := by
  rw [List.getD_eq_getElem?_getD]
  cases h : l[i]? with
  | none => right; rfl
  | some n => left; simpa using List.getElem?_mem h

theorem sinkInv_getD_edges {l : List Node} (h : SinkInv l) (i : Nat) :
    ∀ e ∈ (l.getD i dNode).edges, 2 ≤ e.2 := by
  rcases getD_cases l i dNode with hm | hd
  · exact h.2.2 _ hm
  · rw [hd]; intro e he; simp [dNode] at he

theorem sinkInv_modifyNode {l : List Node} {i : Nat} {f : Node → Node}
    (h : SinkInv l) (hi : i ≠ 1)
    (hf : ∀ n, (∀ e ∈ n.edges, 2 ≤ e.2) → ∀ e ∈ (f n).edges, 2 ≤ e.2) :
    SinkInv (modifyNode l i f) := by
  obtain ⟨hlen, h1, hedges⟩ := h
  refine ⟨by simpa [modifyNode] using hlen, ?_, ?_⟩
  · rw [modifyNode, List.getElem?_set_ne hi]; exact h1
  · intro n hn e he
    rcases List.mem_or_eq_of_mem_set hn with hmem | heq
    · exact hedges n hmem e he
    · subst heq
      exact hf _ (sinkInv_getD_edges ⟨hlen, h1, hedges⟩ i) e he

theorem sinkInv_append {l ns : List Node}
    (h : SinkInv l) (hns : ∀ n ∈ ns, n.edges = []) : SinkInv (l ++ ns) := by
  obtain ⟨hlen, h1, hedges⟩ := h
  refine ⟨le_trans hlen (by simp), ?_, ?_⟩
  · rw [List.getElem?_append_left (by omega)]; exact h1
  · intro n hn e he
    rcases List.mem_append.mp hn with hmem | hmem
    · exact hedges n hmem e he
    · rw [hns n hmem] at he; simp at he

theorem sinkInv_addEps {l : List Node} {eps : Option Nat} {edge state : Nat}
    (h : SinkInv l) (heps : eps ≠ some 1) (hstate : 2 ≤ state) :
    SinkInv (addEps eps edge state l) := by
  cases eps with
  | none => exact h
  | some gp =>
    have hgp : gp ≠ 1 := fun hgp2 => heps (by rw [hgp2])
    simp only [addEps]
    refine sinkInv_modifyNode h hgp ?_
    intro n hn e he
    rcases List.mem_append.mp he with hm | hm
    · exact hn e hm
    · simp only [List.mem_singleton] at hm
      rw [hm]
      exact hstate

theorem sinkInv_sibFold {sib : List (Nat × Nat)} {l : List Node} {state : Nat}
    (h : SinkInv l) (hsib : ∀ e ∈ sib, 2 ≤ e.2) :
    SinkInv (sib.foldl (fun l2 e => modifyNode l2 e.2
      (fun n => { n with wildcards := n.wildcards ++ [state] })) l) := by
  induction sib generalizing l with
  | nil => exact h
  | cons e rest ih =>
    simp only [List.foldl_cons]
    refine ih ?_ ?_
    · refine sinkInv_modifyNode h ?_ ?_
      · have := hsib e (by simp)
        omega
      · intro n hn e2 he2; exact hn e2 he2
    · intro e2 he2; exact hsib e2 (by simp [he2])

set_option maxHeartbeats 3200000 in
theorem stepRule_inv (pp : List Nat) (ps : Nat) (eps : Option Nat) (rule : Rule)
    (acc : BuildAcc) (hps : ps ≠ 1) (heps : eps ≠ some 1)
    (hst : SinkInv acc.states) (hpu : ∀ it ∈ acc.pushed, ItemInv it) :
    SinkInv (stepRule pp ps eps acc rule).states ∧
      ∀ it ∈ (stepRule pp ps eps acc rule).pushed, ItemInv it := by
  have hlen2 : 2 ≤ acc.states.length := hst.1
  have hstate1 : acc.states.length ≠ 1 := by omega
  cases rule <;>
  (unfold stepRule
   split
   · exact ⟨hst, hpu⟩
   try dsimp only
   split
   · exact ⟨hst, hpu⟩
   split
   · exact ⟨hst, hpu⟩
   try dsimp only
   split
   · -- wildcard child with non-wildcard parent edge
     constructor
     · refine sinkInv_append (sinkInv_addEps (sinkInv_sibFold ?_ ?_) heps hlen2) ?_
       · exact sinkInv_modifyNode hst hps (fun n hn e he => hn e he)
       · refine sinkInv_getD_edges ?_ ps
         exact sinkInv_modifyNode hst hps (fun n hn e he => hn e he)
       · intro n hn
         simp only [List.mem_singleton] at hn
         rw [hn]
     · intro it hit
       rcases List.mem_append.mp hit with hm | hm
       · exact hpu it hm
       · simp only [List.mem_singleton] at hm
         rw [hm]
         exact ⟨hstate1, by simpa using hps⟩
   split
   · -- consecutive wildcard collapse
     refine ⟨hst, ?_⟩
     intro it hit
     rcases List.mem_append.mp hit with hm | hm
     · exact hpu it hm
     · simp only [List.mem_singleton] at hm
       rw [hm]
       exact ⟨hps, by simp⟩
   split
   · -- end-of-word child
     constructor
     · refine sinkInv_append (sinkInv_addEps ?_ heps hlen2) ?_
       · exact sinkInv_modifyNode hst hps (fun n hn e he => hn e he)
       · intro n hn
         simp only [List.mem_singleton] at hn
         rw [hn]
     · intro it hit
       rcases List.mem_append.mp hit with hm | hm
       · exact hpu it hm
       · simp only [List.mem_singleton] at hm
         rw [hm]
         exact ⟨hstate1, by simp⟩
   -- literal child
   constructor
   · refine sinkInv_append (sinkInv_append (sinkInv_addEps ?_ heps hlen2) ?_) ?_
     · refine sinkInv_modifyNode hst hps ?_
       intro n hn e he
       rcases List.mem_append.mp he with hm | hm
       · exact hn e hm
       · simp only [List.mem_singleton] at hm
         rw [hm]
         exact hlen2
     · intro n hn
       simp only [List.mem_singleton] at hn
       rw [hn]
     · intro n hn
       split at hn
       · simp only [List.mem_singleton] at hn
         rw [hn]
       · simp at hn
   · intro it hit
     rcases List.mem_append.mp hit with hm | hm
     · exact hpu it hm
     · simp only [List.mem_singleton] at hm
       rw [hm]
       exact ⟨hstate1, by simp⟩)

theorem processItem_inv (rules : List Rule) (it : QueueItem) (states : List Node)
    (hit : ItemInv it) (hst : SinkInv states) :
    SinkInv (processItem rules it states).1 ∧
      ∀ j ∈ (processItem rules it states).2, ItemInv j := by
  unfold processItem
  dsimp only
  have main : ∀ (rs : List Rule) (acc : BuildAcc), SinkInv acc.states →
      (∀ j ∈ acc.pushed, ItemInv j) →
      SinkInv (rs.foldl (stepRule it.parentPfx it.parentState it.epsilonState) acc).states ∧
        ∀ j ∈ (rs.foldl (stepRule it.parentPfx it.parentState it.epsilonState) acc).pushed,
          ItemInv j := by
    intro rs
    induction rs with
    | nil => intro acc h1 h2; exact ⟨h1, h2⟩
    | cons r rest ih =>
      intro acc h1 h2
      simp only [List.foldl_cons]
      have hr := stepRule_inv it.parentPfx it.parentState it.epsilonState r acc hit.1 hit.2 h1 h2
      exact ih _ hr.1 hr.2
  exact main rules ⟨states, [], []⟩ hst (by intro j hj; simp at hj)

theorem compileLoop_inv (rules : List Rule) (fuel : Nat) (states : List Node)
    (queue : List QueueItem) (hst : SinkInv states) (hq : ∀ it ∈ queue, ItemInv it) :
    SinkInv (compileLoop rules fuel states queue) := by
  induction fuel generalizing states queue with
  | zero => exact hst
  | succ f ih =>
    cases queue with
    | nil => exact hst
    | cons it rest =>
      simp only [compileLoop]
      have h := processItem_inv rules it states (hq it (by simp)) hst
      refine ih _ _ h.1 ?_
      intro j hj
      rcases List.mem_append.mp hj with hj | hj
      · exact hq j (by simp [hj])
      · exact h.2 j hj

theorem compile_sinkInv (rules : List Rule) : SinkInv (Cylon.compile rules).states := by
  unfold Cylon.compile
  dsimp only
  refine compileLoop_inv _ _ _ _ ⟨by simp, rfl, ?_⟩ ?_
  · intro n hn e he
    simp only [List.mem_cons, List.mem_singleton] at hn
    rcases hn with hn | hn | hn
    · rw [hn] at he; simp at he
    · rw [hn] at he; simp at he
    · simp at hn
  · intro it hit
    simp only [List.mem_singleton] at hit
    rw [hit]
    exact ⟨by simp, by simp⟩

end Cylon.Nfa

namespace Cylon.Dfa

theorem trInv_modifyRow {t : List (List Transition)} {i : Nat} {f : List Transition → List Transition}
    (h : TrInv t) (hi : 2 ≤ i) : TrInv (modifyRow t i f) := by
  obtain ⟨hlen, h0, h1⟩ := h
  refine ⟨by simpa [modifyRow] using hlen, ?_, ?_⟩
  · rw [modifyRow, List.getElem?_set_ne (by omega)]; exact h0
  · rw [modifyRow, List.getElem?_set_ne (by omega)]; exact h1

theorem trInv_append {t : List (List Transition)} (h : TrInv t) (rows : List (List Transition)) :
    TrInv (t ++ rows) := by
  obtain ⟨hlen, h0, h1⟩ := h
  refine ⟨le_trans hlen (by simp), ?_, ?_⟩
  · rw [List.getElem?_append_left (by omega)]; exact h0
  · rw [List.getElem?_append_left (by omega)]; exact h1

theorem stInv_append {s : List State} (h : StInv s) (sts : List State) :
    StInv (s ++ sts) := by
  obtain ⟨hlen, h0, h1⟩ := h
  refine ⟨le_trans hlen (by simp), ?_, ?_⟩
  · rw [List.getElem?_append_left (by omega)]; exact h0
  · rw [List.getElem?_append_left (by omega)]; exact h1

set_option maxHeartbeats 3200000 in
theorem dStepRule_inv (pp : List Nat) (ws : Nat) (lastByte : Option Nat) (parentState : Nat)
    (restLen : Nat) (rule : Rule) (acc : DAcc)
    (hws : lastByte = some WILDCARD_BYTE → 2 ≤ parentState)
    (htr : TrInv acc.transitions) (hpu : ∀ it ∈ acc.pushed, 2 ≤ it.parentState) :
    TrInv (dStepRule pp ws lastByte parentState restLen acc rule).transitions ∧
      ∀ it ∈ (dStepRule pp ws lastByte parentState restLen acc rule).pushed,
        2 ≤ it.parentState := by
  cases rule <;>
  (unfold dStepRule
   try dsimp only [Rule.inner]
   split
   · exact ⟨htr, hpu⟩
   split
   · exact ⟨htr, hpu⟩
   try dsimp only
   split
   · exact ⟨htr, hpu⟩
   try dsimp only
   constructor
   · split
     · exact trInv_modifyRow htr (by rename_i hw; exact hws hw)
     · exact htr
   · intro it hit
     rcases List.mem_append.mp hit with hm | hm
     · exact hpu it hm
     · simp only [List.mem_singleton] at hm
       rw [hm]
       exact htr.1)

theorem dProcessItem_inv (rules : List Rule) (it : DItem) (states : List State)
    (transitions : List (List Transition)) (restLen : Nat)
    (hit : ItemInv it) (hst : StInv states) (htr : TrInv transitions) :
    StInv (dProcessItem rules it states transitions restLen).1 ∧
      TrInv (dProcessItem rules it states transitions restLen).2.1 ∧
      ∀ j ∈ (dProcessItem rules it states transitions restLen).2.2, 2 ≤ j.parentState := by
  have main : ∀ (ws2 : Nat) (lb : Option Nat),
      (lb = some WILDCARD_BYTE → 2 ≤ it.parentState) →
      ∀ (rs : List Rule) (acc : DAcc), TrInv acc.transitions →
      (∀ j ∈ acc.pushed, 2 ≤ j.parentState) →
      TrInv (rs.foldl (dStepRule it.pfx ws2 lb it.parentState restLen) acc).transitions ∧
        ∀ j ∈ (rs.foldl (dStepRule it.pfx ws2 lb it.parentState restLen) acc).pushed,
          2 ≤ j.parentState := by
    intro ws2 lb hlb rs
    induction rs with
    | nil => intro acc h1 h2; exact ⟨h1, h2⟩
    | cons r rest ih =>
      intro acc h1 h2
      simp only [List.foldl_cons]
      exact ih _ (dStepRule_inv _ _ _ _ _ r acc hlb h1 h2).1
        (dStepRule_inv _ _ _ _ _ r acc hlb h1 h2).2
  unfold dProcessItem
  dsimp only
  refine ⟨stInv_append hst _, ?_, ?_⟩
  · refine trInv_append ?_ _
    exact (main _ _ hit rules ⟨_, [], transitions, []⟩ htr (by intro j hj; simp at hj)).1
  · exact (main _ _ hit rules ⟨_, [], transitions, []⟩ htr (by intro j hj; simp at hj)).2

theorem dCompileLoop_inv (rules : List Rule) (fuel : Nat) (states : List State)
    (transitions : List (List Transition)) (queue : List DItem)
    (hst : StInv states) (htr : TrInv transitions) (hq : ∀ it ∈ queue, ItemInv it) :
    StInv (dCompileLoop rules fuel states transitions queue).1 ∧
      TrInv (dCompileLoop rules fuel states transitions queue).2 := by
  induction fuel generalizing states transitions queue with
  | zero => exact ⟨hst, htr⟩
  | succ f ih =>
    cases queue with
    | nil => exact ⟨hst, htr⟩
    | cons it rest =>
      simp only [dCompileLoop]
      have h := dProcessItem_inv rules it states transitions rest.length
        (hq it (by simp)) hst htr
      refine ih _ _ _ h.1 h.2.1 ?_
      intro j hj
      rcases List.mem_append.mp hj with hj | hj
      · exact hq j (by simp [hj])
      · intro _; exact le_trans (by omega) (h.2.2 j hj)

theorem compile_stInv_trInv (rules : List Rule) :
    StInv (Cylon.compile rules).states ∧ TrInv (Cylon.compile rules).transitions := by
  unfold Cylon.compile
  dsimp only
  refine dCompileLoop_inv _ _ _ _ _ ⟨by simp, rfl, rfl⟩ ⟨by simp, rfl, rfl⟩ ?_
  intro it hit
  simp only [List.mem_singleton] at hit
  rw [hit]
  intro hw
  simp at hw

end Cylon.Dfa

namespace Cylon

/-- C7 (amended): in the deterministic variant state 0 is the Allow
sink and state 1 the Disallow sink, each a single any-byte self-loop,
and no amount of compilation disturbs them; in the non-deterministic
variant it is state 1 that is a reserved sink, an always-Allow one with
no edges, which compilation likewise never modifies (state 0 is the
root, and no reserved Disallow sink exists). -/
theorem c7_reserved_states (rules : List Rule) :
    (Dfa.Cylon.compile rules).states[0]? = some .allow ∧
    (Dfa.Cylon.compile rules).transitions[0]? = some [⟨.matchAny, 0⟩] ∧
    (Dfa.Cylon.compile rules).states[1]? = some .disallow ∧
    (Dfa.Cylon.compile rules).transitions[1]? = some [⟨.matchAny, 1⟩] ∧
    (Nfa.Cylon.compile rules).states[1]? = some ⟨.allow, [], 0, []⟩ := by
  have hd := Dfa.compile_stInv_trInv rules
  have hn := Nfa.compile_sinkInv rules
  exact ⟨hd.1.2.1, hd.2.2.1, hd.1.2.2, hd.2.2.2, hn.2.1⟩

end Cylon

namespace Cylon

theorem rangeMap_length {α : Type} (f : Nat → α) (k : Nat) :
    ((List.range k).map f).length = k := by simp

theorem rangeMap_getElem? {α : Type} (f : Nat → α) {k i : Nat} (h : i < k) :
    ((List.range k).map f)[i]? = some (f i) := by
  rw [List.getElem?_map, List.getElem?_range h]
  rfl

theorem rangeMap_getElem?_ge {α : Type} (f : Nat → α) {k i : Nat} (h : k ≤ i) :
    ((List.range k).map f)[i]? = none := by
  rw [List.getElem?_eq_none]
  simpa using h

theorem rangeMap_getD {α : Type} (f : Nat → α) {k i : Nat} (d : α) (h : i < k) :
    ((List.range k).map f).getD i d = f i := by
  rw [List.getD_eq_getElem?_getD, rangeMap_getElem? f h]
  rfl

theorem rangeMap_set {α : Type} (f : Nat → α) {k i : Nat} (v : α) :
    ((List.range k).map f).set i v =
      (List.range k).map (fun x => if x = i then v else f x) := by
  apply List.ext_getElem?
  intro j
  by_cases hj : j < k
  · by_cases hij : j = i
    · subst hij
      rw [List.getElem?_set_self (by simpa using hj), rangeMap_getElem? _ hj]
      simp
    · rw [List.getElem?_set_ne (fun he => hij he.symm), rangeMap_getElem? _ hj,
        rangeMap_getElem? _ hj]
      simp [hij]
  · rw [List.getElem?_eq_none (by simp; omega), List.getElem?_eq_none (by simp; omega)]

theorem rangeMap_succ {α : Type} (f : Nat → α) (k : Nat) :
    (List.range (k + 1)).map f = (List.range k).map f ++ [f k] := by
  rw [List.range_succ, List.map_append]
  rfl

theorem rangeMap_congr {α : Type} {f g : Nat → α} {k : Nat} (h : ∀ i < k, f i = g i) :
    (List.range k).map f = (List.range k).map g := by
  apply List.map_congr_left
  intro i hi
  exact h i (List.mem_range.mp hi)

end Cylon

namespace Cylon.Nfa

theorem metaFree_getD {s : List Nat} (hs : metaFree s) {j : Nat} (hj : j < s.length) :
    s.getD j 0 ≠ WILDCARD_BYTE ∧ s.getD j 0 ≠ EOW_BYTE := by
  have hmem : s.getD j 0 ∈ s := by
    rw [List.getD_eq_getElem?_getD, List.getElem?_eq_getElem hj]
    exact List.getElem_mem hj
  exact ⟨fun h => hs.1 (h ▸ hmem), fun h => hs.2 (h ▸ hmem)⟩

theorem getLastD_take_succ {s : List Nat} {j : Nat} (hj : j < s.length) :
    (s.take (j + 1)).getLastD 0 = s.getD j 0 := by
  rw [List.take_succ, List.getElem?_eq_getElem hj, List.getD_eq_getElem?_getD,
    List.getElem?_eq_getElem hj, Option.toList_some, List.getLastD_concat, Option.getD_some]

theorem take_isPrefixOf_take_succ (s : List Nat) (j : Nat) :
    (s.take j).isPrefixOf (s.take (j + 1)) = true := by
  rw [List.isPrefixOf_iff_prefix]
  have : s.take j = (s.take (j + 1)).take j := by
    rw [List.take_take, Nat.min_eq_left (by omega)]
  rw [this]
  exact List.take_prefix j (s.take (j + 1))

theorem anchoredMidNode_step {s : List Nat} {j : Nat} (i : Nat) (hi : i < j + 2) :
    (if i = (if j = 0 then 0 else j + 1) then
        (⟨.allow, [(s.getD j 0, j + 2)], j, [1]⟩ : Node)
      else anchoredMidNode s j i) = anchoredMidNode s (j + 1) i := by
  by_cases hj0 : j = 0
  · subst hj0
    interval_cases i <;> simp [anchoredMidNode]
  · rw [if_neg hj0]
    by_cases hij : i = j + 1
    · subst hij
      rw [if_pos rfl]
      unfold anchoredMidNode
      rw [if_neg (by omega), if_neg (by omega), if_neg (by omega)]
      simp
    · rw [if_neg hij]
      unfold anchoredMidNode
      by_cases h0 : i = 0
      · subst h0
        rw [if_pos rfl, if_pos rfl, if_neg hj0, if_neg (by omega)]
      · by_cases h1 : i = 1
        · subst h1
          rw [if_neg h0, if_neg h0, if_pos rfl, if_pos rfl]
        · rw [if_neg h0, if_neg h0, if_neg h1, if_neg h1, if_neg hij, if_neg (by omega)]

theorem anchored_step (s : List Nat) (hs : metaFree s) {j : Nat} (hj : j < s.length) :
    stepRule (s.take j) (if j = 0 then 0 else j + 1) none
        ⟨anchoredMid s j, [], []⟩ (.disallow (s ++ [EOW_BYTE])) =
      ⟨anchoredMid s (j + 1), [⟨s.take (j + 1), j + 2, none⟩], s.take (j + 1)⟩ := by
  have hjl : (s.take j).length = j := List.length_take_of_le (by omega)
  have hp1 : ¬ (Rule.disallow (s ++ [EOW_BYTE])).inner.length < (s.take j).length + 1 := by
    simp only [Rule.inner, List.length_append, List.length_singleton, hjl]
    omega
  have hpfx : (Rule.disallow (s ++ [EOW_BYTE])).inner.take ((s.take j).length + 1) =
      s.take (j + 1) := by
    simp only [Rule.inner, hjl]
    exact List.take_append_of_le_length (by omega)
  have hlen1 : (s.take (j + 1)).length = j + 1 := List.length_take_of_le (by omega)
  have hpre : ¬ ¬ (s.take j).isPrefixOf (s.take (j + 1)) = true := by
    simp [take_isPrefixOf_take_succ]
  have hne : ¬ (([] : List Nat) = s.take (j + 1)) := by
    intro h
    have := congrArg List.length h
    simp [hlen1] at this
  have hterm : ¬ (s.take (j + 1) = (Rule.disallow (s ++ [EOW_BYTE])).inner) := by
    intro h
    have := congrArg List.length h
    simp [Rule.inner, hlen1] at this
    omega
  have hmid_len : (anchoredMid s j).length = j + 2 := rangeMap_length _ _
  have hedge := getLastD_take_succ hj
  have hmf := metaFree_getD hs hj
  unfold stepRule
  rw [if_neg hp1]
  dsimp only
  rw [hpfx, if_neg hpre, if_neg hne, if_neg (by
    intro hc
    rcases hc with ⟨hc1, -⟩
    rw [hedge] at hc1
    exact hmf.1 hc1), if_neg (by rw [hedge]; exact hmf.1), if_neg (by rw [hedge]; exact hmf.2)]
  rw [hedge, hmid_len]
  dsimp only [addEps]
  simp only [if_neg hterm, List.append_nil, List.nil_append]
  have hgd : (anchoredMid s j).getD (if j = 0 then 0 else j + 1) dNode =
      ⟨.allow, [], j, [1]⟩ := by
    by_cases hj0 : j = 0
    · subst hj0
      rw [if_pos rfl, anchoredMid, rangeMap_getD _ _ (by omega)]
      rfl
    · rw [if_neg hj0, anchoredMid, rangeMap_getD _ _ (by omega)]
      unfold anchoredMidNode
      rw [if_neg (by omega), if_neg (by omega), if_pos rfl]
  rw [hgd, hlen1]
  have hfil : List.filter (fun e => j + 2 != e) [1] = [1] := by
    rw [List.filter_cons_of_pos (by simp)]
    rfl
  congr 1
  rw [hfil, modifyNode, hgd]
  show (anchoredMid s j).set (if j = 0 then 0 else j + 1)
      ⟨.allow, [] ++ [(s.getD j 0, j + 2)], j, [1]⟩ ++ [⟨.allow, [], j + 1, [1]⟩] =
    anchoredMid s (j + 1)
  simp only [anchoredMid, List.nil_append]
  rw [rangeMap_set]
  have h32 : j + 1 + 2 = (j + 2) + 1 := by omega
  rw [h32]
  conv_rhs => rw [rangeMap_succ]
  congr 1
  · exact @rangeMap_congr Node
      (fun x => if x = (if j = 0 then 0 else j + 1) then
          (⟨.allow, [(s.getD j 0, j + 2)], j, [1]⟩ : Node)
        else anchoredMidNode s j x)
      (anchoredMidNode s (j + 1)) (j + 2) (fun i hi => anchoredMidNode_step i hi)
  · unfold anchoredMidNode
    rw [if_neg (by omega), if_neg (by omega), if_pos rfl]


theorem anchoredNode_of_mid {s : List Nat} (hsne : s ≠ []) (i : Nat) (hi : i < s.length + 2) :
    (if i = s.length + 1 then
        (⟨.disallow, [], s.length + 1, [1, s.length + 2]⟩ : Node)
      else anchoredMidNode s s.length i) = anchoredNode s i := by
  have hn : 1 ≤ s.length := List.length_pos.mpr hsne
  by_cases hi1 : i = s.length + 1
  · subst hi1
    rw [if_pos rfl]
    unfold anchoredNode
    rw [if_neg (by omega), if_neg (by omega), if_pos rfl]
  · rw [if_neg hi1]
    unfold anchoredMidNode anchoredNode
    by_cases h0 : i = 0
    · subst h0
      rw [if_pos rfl, if_pos rfl, if_neg (by omega)]
    · by_cases h1 : i = 1
      · subst h1
        rw [if_neg h0, if_neg h0, if_pos rfl, if_pos rfl]
      · rw [if_neg h0, if_neg h0, if_neg h1, if_neg h1, if_neg hi1, if_neg hi1,
          if_neg (by omega)]

theorem anchored_eow_step (s : List Nat) (hsne : s ≠ []) :
    stepRule s (s.length + 1) none ⟨anchoredMid s s.length, [], []⟩
        (.disallow (s ++ [EOW_BYTE])) =
      ⟨anchoredStates s, [⟨s ++ [EOW_BYTE], s.length + 2, none⟩], s ++ [EOW_BYTE]⟩ := by
  have hn : 1 ≤ s.length := List.length_pos.mpr hsne
  have hp1 : ¬ (Rule.disallow (s ++ [EOW_BYTE])).inner.length < s.length + 1 := by
    simp only [Rule.inner, List.length_append, List.length_singleton]
    omega
  have hpfx : (Rule.disallow (s ++ [EOW_BYTE])).inner.take (s.length + 1) =
      s ++ [EOW_BYTE] := by
    simp only [Rule.inner]
    have : s.length + 1 = (s ++ [EOW_BYTE]).length := by simp
    rw [this, List.take_length]
  have hpre : ¬ ¬ s.isPrefixOf (s ++ [EOW_BYTE]) = true := by
    simp [List.isPrefixOf_iff_prefix]
  have hne : ¬ (([] : List Nat) = s ++ [EOW_BYTE]) := by
    intro h
    have := congrArg List.length h
    simp at this
  have hterm : s ++ [EOW_BYTE] = (Rule.disallow (s ++ [EOW_BYTE])).inner := rfl
  have hmid_len : (anchoredMid s s.length).length = s.length + 2 := rangeMap_length _ _
  have hedge : (s ++ [EOW_BYTE]).getLastD 0 = EOW_BYTE := by
    rw [List.getLastD_concat]
  have hgd : (anchoredMid s s.length).getD (s.length + 1) dNode =
      ⟨.allow, [], s.length, [1]⟩ := by
    rw [anchoredMid, rangeMap_getD _ _ (by omega)]
    unfold anchoredMidNode
    rw [if_neg (by omega), if_neg (by omega), if_pos rfl]
  unfold stepRule
  rw [if_neg hp1]
  dsimp only
  rw [hpfx, if_neg hpre, if_neg hne, if_pos hterm, hedge, hmid_len]
  rw [if_neg (by
    intro hc
    rcases hc with ⟨hc1, -⟩
    exact absurd hc1 (by unfold EOW_BYTE WILDCARD_BYTE; omega))]
  rw [if_neg (by unfold EOW_BYTE WILDCARD_BYTE; omega), if_pos rfl]
  dsimp only [addEps]
  rw [hgd]
  congr 1
  rw [modifyNode, hgd]
  show (anchoredMid s s.length).set (s.length + 1)
      ⟨.disallow, [], (s ++ [EOW_BYTE]).length, [1] ++ [s.length + 2]⟩ ++
      [⟨.allow, [], (s ++ [EOW_BYTE]).length, []⟩] = anchoredStates s
  simp only [List.length_append, List.length_singleton]
  rw [anchoredMid, rangeMap_set, anchoredStates]
  have h32 : s.length + 3 = (s.length + 2) + 1 := by omega
  rw [h32]
  conv_rhs => rw [rangeMap_succ]
  congr 1
  · exact @rangeMap_congr Node
      (fun x => if x = s.length + 1 then
          (⟨.disallow, [], s.length + 1, [1, s.length + 2]⟩ : Node)
        else anchoredMidNode s s.length x)
      (anchoredNode s) (s.length + 2) (fun i hi => anchoredNode_of_mid hsne i hi)
  · unfold anchoredNode
    rw [if_neg (by omega), if_neg (by omega), if_neg (by omega), if_pos rfl]

theorem processItem_singleton (r : Rule) (it : QueueItem) (st : List Node) :
    processItem [r] it st =
      ((stepRule it.parentPfx it.parentState it.epsilonState ⟨st, [], []⟩ r).states,
       (stepRule it.parentPfx it.parentState it.epsilonState ⟨st, [], []⟩ r).pushed) := rfl

theorem anchored_last (s : List Nat) (st : List Node) :
    processItem [.disallow (s ++ [EOW_BYTE])] ⟨s ++ [EOW_BYTE], s.length + 2, none⟩ st =
      (st, []) := by
  rw [processItem_singleton]
  unfold stepRule
  rw [if_pos (by
    simp only [Rule.inner, List.length_append, List.length_singleton]
    omega)]


theorem anchored_loop (s : List Nat) (hs : metaFree s) (hsne : s ≠ []) :
    ∀ (d j fuel : Nat), j + d = s.length → d + 3 ≤ fuel →
      compileLoop [.disallow (s ++ [EOW_BYTE])] fuel (anchoredMid s j)
        [⟨s.take j, if j = 0 then 0 else j + 1, none⟩] = anchoredStates s := by
  have hn : 1 ≤ s.length := List.length_pos.mpr hsne
  intro d
  induction d with
  | zero =>
    intro j fuel hj hf
    have hjn : j = s.length := by omega
    subst hjn
    obtain ⟨f, rfl⟩ : ∃ f, fuel = f + 3 := ⟨fuel - 3, by omega⟩
    have hitem : (⟨s.take s.length, if s.length = 0 then 0 else s.length + 1, none⟩ :
        QueueItem) = ⟨s, s.length + 1, none⟩ := by
      rw [List.take_length, if_neg (by omega)]
    rw [hitem]
    show compileLoop [.disallow (s ++ [EOW_BYTE])] (f + 2 + 1) (anchoredMid s s.length)
      (⟨s, s.length + 1, none⟩ :: []) = anchoredStates s
    rw [compileLoop]
    rw [processItem_singleton]
    dsimp only
    rw [anchored_eow_step s hsne]
    show compileLoop [.disallow (s ++ [EOW_BYTE])] (f + 1 + 1) (anchoredStates s)
      (⟨s ++ [EOW_BYTE], s.length + 2, none⟩ :: []) = anchoredStates s
    rw [compileLoop]
    rw [anchored_last]
    show compileLoop [.disallow (s ++ [EOW_BYTE])] (f + 1) (anchoredStates s) [] =
      anchoredStates s
    cases f <;> rfl
  | succ d ih =>
    intro j fuel hj hf
    have hjlt : j < s.length := by omega
    obtain ⟨f, rfl⟩ : ∃ f, fuel = f + 1 := ⟨fuel - 1, by omega⟩
    show compileLoop [.disallow (s ++ [EOW_BYTE])] (f + 1) (anchoredMid s j)
      (⟨s.take j, if j = 0 then 0 else j + 1, none⟩ :: []) = anchoredStates s
    rw [compileLoop]
    rw [processItem_singleton]
    dsimp only
    rw [anchored_step s hs hjlt]
    have hitem : (⟨s.take (j + 1), j + 2, none⟩ : QueueItem) =
        ⟨s.take (j + 1), if j + 1 = 0 then 0 else (j + 1) + 1, none⟩ := by
      rw [if_neg (by omega)]
    rw [hitem]
    exact ih (j + 1) f (by omega) (by omega)

theorem anchored_compile (s : List Nat) (hs : metaFree s) (hsne : s ≠ []) :
    (Cylon.compile [.disallow (s ++ [EOW_BYTE])]).states = anchoredStates s := by
  unfold Cylon.compile
  dsimp only
  have hsort : sortRules [Rule.disallow (s ++ [EOW_BYTE])] =
      [.disallow (s ++ [EOW_BYTE])] := rfl
  have hfuel : nfaFuel [Rule.disallow (s ++ [EOW_BYTE])] = s.length + 3 := by
    simp only [nfaFuel, List.foldl_cons, List.foldl_nil, Rule.inner, List.length_append,
      List.length_singleton]
    omega
  rw [hsort, hfuel]
  have h0 : [(⟨.allow, [], 0, [1]⟩ : Node), ⟨.allow, [], 0, []⟩] = anchoredMid s 0 := rfl
  have hitem : (⟨[], 0, none⟩ : QueueItem) =
      ⟨s.take 0, if 0 = 0 then 0 else 0 + 1, none⟩ := rfl
  rw [h0, hitem]
  exact anchored_loop s hs hsne s.length 0 (s.length + 3) (by omega) (by omega)


theorem anchored_node_chain {s : List Nat} {i : Nat} (h2 : 2 ≤ i) (hin : i ≤ s.length) :
    anchoredNode s i = ⟨.allow, [(s.getD (i - 1) 0, i + 1)], i - 1, [1]⟩ := by
  unfold anchoredNode
  rw [if_neg (by omega), if_neg (by omega), if_neg (by omega), if_neg (by omega)]

theorem anchored_states_getElem? (s : List Nat) {i : Nat} (h : i < s.length + 3) :
    (anchoredStates s)[i]? = some (anchoredNode s i) :=
  rangeMap_getElem? _ h

theorem anchored_stepSet_sink (s : List Nat) (b : Nat) :
    stepSet ⟨anchoredStates s⟩ [1] b = [1] := by
  unfold stepSet
  rw [List.foldl_cons, List.foldl_nil]
  have h1 : (Cylon.mk (anchoredStates s)).states[1]? = some (anchoredNode s 1) :=
    anchored_states_getElem? s (by omega)
  rw [h1]
  have hn1 : anchoredNode s 1 = ⟨.allow, [], 0, []⟩ := by
    unfold anchoredNode
    rw [if_neg (by omega), if_pos rfl]
  rw [hn1]
  rfl

theorem setInsert_big {x : Nat} (h : 1 < x) : setInsert x [1] = [1, x] := by
  unfold setInsert
  rw [if_neg (by omega), if_neg (by omega)]
  rfl

theorem setInsert_one {l : List Nat} : setInsert 1 (1 :: l) = 1 :: l := by
  unfold setInsert
  rw [if_neg (by omega), if_pos rfl]

theorem anchored_stepSet_root (s : List Nat) (b : Nat) (hsne : s ≠ []) :
    stepSet ⟨anchoredStates s⟩ [0] b =
      (if b = s.getD 0 0 then [1, 2] else [1]) := by
  have hn : 1 ≤ s.length := List.length_pos.mpr hsne
  unfold stepSet
  rw [List.foldl_cons, List.foldl_nil]
  have h0 : (Cylon.mk (anchoredStates s)).states[0]? = some (anchoredNode s 0) :=
    anchored_states_getElem? s (by omega)
  rw [h0]
  have hn0 : anchoredNode s 0 = ⟨.allow, [(s.getD 0 0, 2)], 0, [1]⟩ := by
    unfold anchoredNode
    rw [if_pos rfl]
  rw [hn0]
  unfold Node.followEdges
  dsimp only
  by_cases hb : b = s.getD 0 0
  · rw [if_pos hb]
    rw [List.filter_cons_of_pos (by simp only [beq_iff_eq]; exact hb.symm), List.filter_nil]
    show setInsert 1 (setInsert 2 (setInsert 1 [])) = [1, 2]
    rw [show setInsert 1 ([] : List Nat) = [1] from rfl, setInsert_big (by omega),
      setInsert_one]
  · rw [if_neg hb]
    rw [List.filter_cons_of_neg (by simp only [beq_iff_eq]; exact fun h => hb h.symm),
      List.filter_nil]
    rfl

theorem anchored_stepSet_chain (s : List Nat) (b : Nat) {k : Nat} (hk1 : 1 ≤ k)
    (hkn : k < s.length) :
    stepSet ⟨anchoredStates s⟩ [1, k + 1] b =
      (if b = s.getD k 0 then [1, k + 2] else [1]) := by
  unfold stepSet
  rw [List.foldl_cons, List.foldl_cons, List.foldl_nil]
  have h1 : (Cylon.mk (anchoredStates s)).states[1]? = some (anchoredNode s 1) :=
    anchored_states_getElem? s (by omega)
  have hk : (Cylon.mk (anchoredStates s)).states[k + 1]? = some (anchoredNode s (k + 1)) :=
    anchored_states_getElem? s (by omega)
  rw [h1, hk]
  have hn1 : anchoredNode s 1 = ⟨.allow, [], 0, []⟩ := by
    unfold anchoredNode
    rw [if_neg (by omega), if_pos rfl]
  have hnk : anchoredNode s (k + 1) = ⟨.allow, [(s.getD k 0, k + 2)], k, [1]⟩ := by
    rw [anchored_node_chain (by omega) (by omega), Nat.add_sub_cancel]
  rw [hn1, hnk]
  unfold Node.followEdges
  dsimp only
  by_cases hb : b = s.getD k 0
  · rw [if_pos hb]
    rw [List.filter_cons_of_pos (by simp only [beq_iff_eq]; exact hb.symm), List.filter_nil]
    show setInsert 1 (setInsert (k + 2) (setInsert 1 [])) = [1, k + 2]
    rw [show setInsert 1 ([] : List Nat) = [1] from rfl, setInsert_big (by omega),
      setInsert_one]
  · rw [if_neg hb]
    rw [List.filter_cons_of_neg (by simp only [beq_iff_eq]; exact fun h => hb h.symm),
      List.filter_nil]
    show setInsert 1 (setInsert 1 []) = [1]
    rw [show setInsert 1 ([] : List Nat) = [1] from rfl, setInsert_one]

theorem anchored_stepSet_end (s : List Nat) (b : Nat) (hsne : s ≠ []) :
    stepSet ⟨anchoredStates s⟩ [1, s.length + 1] b = [1, s.length + 2] := by
  have hn : 1 ≤ s.length := List.length_pos.mpr hsne
  unfold stepSet
  rw [List.foldl_cons, List.foldl_cons, List.foldl_nil]
  have h1 : (Cylon.mk (anchoredStates s)).states[1]? = some (anchoredNode s 1) :=
    anchored_states_getElem? s (by omega)
  have hk : (Cylon.mk (anchoredStates s)).states[s.length + 1]? =
      some (anchoredNode s (s.length + 1)) :=
    anchored_states_getElem? s (by omega)
  rw [h1, hk]
  have hn1 : anchoredNode s 1 = ⟨.allow, [], 0, []⟩ := by
    unfold anchoredNode
    rw [if_neg (by omega), if_pos rfl]
  have hnk : anchoredNode s (s.length + 1) =
      ⟨.disallow, [], s.length + 1, [1, s.length + 2]⟩ := by
    unfold anchoredNode
    rw [if_neg (by omega), if_neg (by omega), if_pos rfl]
  rw [hn1, hnk]
  unfold Node.followEdges
  dsimp only
  rw [List.filter_nil]
  show setInsert 1 (setInsert (s.length + 2) (setInsert 1 (setInsert 1 []))) =
    [1, s.length + 2]
  rw [show setInsert 1 ([] : List Nat) = [1] from rfl, setInsert_one,
    setInsert_big (by omega), setInsert_one]

theorem anchored_stepSet_cont (s : List Nat) (b : Nat) (hsne : s ≠ []) :
    stepSet ⟨anchoredStates s⟩ [1, s.length + 2] b = [1, s.length + 2] := by
  have hn : 1 ≤ s.length := List.length_pos.mpr hsne
  unfold stepSet
  rw [List.foldl_cons, List.foldl_cons, List.foldl_nil]
  have h1 : (Cylon.mk (anchoredStates s)).states[1]? = some (anchoredNode s 1) :=
    anchored_states_getElem? s (by omega)
  have hk : (Cylon.mk (anchoredStates s)).states[s.length + 2]? =
      some (anchoredNode s (s.length + 2)) :=
    anchored_states_getElem? s (by omega)
  rw [h1, hk]
  have hn1 : anchoredNode s 1 = ⟨.allow, [], 0, []⟩ := by
    unfold anchoredNode
    rw [if_neg (by omega), if_pos rfl]
  have hnk : anchoredNode s (s.length + 2) = ⟨.allow, [], s.length + 1, []⟩ := by
    unfold anchoredNode
    rw [if_neg (by omega), if_neg (by omega), if_neg (by omega), if_pos rfl]
  rw [hn1, hnk]
  unfold Node.followEdges
  dsimp only
  rw [List.filter_nil]
  show setInsert (s.length + 2) (setInsert 1 (setInsert 1 [])) = [1, s.length + 2]
  rw [show setInsert 1 ([] : List Nat) = [1] from rfl, setInsert_one,
    setInsert_big (by omega)]


theorem take_succ_getD {s : List Nat} {k : Nat} (h : k < s.length) :
    s.take (k + 1) = s.take k ++ [s.getD k 0] := by
  rw [List.take_succ, List.getElem?_eq_getElem h, Option.toList_some,
    List.getD_eq_getElem?_getD, List.getElem?_eq_getElem h]
  rfl

theorem anchored_active (s : List Nat) (hsne : s ≠ []) :
    ∀ p : List Nat, p ≠ [] →
      activeAfter ⟨anchoredStates s⟩ p =
        (if p = s.take p.length then [1, p.length + 1]
         else if s = p.take s.length then [1, s.length + 2]
         else [1]) := by
  have hn : 1 ≤ s.length := List.length_pos.mpr hsne
  intro p
  induction p using List.reverseRecOn with
  | nil => intro h; exact absurd rfl h
  | append_singleton p' b ih =>
    intro _
    have hstep : activeAfter ⟨anchoredStates s⟩ (p' ++ [b]) =
        stepSet ⟨anchoredStates s⟩ (activeAfter ⟨anchoredStates s⟩ p') b := by
      unfold activeAfter
      rw [List.foldl_append]
      rfl
    rw [hstep]
    rcases eq_or_ne p' [] with hp' | hp'
    · subst hp'
      rw [show activeAfter ⟨anchoredStates s⟩ [] = [0] from rfl,
        anchored_stepSet_root s b hsne]
      simp only [List.nil_append, List.length_singleton]
      have htake1 : s.take 1 = [s.getD 0 0] := by
        rw [show (1 : Nat) = 0 + 1 from rfl, take_succ_getD (by omega)]
        rfl
      by_cases hb : b = s.getD 0 0
      · rw [if_pos hb, if_pos (by rw [htake1, hb])]
      · rw [if_neg hb, if_neg (by
          intro hc
          rw [htake1] at hc
          exact hb (List.singleton_inj.mp hc)), if_neg (by
          intro hc
          have hlen := congrArg List.length hc
          simp only [List.length_take, List.length_singleton] at hlen
          have hs1 : s.length = 1 := by omega
          rw [hs1] at hc
          have hsb : s = [b] := hc
          exact hb (by rw [hsb]; simp))]
    · have hk1 : 1 ≤ p'.length := List.length_pos.mpr hp'
      have hpfxtake : (p' ++ [b]).take p'.length = p' := by
        rw [List.take_append_of_le_length (le_refl _), List.take_length]
      rw [ih hp']
      by_cases hA : p' = s.take p'.length
      · rw [if_pos hA]
        by_cases hkn : p'.length < s.length
        · rw [anchored_stepSet_chain s b hk1 hkn]
          by_cases hb : b = s.getD p'.length 0
          · rw [if_pos hb]
            have hpk : p' ++ [b] = s.take (p'.length + 1) := by
              rw [take_succ_getD hkn, ← hA, hb]
            rw [if_pos (by rw [List.length_append, List.length_singleton]; exact hpk),
              List.length_append, List.length_singleton]
          · rw [if_neg hb]
            rw [if_neg (by
              rw [List.length_append, List.length_singleton]
              intro hc
              rw [take_succ_getD hkn] at hc
              have h2 := (List.append_inj hc (by
                rw [List.length_take]
                omega)).2
              exact hb (List.singleton_inj.mp h2)), if_neg (by
              intro hc
              have hlen := congrArg List.length hc
              simp only [List.length_take, List.length_append,
                List.length_singleton] at hlen
              have hneq : s.length = p'.length + 1 := by omega
              have hfull : (p' ++ [b]).take s.length = p' ++ [b] := by
                refine List.take_of_length_le ?_
                rw [List.length_append, List.length_singleton]
                omega
              rw [hfull] at hc
              have hs2 : s = s.take p'.length ++ [s.getD p'.length 0] := by
                conv_lhs => rw [← List.take_length s, hneq]
                exact take_succ_getD hkn
              rw [← hA] at hs2
              have hcomb : p' ++ [s.getD p'.length 0] = p' ++ [b] := hs2.symm.trans hc
              exact hb (List.singleton_inj.mp (List.append_inj hcomb rfl).2).symm)]
        · have hkeq : p'.length = s.length := by
            have := congrArg List.length hA
            simp only [List.length_take] at this
            omega
          have hps : p' = s := by
            rw [hA, hkeq, List.take_length]
          rw [hkeq, anchored_stepSet_end s b hsne]
          rw [if_neg (by
            intro hc
            have := congrArg List.length hc
            simp only [List.length_take, List.length_append, List.length_singleton] at this
            omega), if_pos (by
            rw [hps, List.take_append_of_le_length (le_refl s.length), List.take_length])]
      · rw [if_neg hA]
        by_cases hB : s = p'.take s.length
        · rw [if_pos hB]
          have hnk : s.length ≤ p'.length := by
            have := congrArg List.length hB
            simp only [List.length_take] at this
            omega
          rw [anchored_stepSet_cont s b hsne]
          rw [if_neg (by
            intro hc
            have := congrArg List.length hc
            simp only [List.length_take, List.length_append, List.length_singleton] at this
            omega), if_pos (by
            rw [List.take_append_of_le_length hnk]
            exact hB)]
        · rw [if_neg hB, anchored_stepSet_sink s b]
          rw [if_neg (by
            intro hc
            by_cases hle : p'.length + 1 ≤ s.length
            · rw [List.length_append, List.length_singleton, take_succ_getD (by omega)] at hc
              refine hA ((List.append_inj hc ?_).1)
              rw [List.length_take]
              omega
            · rw [List.length_append, List.length_singleton,
                List.take_of_length_le (by omega)] at hc
              refine hA ?_
              rw [← hc]
              exact hpfxtake.symm), if_neg (by
            intro hc
            by_cases hle : s.length ≤ p'.length
            · rw [List.take_append_of_le_length hle] at hc
              exact hB hc
            · have hfull : (p' ++ [b]).take s.length = p' ++ [b] := by
                refine List.take_of_length_le ?_
                rw [List.length_append, List.length_singleton]
                omega
              rw [hfull] at hc
              refine hA ?_
              rw [hc]
              exact hpfxtake.symm)]

/-- `max_by_key` on a singleton. -/
theorem maxByKey_single (key : Node → Nat) (a : Node) : maxByKey key [a] = some a := rfl

/-- `max_by_key` on a pair: the second element wins ties. -/
theorem maxByKey_pair (key : Node → Nat) (a b : Node) :
    maxByKey key [a, b] = some (if key a ≤ key b then b else a) := by
  by_cases h : key a ≤ key b <;> simp [maxByKey, h]

end Cylon.Nfa

namespace Cylon

/-- C3 (amended): for a nonempty metacharacter-free byte string `s`, the
matcher compiled from the single rule `Disallow (s ++ "$")` denies a
nonempty path `p` exactly when `p = s`, and allows every other nonempty
path. -/
theorem c3_anchored_semantics (s p : List Nat) (hs : metaFree s)
    (hsne : s ≠ []) (hpne : p ≠ []) :
    (Nfa.Cylon.compile [.disallow (s ++ [EOW_BYTE])]).allow p = decide (p ≠ s) := by
  have hp1 : 1 ≤ p.length := List.length_pos.mpr hpne
  have hcomp : Nfa.Cylon.compile [.disallow (s ++ [EOW_BYTE])] = ⟨Nfa.anchoredStates s⟩ := by
    calc Nfa.Cylon.compile [.disallow (s ++ [EOW_BYTE])]
        = ⟨(Nfa.Cylon.compile [.disallow (s ++ [EOW_BYTE])]).states⟩ := rfl
      _ = ⟨Nfa.anchoredStates s⟩ := by rw [Nfa.anchored_compile s hs hsne]
  rw [hcomp]
  have hne : p.isEmpty = false := by
    cases p with
    | nil => exact absurd rfl hpne
    | cons a l => rfl
  unfold Nfa.Cylon.allow
  simp only [hne, Bool.false_eq_true, if_false]
  rw [Nfa.anchored_active s hsne p hpne]
  have h1 : (Nfa.anchoredStates s)[1]? = some (Nfa.anchoredNode s 1) :=
    Nfa.anchored_states_getElem? s (by omega)
  have hn1 : Nfa.anchoredNode s 1 = ⟨.allow, [], 0, []⟩ := rfl
  by_cases hA : p = List.take p.length s
  · rw [if_pos hA]
    have hle : p.length ≤ s.length := by
      have := congrArg List.length hA
      simp only [List.length_take] at this
      omega
    have h2 : (Nfa.anchoredStates s)[p.length + 1]? =
        some (Nfa.anchoredNode s (p.length + 1)) :=
      Nfa.anchored_states_getElem? s (by omega)
    simp only [List.filterMap_cons, List.filterMap_nil, h1, h2, hn1]
    rw [Nfa.maxByKey_pair]
    by_cases hps : p = s
    · have hlen : p.length = s.length := by rw [hps]
      have hn2 : Nfa.anchoredNode s (p.length + 1) =
          ⟨.disallow, [], s.length + 1, [1, s.length + 2]⟩ := by
        unfold Nfa.anchoredNode
        rw [if_neg (by omega), if_neg (by omega), if_pos (by omega)]
      rw [hn2]
      rw [if_pos (by
        show Nfa.Node.normalizedWeight ⟨.allow, [], 0, []⟩ ≤
          Nfa.Node.normalizedWeight ⟨.disallow, [], s.length + 1, [1, s.length + 2]⟩
        show 1 ≤ 2 * (s.length + 1)
        omega)]
      simp [hps, Nfa.Node.allow]
    · have hlt : p.length < s.length := by
        rcases Nat.lt_or_ge p.length s.length with h | h
        · exact h
        · exact absurd (by rw [hA, List.take_of_length_le h]) hps
      have hn2 : Nfa.anchoredNode s (p.length + 1) =
          ⟨.allow, [(s.getD p.length 0, p.length + 2)], p.length, [1]⟩ := by
        unfold Nfa.anchoredNode
        rw [if_neg (by omega), if_neg (by omega), if_neg (by omega), if_neg (by omega)]
        simp
      rw [hn2]
      rw [if_pos (by
        show Nfa.Node.normalizedWeight ⟨.allow, [], 0, []⟩ ≤
          Nfa.Node.normalizedWeight ⟨.allow, [(s.getD p.length 0, p.length + 2)], p.length, [1]⟩
        show 1 ≤ 1 + 2 * p.length
        omega)]
      simp [hps, Nfa.Node.allow]
  · rw [if_neg hA]
    have hps : p ≠ s := fun h => hA (by rw [h, List.take_length])
    by_cases hB : s = List.take s.length p
    · rw [if_pos hB]
      have h2 : (Nfa.anchoredStates s)[s.length + 2]? =
          some (Nfa.anchoredNode s (s.length + 2)) :=
        Nfa.anchored_states_getElem? s (by omega)
      have hn2 : Nfa.anchoredNode s (s.length + 2) =
          ⟨.allow, [], s.length + 1, []⟩ := by
        unfold Nfa.anchoredNode
        rw [if_neg (by omega), if_neg (by omega), if_neg (by omega), if_pos rfl]
      simp only [List.filterMap_cons, List.filterMap_nil, h1, h2, hn1, hn2]
      rw [Nfa.maxByKey_pair]
      rw [if_pos (by
        show Nfa.Node.normalizedWeight ⟨.allow, [], 0, []⟩ ≤
          Nfa.Node.normalizedWeight ⟨.allow, [], s.length + 1, []⟩
        show 1 ≤ 1 + 2 * (s.length + 1)
        omega)]
      simp [hps, Nfa.Node.allow]
    · rw [if_neg hB]
      simp only [List.filterMap_cons, List.filterMap_nil, h1, hn1]
      rw [Nfa.maxByKey_single]
      simp [hps, Nfa.Node.allow]

/-- Concrete instance of the amended C3 theorem: the matcher compiled from
`Disallow "/a$"` denies the path "/a". -/
theorem c3_anchored_semantics_witness :
    (Nfa.Cylon.compile [.disallow (bs "/a" ++ [EOW_BYTE])]).allow (bs "/a") = false :=
  (c3_anchored_semantics (bs "/a") (bs "/a") (by decide) (by decide) (by decide)).trans
    (by decide)

end Cylon

namespace Cylon.Nfa

theorem wild_chain_step (u v : List Nat) (hu : metaFree u) {j : Nat} (hj : j < u.length) :
    stepRule (u.take j) (if j = 0 then 0 else j + 1) none
        ⟨anchoredMid u j, [], []⟩ (.disallow (u ++ [WILDCARD_BYTE] ++ v)) =
      ⟨anchoredMid u (j + 1), [⟨u.take (j + 1), j + 2, none⟩], u.take (j + 1)⟩ := by
  have hjl : (u.take j).length = j := List.length_take_of_le (by omega)
  have hp1 : ¬ (Rule.disallow (u ++ [WILDCARD_BYTE] ++ v)).inner.length < (u.take j).length + 1 := by
    simp only [Rule.inner, List.length_append, List.length_singleton, hjl]
    omega
  have hpfx : (Rule.disallow (u ++ [WILDCARD_BYTE] ++ v)).inner.take ((u.take j).length + 1) =
      u.take (j + 1) := by
    simp only [Rule.inner, hjl]
    rw [List.take_append_of_le_length (by
      simp only [List.length_append, List.length_singleton]; omega)]
    exact List.take_append_of_le_length (by omega)
  have hlen1 : (u.take (j + 1)).length = j + 1 := List.length_take_of_le (by omega)
  have hpre : ¬ ¬ (u.take j).isPrefixOf (u.take (j + 1)) = true := by
    simp [take_isPrefixOf_take_succ]
  have hne : ¬ (([] : List Nat) = u.take (j + 1)) := by
    intro h
    have := congrArg List.length h
    simp [hlen1] at this
  have hterm : ¬ (u.take (j + 1) = (Rule.disallow (u ++ [WILDCARD_BYTE] ++ v)).inner) := by
    intro h
    have := congrArg List.length h
    simp [Rule.inner, hlen1] at this
    omega
  have hmid_len : (anchoredMid u j).length = j + 2 := rangeMap_length _ _
  have hedge := getLastD_take_succ hj
  have hmf := metaFree_getD hu hj
  unfold stepRule
  rw [if_neg hp1]
  dsimp only
  rw [hpfx, if_neg hpre, if_neg hne, if_neg (by
    intro hc
    rcases hc with ⟨hc1, -⟩
    rw [hedge] at hc1
    exact hmf.1 hc1), if_neg (by rw [hedge]; exact hmf.1), if_neg (by rw [hedge]; exact hmf.2)]
  rw [hedge, hmid_len]
  dsimp only [addEps]
  simp only [if_neg hterm, List.append_nil, List.nil_append]
  have hgd : (anchoredMid u j).getD (if j = 0 then 0 else j + 1) dNode =
      ⟨.allow, [], j, [1]⟩ := by
    by_cases hj0 : j = 0
    · subst hj0
      rw [if_pos rfl, anchoredMid, rangeMap_getD _ _ (by omega)]
      rfl
    · rw [if_neg hj0, anchoredMid, rangeMap_getD _ _ (by omega)]
      unfold anchoredMidNode
      rw [if_neg (by omega), if_neg (by omega), if_pos rfl]
  rw [hgd, hlen1]
  have hfil : List.filter (fun e => j + 2 != e) [1] = [1] := by
    rw [List.filter_cons_of_pos (by simp)]
    rfl
  congr 1
  rw [hfil, modifyNode, hgd]
  show (anchoredMid u j).set (if j = 0 then 0 else j + 1)
      ⟨.allow, [] ++ [(u.getD j 0, j + 2)], j, [1]⟩ ++ [⟨.allow, [], j + 1, [1]⟩] =
    anchoredMid u (j + 1)
  simp only [anchoredMid, List.nil_append]
  rw [rangeMap_set]
  have h32 : j + 1 + 2 = (j + 2) + 1 := by omega
  rw [h32]
  conv_rhs => rw [rangeMap_succ]
  congr 1
  · exact @rangeMap_congr Node
      (fun x => if x = (if j = 0 then 0 else j + 1) then
          (⟨.allow, [(u.getD j 0, j + 2)], j, [1]⟩ : Node)
        else anchoredMidNode u j x)
      (anchoredMidNode u (j + 1)) (j + 2) (fun i hi => anchoredMidNode_step i hi)
  · unfold anchoredMidNode
    rw [if_neg (by omega), if_neg (by omega), if_pos rfl]

theorem modifyNode_getD_same (l : List Node) (i : Nat) (f : Node → Node) (h : i < l.length) :
    (modifyNode l i f).getD i dNode = f (l.getD i dNode) := by
  rw [modifyNode, List.getD_eq_getElem?_getD, List.getElem?_set_self (by omega)]
  rfl

theorem wild_term_iff (u v : List Nat) :
    (u ++ [WILDCARD_BYTE] = u ++ [WILDCARD_BYTE] ++ v) ↔ v.length = 0 :=
  List.self_eq_append_right.trans List.length_eq_zero.symm

theorem wildMid2Node_of_mid (u v : List Nat) (i : Nat) (hi : i < u.length + 2) :
    (if i = (if u.length = 0 then 0 else u.length + 1) then
        (⟨(if v.length = 0 then Accept.disallow else Accept.allow), [],
          u.length, [1, u.length + 2]⟩ : Node)
      else anchoredMidNode u u.length i) = wildMid2Node u v i := by
  unfold wildMid2Node anchoredMidNode
  split_ifs <;> first | rfl | omega | simp_all

theorem wild_star_step (u v : List Nat) (hu : metaFree u) :
    stepRule u (if u.length = 0 then 0 else u.length + 1) none
        ⟨anchoredMid u u.length, [], []⟩ (.disallow (u ++ [WILDCARD_BYTE] ++ v)) =
      ⟨wildMid2 u v,
       [⟨u ++ [WILDCARD_BYTE], u.length + 2,
         some (if u.length = 0 then 0 else u.length + 1)⟩],
       u ++ [WILDCARD_BYTE]⟩ := by
  have hp1 : ¬ (Rule.disallow (u ++ [WILDCARD_BYTE] ++ v)).inner.length < u.length + 1 := by
    simp only [Rule.inner, List.length_append, List.length_singleton]
    omega
  have hpfx : (Rule.disallow (u ++ [WILDCARD_BYTE] ++ v)).inner.take (u.length + 1) =
      u ++ [WILDCARD_BYTE] := by
    simp only [Rule.inner]
    rw [List.take_append_of_le_length (by
      simp only [List.length_append, List.length_singleton]; omega)]
    exact List.take_of_length_le (by
      simp only [List.length_append, List.length_singleton]; omega)
  have hpre : ¬ ¬ u.isPrefixOf (u ++ [WILDCARD_BYTE]) = true := by
    simp [List.isPrefixOf_iff_prefix]
  have hne : ¬ (([] : List Nat) = u ++ [WILDCARD_BYTE]) := by
    intro h
    have := congrArg List.length h
    simp at this
  have hpe : u.getLast? ≠ some WILDCARD_BYTE := by
    intro hc
    exact hu.1 (List.mem_of_mem_getLast? hc)
  have hmid_len : (anchoredMid u u.length).length = u.length + 2 := rangeMap_length _ _
  have hedge : (u ++ [WILDCARD_BYTE]).getLastD 0 = WILDCARD_BYTE := List.getLastD_concat _ _ _
  have hgd : (anchoredMid u u.length).getD (if u.length = 0 then 0 else u.length + 1) dNode =
      ⟨.allow, [], u.length, [1]⟩ := by
    by_cases hm : u.length = 0
    · rw [if_pos hm, anchoredMid, rangeMap_getD _ _ (by omega)]
      unfold anchoredMidNode
      rw [if_pos rfl, if_pos hm, hm]
    · rw [if_neg hm, anchoredMid, rangeMap_getD _ _ (by omega)]
      unfold anchoredMidNode
      rw [if_neg (by omega), if_neg (by omega), if_pos rfl]
  unfold stepRule
  rw [if_neg hp1]
  dsimp only
  rw [hpfx, if_neg hpre, if_neg hne, if_pos ⟨hedge, hpe⟩]
  rw [hmid_len]
  rw [modifyNode_getD_same _ _ _ (by rw [hmid_len]; split_ifs <;> omega), hgd]
  dsimp only [addEps]
  congr 1
  rw [modifyNode, hgd]
  show (anchoredMid u u.length).set (if u.length = 0 then 0 else u.length + 1)
      ⟨(if (u ++ [WILDCARD_BYTE] = u ++ [WILDCARD_BYTE] ++ v) then
          (if (u ++ [WILDCARD_BYTE] = u ++ [WILDCARD_BYTE] ++ v) then Accept.disallow
           else Accept.allow)
        else Accept.allow),
        [], u.length, [1] ++ [u.length + 2]⟩ ++
      [⟨(if (u ++ [WILDCARD_BYTE] = u ++ [WILDCARD_BYTE] ++ v) then Accept.disallow
         else Accept.allow), [], (u ++ [WILDCARD_BYTE]).length, [u.length + 2]⟩] =
    wildMid2 u v
  have hacc : (if (u ++ [WILDCARD_BYTE] = u ++ [WILDCARD_BYTE] ++ v) then
      (if (u ++ [WILDCARD_BYTE] = u ++ [WILDCARD_BYTE] ++ v) then Accept.disallow
       else Accept.allow)
      else Accept.allow) = (if v.length = 0 then Accept.disallow else Accept.allow) := by
    by_cases hX : u ++ [WILDCARD_BYTE] = u ++ [WILDCARD_BYTE] ++ v
    · rw [if_pos hX, if_pos hX, if_pos ((wild_term_iff u v).mp hX)]
    · rw [if_neg hX, if_neg (fun h => hX ((wild_term_iff u v).mpr h))]
  have hacc2 : (if (u ++ [WILDCARD_BYTE] = u ++ [WILDCARD_BYTE] ++ v) then Accept.disallow
      else Accept.allow) = (if v.length = 0 then Accept.disallow else Accept.allow) := by
    by_cases hX : u ++ [WILDCARD_BYTE] = u ++ [WILDCARD_BYTE] ++ v
    · rw [if_pos hX, if_pos ((wild_term_iff u v).mp hX)]
    · rw [if_neg hX, if_neg (fun h => hX ((wild_term_iff u v).mpr h))]
  rw [hacc, hacc2]
  simp only [anchoredMid, List.length_append, List.length_singleton]
  rw [rangeMap_set]
  have h32 : u.length + 3 = (u.length + 2) + 1 := rfl
  show _ = wildMid2 u v
  rw [wildMid2, h32]
  conv_rhs => rw [rangeMap_succ]
  congr 1
  · exact @rangeMap_congr Node
      (fun x => if x = (if u.length = 0 then 0 else u.length + 1) then
          (⟨(if v.length = 0 then Accept.disallow else Accept.allow), [],
            u.length, [1, u.length + 2]⟩ : Node)
        else anchoredMidNode u u.length x)
      (wildMid2Node u v) (u.length + 2) (fun i hi => wildMid2Node_of_mid u v i hi)
  · unfold wildMid2Node
    rw [if_neg (show ¬(u.length + 2 = 0) by omega),
      if_neg (show ¬(u.length + 2 = 1) by omega),
      if_neg (show ¬(u.length + 2 ≤ u.length) by omega),
      if_neg (show ¬(u.length + 2 = u.length + 1) by omega)]

theorem wildMid2_len (u v : List Nat) : (wildMid2 u v).length = u.length + 3 :=
  rangeMap_length _ _

theorem wildMid2_getD_wild (u v : List Nat) (hk : 1 ≤ v.length) :
    (wildMid2 u v).getD (u.length + 2) dNode =
      ⟨.allow, [], u.length + 1, [u.length + 2]⟩ := by
  rw [wildMid2, rangeMap_getD _ _ (by omega)]
  unfold wildMid2Node
  rw [if_neg (show ¬(u.length + 2 = 0) by omega),
    if_neg (show ¬(u.length + 2 = 1) by omega),
    if_neg (show ¬(u.length + 2 ≤ u.length) by omega),
    if_neg (show ¬(u.length + 2 = u.length + 1) by omega),
    if_neg (show ¬(v.length = 0) by omega)]

theorem wildMid2_getD_eps (u v : List Nat) (hk : 1 ≤ v.length) :
    (wildMid2 u v).getD (if u.length = 0 then 0 else u.length + 1) dNode =
      ⟨.allow, [], u.length, [1, u.length + 2]⟩ := by
  by_cases hm : u.length = 0
  · rw [if_pos hm, wildMid2, rangeMap_getD _ _ (by omega)]
    unfold wildMid2Node
    rw [if_pos rfl, if_pos hm, if_neg (show ¬(v.length = 0) by omega)]
    simp [hm]
  · rw [if_neg hm, wildMid2, rangeMap_getD _ _ (by omega)]
    unfold wildMid2Node
    rw [if_neg (by omega), if_neg (by omega), if_neg (by omega), if_pos rfl,
      if_neg (show ¬(v.length = 0) by omega)]

theorem wildMid3Node_of_mid2 (u v : List Nat) (hk : 2 ≤ v.length) (i : Nat)
    (hi : i < u.length + 3) :
    (if i = (if u.length = 0 then 0 else u.length + 1) then
        (⟨.allow, [(v.getD 0 0, u.length + 3)], u.length, [1, u.length + 2]⟩ : Node)
      else if i = u.length + 2 then
        (⟨.allow, [(v.getD 0 0, u.length + 3)], u.length + 1, [u.length + 2]⟩ : Node)
      else wildMid2Node u v i) = wildMid3Node u v 1 i := by
  unfold wildMid2Node wildMid3Node
  split_ifs <;> first | rfl | omega | simp_all

theorem take_one_getD {v : List Nat} (hk : 1 ≤ v.length) :
    v.take 1 = [v.getD 0 0] := by
  rw [show (1 : Nat) = 0 + 1 from rfl, take_succ_getD (by omega)]
  rfl

theorem wild_v1_step (u v : List Nat) (hv : metaFree v) (hk : 2 ≤ v.length) :
    stepRule (u ++ [WILDCARD_BYTE]) (u.length + 2)
        (some (if u.length = 0 then 0 else u.length + 1))
        ⟨wildMid2 u v, [], []⟩ (.disallow (u ++ [WILDCARD_BYTE] ++ v)) =
      ⟨wildMid3 u v 1, [⟨u ++ [WILDCARD_BYTE] ++ v.take 1, u.length + 3, none⟩],
       u ++ [WILDCARD_BYTE] ++ v.take 1⟩ := by
  have hmf := metaFree_getD hv (show 0 < v.length by omega)
  have hppl : (u ++ [WILDCARD_BYTE]).length = u.length + 1 := by simp
  have hp1 : ¬ (Rule.disallow (u ++ [WILDCARD_BYTE] ++ v)).inner.length <
      (u ++ [WILDCARD_BYTE]).length + 1 := by
    simp only [Rule.inner, List.length_append, List.length_singleton]
    omega
  have hpfx : (Rule.disallow (u ++ [WILDCARD_BYTE] ++ v)).inner.take
      ((u ++ [WILDCARD_BYTE]).length + 1) = u ++ [WILDCARD_BYTE] ++ v.take 1 := by
    simp only [Rule.inner, hppl]
    rw [List.take_append_eq_append_take, List.take_of_length_le (by
      simp only [List.length_append, List.length_singleton]; omega)]
    congr 1
    congr 1
    simp only [List.length_append, List.length_singleton]
    omega
  have hpre : ¬ ¬ (u ++ [WILDCARD_BYTE]).isPrefixOf (u ++ [WILDCARD_BYTE] ++ v.take 1) =
      true := by
    simp [List.isPrefixOf_iff_prefix]
  have hne : ¬ (([] : List Nat) = u ++ [WILDCARD_BYTE] ++ v.take 1) := by
    intro h
    have := congrArg List.length h
    simp at this
    omega
  have htk1 := take_one_getD (show 1 ≤ v.length by omega)
  have hedge : (u ++ [WILDCARD_BYTE] ++ v.take 1).getLastD 0 = v.getD 0 0 := by
    rw [htk1]
    exact List.getLastD_concat _ _ _
  have hterm : ¬ (u ++ [WILDCARD_BYTE] ++ v.take 1 =
      (Rule.disallow (u ++ [WILDCARD_BYTE] ++ v)).inner) := by
    intro h
    have := congrArg List.length h
    simp only [Rule.inner, List.length_append, List.length_singleton,
      List.length_take] at this
    omega
  have hmid_len := wildMid2_len u v
  have hgdw := wildMid2_getD_wild u v (by omega)
  have hgde := wildMid2_getD_eps u v (by omega)
  unfold stepRule
  rw [if_neg hp1]
  dsimp only
  rw [hpfx, if_neg hpre, if_neg hne, if_neg (by
    intro hc
    rcases hc with ⟨hc1, -⟩
    rw [hedge] at hc1
    exact hmf.1 hc1), if_neg (by rw [hedge]; exact hmf.1), if_neg (by rw [hedge]; exact hmf.2)]
  rw [hedge, hmid_len]
  dsimp only [addEps]
  simp only [if_neg hterm, List.append_nil, List.nil_append]
  rw [hgdw]
  have hfil : List.filter (fun e => u.length + 3 != e) [u.length + 2] = [u.length + 2] := by
    rw [List.filter_cons_of_pos (by simp)]
    rfl
  rw [hfil]
  congr 1
  simp only [modifyNode]
  rw [hgdw]
  have hgde2 : ∀ X : Node, ((wildMid2 u v).set (u.length + 2) X).getD
      (if u.length = 0 then 0 else u.length + 1) dNode =
      ⟨.allow, [], u.length, [1, u.length + 2]⟩ := by
    intro X
    rw [List.getD_eq_getElem?_getD, List.getElem?_set_ne (by split_ifs <;> omega),
      ← List.getD_eq_getElem?_getD]
    exact hgde
  rw [hgde2]
  have hcl : (u ++ [WILDCARD_BYTE] ++ List.take 1 v).length = u.length + 2 := by
    rw [htk1]
    simp
  rw [hcl]
  show ((wildMid2 u v).set (u.length + 2)
      ⟨.allow, [(v.getD 0 0, u.length + 3)], u.length + 1, [u.length + 2]⟩).set
        (if u.length = 0 then 0 else u.length + 1)
        ⟨.allow, [(v.getD 0 0, u.length + 3)], u.length, [1, u.length + 2]⟩ ++
      [⟨.allow, [], u.length + 2, [u.length + 2]⟩] = wildMid3 u v 1
  rw [wildMid2, rangeMap_set, rangeMap_set, wildMid3]
  have h32 : u.length + 1 + 3 = (u.length + 3) + 1 := rfl
  rw [h32]
  conv_rhs => rw [rangeMap_succ]
  congr 1
  · exact rangeMap_congr (fun i hi => wildMid3Node_of_mid2 u v hk i hi)
  · unfold wildMid3Node
    rw [if_neg (show ¬(u.length + 3 = 0) by omega),
      if_neg (show ¬(u.length + 3 = 1) by omega),
      if_neg (show ¬(u.length + 3 ≤ u.length) by omega),
      if_neg (show ¬(u.length + 3 = u.length + 1) by omega),
      if_neg (show ¬(u.length + 3 = u.length + 2) by omega),
      if_pos (show u.length + 3 = u.length + 1 + 2 by omega)]

theorem wildNode_of_mid2_term (u v : List Nat) (hk1 : v.length = 1) (i : Nat)
    (hi : i < u.length + 3) :
    (if i = (if u.length = 0 then 0 else u.length + 1) then
        (⟨.allow, [(v.getD 0 0, u.length + 3)], u.length, [1, u.length + 2]⟩ : Node)
      else if i = u.length + 2 then
        (⟨.allow, [(v.getD 0 0, u.length + 3)], u.length + 1, [u.length + 2]⟩ : Node)
      else wildMid2Node u v i) = wildNode u v i := by
  unfold wildMid2Node wildNode
  split_ifs <;> first | rfl | omega | simp_all

theorem wild_v1_term_step (u v : List Nat) (hv : metaFree v) (hk1 : v.length = 1) :
    stepRule (u ++ [WILDCARD_BYTE]) (u.length + 2)
        (some (if u.length = 0 then 0 else u.length + 1))
        ⟨wildMid2 u v, [], []⟩ (.disallow (u ++ [WILDCARD_BYTE] ++ v)) =
      ⟨wildStates u v, [⟨u ++ [WILDCARD_BYTE] ++ v, u.length + 3, none⟩],
       u ++ [WILDCARD_BYTE] ++ v⟩ := by
  have hmf := metaFree_getD hv (show 0 < v.length by omega)
  have htkv : v.take 1 = v := List.take_of_length_le (by omega)
  have hppl : (u ++ [WILDCARD_BYTE]).length = u.length + 1 := by simp
  have hp1 : ¬ (Rule.disallow (u ++ [WILDCARD_BYTE] ++ v)).inner.length <
      (u ++ [WILDCARD_BYTE]).length + 1 := by
    simp only [Rule.inner, List.length_append, List.length_singleton]
    omega
  have hpfx : (Rule.disallow (u ++ [WILDCARD_BYTE] ++ v)).inner.take
      ((u ++ [WILDCARD_BYTE]).length + 1) = u ++ [WILDCARD_BYTE] ++ v := by
    simp only [Rule.inner, hppl]
    rw [List.take_append_eq_append_take, List.take_of_length_le (by
      simp only [List.length_append, List.length_singleton]; omega)]
    congr 1
    rw [show u.length + 1 + 1 - (u ++ [WILDCARD_BYTE]).length = 1 by
      simp only [List.length_append, List.length_singleton]; omega]
    exact htkv
  have hpre : ¬ ¬ (u ++ [WILDCARD_BYTE]).isPrefixOf (u ++ [WILDCARD_BYTE] ++ v) =
      true := by
    simp [List.isPrefixOf_iff_prefix]
  have hne : ¬ (([] : List Nat) = u ++ [WILDCARD_BYTE] ++ v) := by
    intro h
    have := congrArg List.length h
    simp at this
    omega
  have htk1 := take_one_getD (show 1 ≤ v.length by omega)
  have hedge : (u ++ [WILDCARD_BYTE] ++ v).getLastD 0 = v.getD 0 0 := by
    conv_lhs => rw [← htkv, htk1]
    exact List.getLastD_concat _ _ _
  have hterm : u ++ [WILDCARD_BYTE] ++ v =
      (Rule.disallow (u ++ [WILDCARD_BYTE] ++ v)).inner := rfl
  have hmid_len := wildMid2_len u v
  have hgdw := wildMid2_getD_wild u v (by omega)
  have hgde := wildMid2_getD_eps u v (by omega)
  unfold stepRule
  rw [if_neg hp1]
  dsimp only
  rw [hpfx, if_neg hpre, if_neg hne, if_neg (by
    intro hc
    rcases hc with ⟨hc1, -⟩
    rw [hedge] at hc1
    exact hmf.1 hc1), if_neg (by rw [hedge]; exact hmf.1), if_neg (by rw [hedge]; exact hmf.2)]
  rw [hedge, hmid_len]
  dsimp only [addEps]
  simp only [if_pos hterm]
  congr 1
  simp only [modifyNode]
  rw [hgdw]
  have hgde2 : ∀ X : Node, ((wildMid2 u v).set (u.length + 2) X).getD
      (if u.length = 0 then 0 else u.length + 1) dNode =
      ⟨.allow, [], u.length, [1, u.length + 2]⟩ := by
    intro X
    rw [List.getD_eq_getElem?_getD, List.getElem?_set_ne (by split_ifs <;> omega),
      ← List.getD_eq_getElem?_getD]
    exact hgde
  rw [hgde2]
  have hcl : (u ++ [WILDCARD_BYTE] ++ v).length = u.length + 2 := by
    simp only [List.length_append, List.length_singleton]
    omega
  rw [hcl]
  show ((wildMid2 u v).set (u.length + 2)
      ⟨.allow, [(v.getD 0 0, u.length + 3)], u.length + 1, [u.length + 2]⟩).set
        (if u.length = 0 then 0 else u.length + 1)
        ⟨.allow, [(v.getD 0 0, u.length + 3)], u.length, [1, u.length + 2]⟩ ++
      [⟨.disallow, [], u.length + 2, [u.length + 4]⟩] ++
      [⟨.disallow, [], u.length + 2, []⟩] = wildStates u v
  rw [wildMid2, rangeMap_set, rangeMap_set, wildStates, wildLen,
    if_neg (show ¬(v.length = 0) by omega)]
  rw [show u.length + v.length + 4 = ((u.length + 3) + 1) + 1 by omega]
  conv_rhs => rw [rangeMap_succ]
  conv_rhs => rw [rangeMap_succ]
  congr 1
  congr 1
  · exact rangeMap_congr (fun i hi => wildNode_of_mid2_term u v hk1 i hi)
  · unfold wildNode
    rw [if_neg (show ¬(u.length + 3 = 0) by omega),
      if_neg (show ¬(u.length + 3 = 1) by omega),
      if_neg (show ¬(u.length + 3 ≤ u.length) by omega),
      if_neg (show ¬(u.length + 3 = u.length + 1) by omega),
      if_neg (show ¬(u.length + 3 = u.length + 2) by omega),
      if_neg (show ¬(u.length + 3 ≤ u.length + v.length + 1) by omega),
      if_pos (show u.length + 3 = u.length + v.length + 2 by omega)]
    rw [hk1]
  · unfold wildNode
    rw [if_neg (show ¬(u.length + 3 + 1 = 0) by omega),
      if_neg (show ¬(u.length + 3 + 1 = 1) by omega),
      if_neg (show ¬(u.length + 3 + 1 ≤ u.length) by omega),
      if_neg (show ¬(u.length + 3 + 1 = u.length + 1) by omega),
      if_neg (show ¬(u.length + 3 + 1 = u.length + 2) by omega),
      if_neg (show ¬(u.length + 3 + 1 ≤ u.length + v.length + 1) by omega),
      if_neg (show ¬(u.length + 3 + 1 = u.length + v.length + 2) by omega)]
    rw [hk1]

theorem wildMid3_len (u v : List Nat) (j : Nat) :
    (wildMid3 u v j).length = u.length + j + 3 := rangeMap_length _ _

theorem wildMid3_getD_newest (u v : List Nat) (j : Nat) (hj1 : 1 ≤ j) :
    (wildMid3 u v j).getD (u.length + j + 2) dNode =
      ⟨.allow, [], u.length + j + 1, [u.length + 2]⟩ := by
  rw [wildMid3, rangeMap_getD _ _ (by omega)]
  unfold wildMid3Node
  rw [if_neg (show ¬(u.length + j + 2 = 0) by omega),
    if_neg (show ¬(u.length + j + 2 = 1) by omega),
    if_neg (show ¬(u.length + j + 2 ≤ u.length) by omega),
    if_neg (show ¬(u.length + j + 2 = u.length + 1) by omega),
    if_neg (show ¬(u.length + j + 2 = u.length + 2) by omega),
    if_pos rfl]

theorem wildMid3Node_step (u v : List Nat) (j : Nat) (hj1 : 1 ≤ j) (i : Nat)
    (hi : i < u.length + j + 3) :
    (if i = u.length + j + 2 then
        (⟨.allow, [(v.getD j 0, u.length + j + 3)], u.length + j + 1,
          [u.length + 2]⟩ : Node)
      else wildMid3Node u v j i) = wildMid3Node u v (j + 1) i := by
  unfold wildMid3Node
  split_ifs <;> first | rfl | omega |
    (simp_all
     all_goals rw [show u.length + j + 2 - u.length - 2 = j by omega])

theorem wild_vchain_step (u v : List Nat) (hv : metaFree v) {j : Nat} (hj1 : 1 ≤ j)
    (hjk : j + 2 ≤ v.length) :
    stepRule (u ++ [WILDCARD_BYTE] ++ v.take j) (u.length + j + 2) none
        ⟨wildMid3 u v j, [], []⟩ (.disallow (u ++ [WILDCARD_BYTE] ++ v)) =
      ⟨wildMid3 u v (j + 1),
       [⟨u ++ [WILDCARD_BYTE] ++ v.take (j + 1), u.length + j + 3, none⟩],
       u ++ [WILDCARD_BYTE] ++ v.take (j + 1)⟩ := by
  have hjv : j < v.length := by omega
  have hmfj := metaFree_getD hv hjv
  have htkj : (v.take j).length = j := List.length_take_of_le (by omega)
  have hppl : (u ++ [WILDCARD_BYTE] ++ v.take j).length = u.length + j + 1 := by
    simp only [List.length_append, List.length_singleton, htkj]
    omega
  have hsucc : u ++ [WILDCARD_BYTE] ++ v.take (j + 1) =
      (u ++ [WILDCARD_BYTE] ++ v.take j) ++ [v.getD j 0] := by
    rw [take_succ_getD hjv, ← List.append_assoc]
  have hp1 : ¬ (Rule.disallow (u ++ [WILDCARD_BYTE] ++ v)).inner.length <
      (u ++ [WILDCARD_BYTE] ++ v.take j).length + 1 := by
    simp only [Rule.inner, List.length_append, List.length_singleton, htkj]
    omega
  have hpfx : (Rule.disallow (u ++ [WILDCARD_BYTE] ++ v)).inner.take
      ((u ++ [WILDCARD_BYTE] ++ v.take j).length + 1) =
      u ++ [WILDCARD_BYTE] ++ v.take (j + 1) := by
    simp only [Rule.inner, hppl]
    rw [List.take_append_eq_append_take, List.take_of_length_le (by
      simp only [List.length_append, List.length_singleton]; omega)]
    congr 1
    congr 1
    simp only [List.length_append, List.length_singleton]
    omega
  have hpre : ¬ ¬ (u ++ [WILDCARD_BYTE] ++ v.take j).isPrefixOf
      (u ++ [WILDCARD_BYTE] ++ v.take (j + 1)) = true := by
    rw [hsucc]
    simp [List.isPrefixOf_iff_prefix]
  have hne : ¬ (([] : List Nat) = u ++ [WILDCARD_BYTE] ++ v.take (j + 1)) := by
    intro h
    have := congrArg List.length h
    simp at this
    omega
  have hedge : (u ++ [WILDCARD_BYTE] ++ v.take (j + 1)).getLastD 0 = v.getD j 0 := by
    rw [hsucc]
    exact List.getLastD_concat _ _ _
  have hterm : ¬ (u ++ [WILDCARD_BYTE] ++ v.take (j + 1) =
      (Rule.disallow (u ++ [WILDCARD_BYTE] ++ v)).inner) := by
    intro h
    have := congrArg List.length h
    simp only [Rule.inner, List.length_append, List.length_singleton,
      List.length_take] at this
    omega
  have hmid_len := wildMid3_len u v j
  have hgdn := wildMid3_getD_newest u v j hj1
  unfold stepRule
  rw [if_neg hp1]
  dsimp only
  rw [hpfx, if_neg hpre, if_neg hne, if_neg (by
    intro hc
    rcases hc with ⟨hc1, -⟩
    rw [hedge] at hc1
    exact hmfj.1 hc1), if_neg (by rw [hedge]; exact hmfj.1),
    if_neg (by rw [hedge]; exact hmfj.2)]
  rw [hedge, hmid_len]
  dsimp only [addEps]
  simp only [if_neg hterm, List.append_nil, List.nil_append]
  rw [hgdn]
  have hfil : List.filter (fun e => u.length + j + 3 != e) [u.length + 2] =
      [u.length + 2] := by
    rw [List.filter_cons_of_pos (by simp only [bne_iff_ne, ne_eq]; omega)]
    rfl
  rw [hfil]
  congr 1
  rw [modifyNode, hgdn]
  have hcl : (u ++ [WILDCARD_BYTE] ++ v.take (j + 1)).length = u.length + j + 2 := by
    rw [hsucc]
    simp only [List.length_append, List.length_singleton, htkj]
    omega
  rw [hcl]
  show (wildMid3 u v j).set (u.length + j + 2)
      ⟨.allow, [(v.getD j 0, u.length + j + 3)], u.length + j + 1, [u.length + 2]⟩ ++
      [⟨.allow, [], u.length + j + 2, [u.length + 2]⟩] = wildMid3 u v (j + 1)
  rw [wildMid3, rangeMap_set, wildMid3]
  rw [show u.length + (j + 1) + 3 = (u.length + j + 3) + 1 by omega]
  conv_rhs => rw [rangeMap_succ]
  congr 1
  · exact rangeMap_congr (fun i hi => wildMid3Node_step u v j hj1 i hi)
  · unfold wildMid3Node
    rw [if_neg (show ¬(u.length + j + 3 = 0) by omega),
      if_neg (show ¬(u.length + j + 3 = 1) by omega),
      if_neg (show ¬(u.length + j + 3 ≤ u.length) by omega),
      if_neg (show ¬(u.length + j + 3 = u.length + 1) by omega),
      if_neg (show ¬(u.length + j + 3 = u.length + 2) by omega),
      if_pos (show u.length + j + 3 = u.length + (j + 1) + 2 by omega),
      show u.length + (j + 1) + 1 = u.length + j + 2 by omega]

theorem wildNode_of_mid3 (u v : List Nat) {j : Nat} (hj1 : 1 ≤ j)
    (hkj : j + 1 = v.length) (i : Nat) (hi : i < u.length + j + 3) :
    (if i = u.length + j + 2 then
        (⟨.allow, [(v.getD j 0, u.length + j + 3)], u.length + j + 1,
          [u.length + 2]⟩ : Node)
      else wildMid3Node u v j i) = wildNode u v i := by
  unfold wildMid3Node wildNode
  split_ifs <;> first | rfl | omega |
    (simp_all
     all_goals rw [show u.length + j + 2 - u.length - 2 = j by omega])

theorem wild_vterm_step (u v : List Nat) (hv : metaFree v) {j : Nat} (hj1 : 1 ≤ j)
    (hkj : j + 1 = v.length) :
    stepRule (u ++ [WILDCARD_BYTE] ++ v.take j) (u.length + j + 2) none
        ⟨wildMid3 u v j, [], []⟩ (.disallow (u ++ [WILDCARD_BYTE] ++ v)) =
      ⟨wildStates u v, [⟨u ++ [WILDCARD_BYTE] ++ v, u.length + j + 3, none⟩],
       u ++ [WILDCARD_BYTE] ++ v⟩ := by
  have hjv : j < v.length := by omega
  have hmfj := metaFree_getD hv hjv
  have htkj : (v.take j).length = j := List.length_take_of_le (by omega)
  have hppl : (u ++ [WILDCARD_BYTE] ++ v.take j).length = u.length + j + 1 := by
    simp only [List.length_append, List.length_singleton, htkj]
    omega
  have hvj : v = v.take j ++ [v.getD j 0] := by
    conv_lhs => rw [← List.take_of_length_le (show v.length ≤ j + 1 by omega),
      take_succ_getD hjv]
  have hsucc : u ++ [WILDCARD_BYTE] ++ v =
      (u ++ [WILDCARD_BYTE] ++ v.take j) ++ [v.getD j 0] := by
    conv_lhs => rw [hvj]
    rw [← List.append_assoc]
  have hp1 : ¬ (Rule.disallow (u ++ [WILDCARD_BYTE] ++ v)).inner.length <
      (u ++ [WILDCARD_BYTE] ++ v.take j).length + 1 := by
    simp only [Rule.inner, List.length_append, List.length_singleton, htkj]
    omega
  have hpfx : (Rule.disallow (u ++ [WILDCARD_BYTE] ++ v)).inner.take
      ((u ++ [WILDCARD_BYTE] ++ v.take j).length + 1) =
      u ++ [WILDCARD_BYTE] ++ v := by
    simp only [Rule.inner, hppl]
    refine List.take_of_length_le ?_
    simp only [List.length_append, List.length_singleton]
    omega
  have hpre : ¬ ¬ (u ++ [WILDCARD_BYTE] ++ v.take j).isPrefixOf
      (u ++ [WILDCARD_BYTE] ++ v) = true := by
    rw [hsucc]
    simp [List.isPrefixOf_iff_prefix]
  have hne : ¬ (([] : List Nat) = u ++ [WILDCARD_BYTE] ++ v) := by
    intro h
    have := congrArg List.length h
    simp at this
    omega
  have hedge : (u ++ [WILDCARD_BYTE] ++ v).getLastD 0 = v.getD j 0 := by
    rw [hsucc]
    exact List.getLastD_concat _ _ _
  have hterm : u ++ [WILDCARD_BYTE] ++ v =
      (Rule.disallow (u ++ [WILDCARD_BYTE] ++ v)).inner := rfl
  have hmid_len := wildMid3_len u v j
  have hgdn := wildMid3_getD_newest u v j hj1
  unfold stepRule
  rw [if_neg hp1]
  dsimp only
  rw [hpfx, if_neg hpre, if_neg hne, if_neg (by
    intro hc
    rcases hc with ⟨hc1, -⟩
    rw [hedge] at hc1
    exact hmfj.1 hc1), if_neg (by rw [hedge]; exact hmfj.1),
    if_neg (by rw [hedge]; exact hmfj.2)]
  rw [hedge, hmid_len]
  dsimp only [addEps]
  simp only [if_pos hterm]
  congr 1
  rw [modifyNode, hgdn]
  have hcl : (u ++ [WILDCARD_BYTE] ++ v).length = u.length + j + 2 := by
    simp only [List.length_append, List.length_singleton]
    omega
  rw [hcl]
  show (wildMid3 u v j).set (u.length + j + 2)
      ⟨.allow, [(v.getD j 0, u.length + j + 3)], u.length + j + 1, [u.length + 2]⟩ ++
      [⟨.disallow, [], u.length + j + 2, [u.length + j + 4]⟩] ++
      [⟨.disallow, [], u.length + j + 2, []⟩] = wildStates u v
  rw [wildMid3, rangeMap_set, wildStates, wildLen,
    if_neg (show ¬(v.length = 0) by omega)]
  rw [show u.length + v.length + 4 = ((u.length + j + 3) + 1) + 1 by omega]
  conv_rhs => rw [rangeMap_succ]
  conv_rhs => rw [rangeMap_succ]
  congr 1
  congr 1
  · exact rangeMap_congr (fun i hi => wildNode_of_mid3 u v hj1 hkj i hi)
  · unfold wildNode
    rw [if_neg (show ¬(u.length + j + 3 = 0) by omega),
      if_neg (show ¬(u.length + j + 3 = 1) by omega),
      if_neg (show ¬(u.length + j + 3 ≤ u.length) by omega),
      if_neg (show ¬(u.length + j + 3 = u.length + 1) by omega),
      if_neg (show ¬(u.length + j + 3 = u.length + 2) by omega),
      if_neg (show ¬(u.length + j + 3 ≤ u.length + v.length + 1) by omega),
      if_pos (show u.length + j + 3 = u.length + v.length + 2 by omega),
      show u.length + v.length + 1 = u.length + j + 2 by omega,
      show u.length + v.length + 3 = u.length + j + 4 by omega]
  · unfold wildNode
    rw [if_neg (show ¬(u.length + j + 3 + 1 = 0) by omega),
      if_neg (show ¬(u.length + j + 3 + 1 = 1) by omega),
      if_neg (show ¬(u.length + j + 3 + 1 ≤ u.length) by omega),
      if_neg (show ¬(u.length + j + 3 + 1 = u.length + 1) by omega),
      if_neg (show ¬(u.length + j + 3 + 1 = u.length + 2) by omega),
      if_neg (show ¬(u.length + j + 3 + 1 ≤ u.length + v.length + 1) by omega),
      if_neg (show ¬(u.length + j + 3 + 1 = u.length + v.length + 2) by omega),
      show u.length + v.length + 1 = u.length + j + 2 by omega]

theorem wild_last (u v : List Nat) (ps : Nat) (eps : Option Nat) (st : List Node) :
    processItem [.disallow (u ++ [WILDCARD_BYTE] ++ v)]
      ⟨u ++ [WILDCARD_BYTE] ++ v, ps, eps⟩ st = (st, []) := by
  rw [processItem_singleton]
  unfold stepRule
  rw [if_pos (by
    simp only [Rule.inner, List.length_append, List.length_singleton]
    omega)]

theorem wild_kzero_last (u v : List Nat) (hv0 : v.length = 0) (ps : Nat)
    (eps : Option Nat) (st : List Node) :
    processItem [.disallow (u ++ [WILDCARD_BYTE] ++ v)]
      ⟨u ++ [WILDCARD_BYTE], ps, eps⟩ st = (st, []) := by
  rw [processItem_singleton]
  unfold stepRule
  rw [if_pos (by
    simp only [Rule.inner, List.length_append, List.length_singleton]
    omega)]

theorem wildMid2_eq_nil (u v : List Nat) (hv0 : v.length = 0) :
    wildMid2 u v = wildStates u v := by
  rw [wildMid2, wildStates, wildLen, if_pos hv0]
  exact rangeMap_congr (fun i hi => by
    unfold wildMid2Node wildNode
    split_ifs <;> first | rfl | omega)

theorem wild_vloop (u v : List Nat) (hv : metaFree v) :
    ∀ (d j fuel : Nat), 1 ≤ j → j + 1 + d = v.length → d + 3 ≤ fuel →
      compileLoop [.disallow (u ++ [WILDCARD_BYTE] ++ v)] fuel (wildMid3 u v j)
        [⟨u ++ [WILDCARD_BYTE] ++ v.take j, u.length + j + 2, none⟩] =
      wildStates u v := by
  intro d
  induction d with
  | zero =>
    intro j fuel hj1 hjk hf
    obtain ⟨f, rfl⟩ : ∃ f, fuel = f + 3 := ⟨fuel - 3, by omega⟩
    show compileLoop [.disallow (u ++ [WILDCARD_BYTE] ++ v)] (f + 2 + 1) (wildMid3 u v j)
      (⟨u ++ [WILDCARD_BYTE] ++ v.take j, u.length + j + 2, none⟩ :: []) = wildStates u v
    rw [compileLoop, processItem_singleton]
    dsimp only
    rw [wild_vterm_step u v hv hj1 (by omega)]
    show compileLoop [.disallow (u ++ [WILDCARD_BYTE] ++ v)] (f + 1 + 1) (wildStates u v)
      (⟨u ++ [WILDCARD_BYTE] ++ v, u.length + j + 3, none⟩ :: []) = wildStates u v
    rw [compileLoop, wild_last]
    show compileLoop [.disallow (u ++ [WILDCARD_BYTE] ++ v)] (f + 1) (wildStates u v) [] =
      wildStates u v
    cases f <;> rfl
  | succ d ih =>
    intro j fuel hj1 hjk hf
    obtain ⟨f, rfl⟩ : ∃ f, fuel = f + 1 := ⟨fuel - 1, by omega⟩
    show compileLoop [.disallow (u ++ [WILDCARD_BYTE] ++ v)] (f + 1) (wildMid3 u v j)
      (⟨u ++ [WILDCARD_BYTE] ++ v.take j, u.length + j + 2, none⟩ :: []) = wildStates u v
    rw [compileLoop, processItem_singleton]
    dsimp only
    rw [wild_vchain_step u v hv hj1 (by omega)]
    have := ih (j + 1) f (by omega) (by omega) (by omega)
    exact this

theorem wild_uloop (u v : List Nat) (hu : metaFree u) (hv : metaFree v) :
    ∀ (d j fuel : Nat), j + d = u.length → d + v.length + 3 ≤ fuel →
      compileLoop [.disallow (u ++ [WILDCARD_BYTE] ++ v)] fuel (anchoredMid u j)
        [⟨u.take j, if j = 0 then 0 else j + 1, none⟩] = wildStates u v := by
  intro d
  induction d with
  | zero =>
    intro j fuel hj hf
    have hjm : j = u.length := by omega
    subst hjm
    obtain ⟨f, rfl⟩ : ∃ f, fuel = f + 1 := ⟨fuel - 1, by omega⟩
    have hitem : (⟨u.take u.length, if u.length = 0 then 0 else u.length + 1, none⟩ :
        QueueItem) = ⟨u, if u.length = 0 then 0 else u.length + 1, none⟩ := by
      rw [List.take_length]
    rw [hitem]
    show compileLoop [.disallow (u ++ [WILDCARD_BYTE] ++ v)] (f + 1) (anchoredMid u u.length)
      (⟨u, if u.length = 0 then 0 else u.length + 1, none⟩ :: []) = wildStates u v
    rw [compileLoop, processItem_singleton]
    dsimp only
    rw [wild_star_step u v hu]
    rcases Nat.eq_zero_or_pos v.length with hk0 | hkpos
    · obtain ⟨f2, rfl⟩ : ∃ f2, f = f2 + 2 := ⟨f - 2, by omega⟩
      show compileLoop [.disallow (u ++ [WILDCARD_BYTE] ++ v)] (f2 + 1 + 1) (wildMid2 u v)
        (⟨u ++ [WILDCARD_BYTE], u.length + 2,
          some (if u.length = 0 then 0 else u.length + 1)⟩ :: []) = wildStates u v
      rw [compileLoop, wild_kzero_last u v hk0]
      show compileLoop [.disallow (u ++ [WILDCARD_BYTE] ++ v)] (f2 + 1) (wildMid2 u v) [] =
        wildStates u v
      rw [wildMid2_eq_nil u v hk0]
      cases f2 <;> rfl
    · by_cases hk1 : v.length = 1
      · obtain ⟨f2, rfl⟩ : ∃ f2, f = f2 + 3 := ⟨f - 3, by omega⟩
        show compileLoop [.disallow (u ++ [WILDCARD_BYTE] ++ v)] (f2 + 2 + 1) (wildMid2 u v)
          (⟨u ++ [WILDCARD_BYTE], u.length + 2,
            some (if u.length = 0 then 0 else u.length + 1)⟩ :: []) = wildStates u v
        rw [compileLoop, processItem_singleton]
        dsimp only
        rw [wild_v1_term_step u v hv hk1]
        show compileLoop [.disallow (u ++ [WILDCARD_BYTE] ++ v)] (f2 + 1 + 1)
          (wildStates u v) (⟨u ++ [WILDCARD_BYTE] ++ v, u.length + 3, none⟩ :: []) =
          wildStates u v
        rw [compileLoop, wild_last]
        show compileLoop [.disallow (u ++ [WILDCARD_BYTE] ++ v)] (f2 + 1) (wildStates u v) [] =
          wildStates u v
        cases f2 <;> rfl
      · have hk2 : 2 ≤ v.length := by omega
        obtain ⟨f2, rfl⟩ : ∃ f2, f = f2 + 1 := ⟨f - 1, by omega⟩
        show compileLoop [.disallow (u ++ [WILDCARD_BYTE] ++ v)] (f2 + 1) (wildMid2 u v)
          (⟨u ++ [WILDCARD_BYTE], u.length + 2,
            some (if u.length = 0 then 0 else u.length + 1)⟩ :: []) = wildStates u v
        rw [compileLoop, processItem_singleton]
        dsimp only
        rw [wild_v1_step u v hv hk2]
        have := wild_vloop u v hv (v.length - 2) 1 f2 (by omega) (by omega) (by omega)
        exact this
  | succ d ih =>
    intro j fuel hj hf
    obtain ⟨f, rfl⟩ : ∃ f, fuel = f + 1 := ⟨fuel - 1, by omega⟩
    show compileLoop [.disallow (u ++ [WILDCARD_BYTE] ++ v)] (f + 1) (anchoredMid u j)
      (⟨u.take j, if j = 0 then 0 else j + 1, none⟩ :: []) = wildStates u v
    rw [compileLoop, processItem_singleton]
    dsimp only
    rw [wild_chain_step u v hu (show j < u.length by omega)]
    have hitem : (⟨u.take (j + 1), j + 2, none⟩ : QueueItem) =
        ⟨u.take (j + 1), if j + 1 = 0 then 0 else (j + 1) + 1, none⟩ := by
      rw [if_neg (by omega)]
    rw [hitem]
    exact ih (j + 1) f (by omega) (by omega)

theorem wild_compile (u v : List Nat) (hu : metaFree u) (hv : metaFree v) :
    (Cylon.compile [.disallow (u ++ [WILDCARD_BYTE] ++ v)]).states = wildStates u v := by
  unfold Cylon.compile
  dsimp only
  have hsort : sortRules [Rule.disallow (u ++ [WILDCARD_BYTE] ++ v)] =
      [.disallow (u ++ [WILDCARD_BYTE] ++ v)] := rfl
  have hfuel : nfaFuel [Rule.disallow (u ++ [WILDCARD_BYTE] ++ v)] =
      u.length + v.length + 3 := by
    simp only [nfaFuel, List.foldl_cons, List.foldl_nil, Rule.inner, List.length_append,
      List.length_singleton]
    omega
  rw [hsort, hfuel]
  have h0 : [(⟨.allow, [], 0, [1]⟩ : Node), ⟨.allow, [], 0, []⟩] = anchoredMid u 0 := rfl
  have hitem : (⟨[], 0, none⟩ : QueueItem) =
      ⟨u.take 0, if 0 = 0 then 0 else 0 + 1, none⟩ := rfl
  rw [h0, hitem]
  exact wild_uloop u v hu hv u.length 0 (u.length + v.length + 3) (by omega) (by omega)

theorem setInsert_mem (x : Nat) (l : List Nat) (y : Nat) :
    y ∈ setInsert x l ↔ y = x ∨ y ∈ l := by
  induction l with
  | nil => simp [setInsert]
  | cons z zs ih =>
    unfold setInsert
    by_cases h1 : x < z
    · rw [if_pos h1]
      simp
    · rw [if_neg h1]
      by_cases h2 : x = z
      · rw [if_pos h2]
        subst h2
        simp only [List.mem_cons]
        tauto
      · rw [if_neg h2]
        simp only [List.mem_cons, ih]
        tauto

theorem setInsert_pairwise (x : Nat) (l : List Nat) (h : l.Pairwise (· < ·)) :
    (setInsert x l).Pairwise (· < ·) := by
  induction l with
  | nil => simp [setInsert]
  | cons z zs ih =>
    rw [List.pairwise_cons] at h
    unfold setInsert
    by_cases h1 : x < z
    · rw [if_pos h1]
      rw [List.pairwise_cons]
      refine ⟨?_, List.pairwise_cons.mpr h⟩
      intro a ha
      rcases List.mem_cons.mp ha with rfl | ha2
      · exact h1
      · exact h1.trans (h.1 a ha2)
    · rw [if_neg h1]
      by_cases h2 : x = z
      · rw [if_pos h2]
        exact List.pairwise_cons.mpr h
      · rw [if_neg h2]
        rw [List.pairwise_cons]
        refine ⟨?_, ih h.2⟩
        intro a ha
        rcases (setInsert_mem x zs a).mp ha with rfl | ha2
        · omega
        · exact h.1 a ha2

theorem insFold_mem (ts : List Nat) (init : List Nat) (y : Nat) :
    y ∈ ts.foldl (fun acc t => setInsert t acc) init ↔ y ∈ ts ∨ y ∈ init := by
  induction ts generalizing init with
  | nil => simp
  | cons t ts ih =>
    simp only [List.foldl_cons, ih, setInsert_mem, List.mem_cons]
    tauto

theorem insFold_pairwise (ts : List Nat) (init : List Nat)
    (h : init.Pairwise (· < ·)) :
    (ts.foldl (fun acc t => setInsert t acc) init).Pairwise (· < ·) := by
  induction ts generalizing init with
  | nil => exact h
  | cons t ts ih =>
    exact ih _ (setInsert_pairwise t init h)

theorem stepSet_aux_mem (c : Cylon) (b : Nat) (cur : List Nat) (init : List Nat) (y : Nat) :
    y ∈ cur.foldl
        (fun next s =>
          match c.states[s]? with
          | some st => (st.followEdges b s).foldl (fun acc t => setInsert t acc) next
          | none => next)
        init ↔
      y ∈ init ∨ ∃ s ∈ cur, ∃ st, c.states[s]? = some st ∧ y ∈ st.followEdges b s := by
  induction cur generalizing init with
  | nil => simp
  | cons s cur ih =>
    simp only [List.foldl_cons, List.mem_cons]
    cases hs : c.states[s]? with
    | none =>
      rw [ih]
      constructor
      · rintro (h1 | ⟨s2, hs2, st, hst, hy⟩)
        · exact Or.inl h1
        · exact Or.inr ⟨s2, Or.inr hs2, st, hst, hy⟩
      · rintro (h1 | ⟨s2, hs2, st, hst, hy⟩)
        · exact Or.inl h1
        · rcases hs2 with rfl | hs2
          · rw [hs] at hst
            exact absurd hst (by simp)
          · exact Or.inr ⟨s2, hs2, st, hst, hy⟩
    | some st0 =>
      rw [ih, insFold_mem]
      constructor
      · rintro ((h1 | h1) | ⟨s2, hs2, st, hst, hy⟩)
        · exact Or.inr ⟨s, Or.inl rfl, st0, hs, h1⟩
        · exact Or.inl h1
        · exact Or.inr ⟨s2, Or.inr hs2, st, hst, hy⟩
      · rintro (h1 | ⟨s2, hs2, st, hst, hy⟩)
        · exact Or.inl (Or.inr h1)
        · rcases hs2 with rfl | hs2
          · rw [hs] at hst
            cases hst
            exact Or.inl (Or.inl hy)
          · exact Or.inr ⟨s2, hs2, st, hst, hy⟩

theorem stepSet_mem (c : Cylon) (cur : List Nat) (b : Nat) (y : Nat) :
    y ∈ stepSet c cur b ↔
      ∃ s ∈ cur, ∃ st, c.states[s]? = some st ∧ y ∈ st.followEdges b s := by
  rw [stepSet, stepSet_aux_mem]
  simp

theorem stepSet_pairwise (c : Cylon) (cur : List Nat) (b : Nat) :
    (stepSet c cur b).Pairwise (· < ·) := by
  rw [stepSet]
  generalize hinit : ([] : List Nat) = init
  have h : init.Pairwise (· < ·) := by rw [← hinit]; simp
  clear hinit
  induction cur generalizing init with
  | nil => exact h
  | cons s cur ih =>
    rw [List.foldl_cons]
    cases hs : c.states[s]? with
    | none => exact ih _ h
    | some st0 => exact ih _ (insFold_pairwise _ _ h)

theorem sorted_mem_ext (l₁ l₂ : List Nat) (h₁ : l₁.Pairwise (· < ·))
    (h₂ : l₂.Pairwise (· < ·)) (h : ∀ y, y ∈ l₁ ↔ y ∈ l₂) : l₁ = l₂ := by
  have n₁ : l₁.Nodup := h₁.imp Nat.ne_of_lt
  have n₂ : l₂.Nodup := h₂.imp Nat.ne_of_lt
  exact List.eq_of_perm_of_sorted ((List.perm_ext_iff_of_nodup n₁ n₂).mpr h) h₁ h₂

theorem followEdges_mem (n : Node) (b s y : Nat) :
    y ∈ n.followEdges b s ↔
      (∃ c t, (c, t) ∈ n.edges ∧ c = b ∧ y = t) ∨ y ∈ n.wildcards ∨
        (n.wildcards = [] ∧ y = s) := by
  unfold Node.followEdges
  simp only [List.mem_append, List.mem_map, List.mem_filter]
  constructor
  · rintro ((⟨⟨c, t⟩, ⟨hmem, hbeq⟩, hy⟩ | hw) | hfb)
    · exact Or.inl ⟨c, t, hmem, by simpa using hbeq, hy.symm⟩
    · exact Or.inr (Or.inl hw)
    · by_cases hwc : n.wildcards.isEmpty
      · rw [if_pos hwc] at hfb
        exact Or.inr (Or.inr ⟨List.isEmpty_iff.mp hwc, by simpa using hfb⟩)
      · rw [if_neg hwc] at hfb
        exact absurd hfb (by simp)
  · rintro (⟨c, t, hmem, hcb, hyt⟩ | hw | ⟨hwc, rfl⟩)
    · exact Or.inl (Or.inl ⟨⟨c, t⟩, ⟨hmem, by simp [hcb]⟩, hyt.symm⟩)
    · exact Or.inl (Or.inr hw)
    · rw [hwc]
      simp

theorem wildNode_one (u v : List Nat) : wildNode u v 1 = ⟨.allow, [], 0, []⟩ := rfl

theorem wildNode_root_pos (u v : List Nat) (hm : 1 ≤ u.length) :
    wildNode u v 0 = ⟨.allow, [(u.getD 0 0, 2)], 0, [1]⟩ := by
  unfold wildNode
  rw [if_pos rfl, if_neg (by omega)]

theorem wildNode_root_zk (u v : List Nat) (hm : u.length = 0) (hk : 1 ≤ v.length) :
    wildNode u v 0 = ⟨.allow, [(v.getD 0 0, 3)], 0, [1, 2]⟩ := by
  unfold wildNode
  rw [if_pos rfl, if_pos hm, if_neg (by omega)]

theorem wildNode_root_zz (u v : List Nat) (hm : u.length = 0) (hk : v.length = 0) :
    wildNode u v 0 = ⟨.disallow, [], 0, [1, 2]⟩ := by
  unfold wildNode
  rw [if_pos rfl, if_pos hm, if_pos hk]

theorem wildNode_chain (u v : List Nat) {i : Nat} (h2 : 2 ≤ i) (him : i ≤ u.length) :
    wildNode u v i = ⟨.allow, [(u.getD (i - 1) 0, i + 1)], i - 1, [1]⟩ := by
  unfold wildNode
  rw [if_neg (by omega), if_neg (by omega), if_pos him]

theorem wildNode_uEnd_k (u v : List Nat) (hm : 1 ≤ u.length) (hk : 1 ≤ v.length) :
    wildNode u v (u.length + 1) =
      ⟨.allow, [(v.getD 0 0, u.length + 3)], u.length, [1, u.length + 2]⟩ := by
  unfold wildNode
  rw [if_neg (by omega), if_neg (by omega), if_neg (by omega), if_pos rfl,
    if_neg (by omega)]

theorem wildNode_uEnd_k0 (u v : List Nat) (hm : 1 ≤ u.length) (hk0 : v.length = 0) :
    wildNode u v (u.length + 1) =
      ⟨.disallow, [], u.length, [1, u.length + 2]⟩ := by
  unfold wildNode
  rw [if_neg (by omega), if_neg (by omega), if_neg (by omega), if_pos rfl, if_pos hk0]

theorem wildNode_wild_k (u v : List Nat) (hk : 1 ≤ v.length) :
    wildNode u v (u.length + 2) =
      ⟨.allow, [(v.getD 0 0, u.length + 3)], u.length + 1, [u.length + 2]⟩ := by
  unfold wildNode
  rw [if_neg (by omega), if_neg (by omega), if_neg (by omega), if_neg (by omega),
    if_pos rfl, if_neg (by omega)]

theorem wildNode_wild_k0 (u v : List Nat) (hk0 : v.length = 0) :
    wildNode u v (u.length + 2) =
      ⟨.disallow, [], u.length + 1, [u.length + 2]⟩ := by
  unfold wildNode
  rw [if_neg (by omega), if_neg (by omega), if_neg (by omega), if_neg (by omega),
    if_pos rfl, if_pos hk0]

theorem wildNode_vmid (u v : List Nat) {i : Nat} (h3 : u.length + 3 ≤ i)
    (hi : i ≤ u.length + v.length + 1) :
    wildNode u v i =
      ⟨.allow, [(v.getD (i - u.length - 2) 0, i + 1)], i - 1, [u.length + 2]⟩ := by
  unfold wildNode
  rw [if_neg (by omega), if_neg (by omega), if_neg (by omega), if_neg (by omega),
    if_neg (by omega), if_pos hi]

theorem wildNode_term (u v : List Nat) (hk : 1 ≤ v.length) :
    wildNode u v (u.length + v.length + 2) =
      ⟨.disallow, [], u.length + v.length + 1, [u.length + v.length + 3]⟩ := by
  unfold wildNode
  rw [if_neg (by omega), if_neg (by omega), if_neg (by omega), if_neg (by omega),
    if_neg (by omega), if_neg (by omega), if_pos rfl]

theorem wildNode_termW (u v : List Nat) (hk : 1 ≤ v.length) :
    wildNode u v (u.length + v.length + 3) =
      ⟨.disallow, [], u.length + v.length + 1, []⟩ := by
  unfold wildNode
  rw [if_neg (by omega), if_neg (by omega), if_neg (by omega), if_neg (by omega),
    if_neg (by omega), if_neg (by omega), if_neg (by omega)]

theorem wildMem_zero (u v p : List Nat) : wildMem u v p 0 = p.isEmpty := rfl

theorem wildMem_one (u v p : List Nat) : wildMem u v p 1 = !p.isEmpty := rfl

theorem wildMem_chain (u v p : List Nat) {i : Nat} (h2 : 2 ≤ i)
    (hi : i ≤ u.length + 1) :
    wildMem u v p i = (p == u.take (i - 1)) := by
  unfold wildMem
  rw [if_neg (by omega), if_neg (by omega), if_pos hi]

theorem wildMem_wild (u v p : List Nat) :
    wildMem u v p (u.length + 2) =
      (u.isPrefixOf p && decide (u.length < p.length)) := by
  unfold wildMem
  rw [if_neg (by omega), if_neg (by omega), if_neg (by omega), if_pos rfl]

theorem wildMem_v (u v p : List Nat) {i : Nat} (h3 : u.length + 3 ≤ i)
    (hi : i ≤ u.length + v.length + 2) :
    wildMem u v p i =
      (u.isPrefixOf p && (v.take (i - u.length - 2)).isSuffixOf p &&
        decide (i - 2 ≤ p.length)) := by
  unfold wildMem
  rw [if_neg (by omega), if_neg (by omega), if_neg (by omega), if_neg (by omega),
    if_pos hi]

theorem wildMem_sink (u v p : List Nat) :
    wildMem u v p (u.length + v.length + 3) = sinkCond u v p := by
  unfold wildMem
  rw [if_neg (by omega), if_neg (by omega), if_neg (by omega), if_neg (by omega),
    if_neg (by omega)]

theorem suffix_append_one {xs p : List Nat} (b : Nat) (h : xs <:+ p) :
    xs ++ [b] <:+ p ++ [b] := by
  obtain ⟨w, hw⟩ := h
  exact ⟨w, by rw [← List.append_assoc, hw]⟩

theorem suffix_concat_split {xs p : List Nat} {c b : Nat}
    (h : xs ++ [c] <:+ p ++ [b]) : c = b ∧ xs <:+ p := by
  obtain ⟨w, hw⟩ := h
  rw [← List.append_assoc] at hw
  have := List.append_inj' hw rfl
  exact ⟨List.singleton_inj.mp this.2, ⟨w, this.1⟩⟩

theorem prefix_of_concat {q p : List Nat} {b : Nat} (h : q <+: p ++ [b])
    (hl : q.length ≤ p.length) : q <+: p := by
  rw [List.prefix_iff_eq_take] at h ⊢
  rw [List.take_append_of_le_length hl] at h
  exact h

theorem termAt_take (u v p : List Nat) (b : Nat) {n : Nat} (hn : n ≤ p.length) :
    termAt u v ((p ++ [b]).take n) = termAt u v (p.take n) := by
  rw [List.take_append_of_le_length hn]

theorem sinkCond_append (u v p : List Nat) (b : Nat) :
    sinkCond u v (p ++ [b]) = (sinkCond u v p || termAt u v p) := by
  unfold sinkCond
  rw [show (p ++ [b]).length = p.length + 1 by simp, List.range_succ, List.any_append]
  congr 1
  · rw [Bool.eq_iff_iff]
    simp only [List.any_eq_true, List.mem_range]
    constructor
    · rintro ⟨n, hn, h⟩
      exact ⟨n, hn, by rwa [termAt_take u v p b (le_of_lt hn)] at h⟩
    · rintro ⟨n, hn, h⟩
      exact ⟨n, hn, by rwa [termAt_take u v p b (le_of_lt hn)]⟩
  · simp only [List.any_cons, List.any_nil, Bool.or_false]
    rw [List.take_append_of_le_length (le_refl p.length), List.take_length]

theorem wildLen_ge (u v : List Nat) : u.length + 3 ≤ wildLen u v := by
  rw [wildLen]
  split_ifs <;> omega

theorem wildLen_pos_k (u v : List Nat) (hk : 1 ≤ v.length) :
    wildLen u v = u.length + v.length + 4 := by
  rw [wildLen, if_neg (by omega)]

theorem wild_step_fwd (u v p : List Nat) (b : Nat) (y s : Nat)
    (hs : s < wildLen u v) (hmem : wildMem u v p s = true)
    (hy : y ∈ (wildNode u v s).followEdges b s) :
    y < wildLen u v ∧ wildMem u v (p ++ [b]) y = true := by
  have hL := wildLen_ge u v
  have hpb1 : wildMem u v (p ++ [b]) 1 = true := by
    rw [wildMem_one]
    simp
  by_cases hs0 : s = 0
  · subst hs0
    rw [wildMem_zero] at hmem
    have hp : p = [] := List.isEmpty_iff.mp hmem
    subst hp
    simp only [List.nil_append]
    by_cases hm : u.length = 0
    · have hu0 : u = [] := List.length_eq_zero.mp hm
      by_cases hk : v.length = 0
      · rw [wildNode_root_zz u v hm hk] at hy
        simp only [followEdges_mem] at hy
        rcases hy with ⟨c, t, hct, -, -⟩ | hy | ⟨habs, -⟩
        · simp at hct
        · rcases List.mem_cons.mp hy with rfl | hy2
          · exact ⟨by omega, hpb1⟩
          · rcases List.mem_cons.mp hy2 with rfl | hy3
            · refine ⟨by omega, ?_⟩
              rw [show (2 : Nat) = u.length + 2 by omega, wildMem_wild]
              simp [hu0]
            · simp at hy3
        · simp at habs
      · rw [wildNode_root_zk u v hm (by omega)] at hy
        simp only [followEdges_mem] at hy
        rcases hy with ⟨c, t, hct, hcb, hyt⟩ | hy | ⟨habs, -⟩
        · simp only [List.mem_singleton, Prod.mk.injEq] at hct
          subst hyt
          rw [hct.2]
          have hb : b = v.getD 0 0 := by rw [← hcb, hct.1]
          constructor
          · rw [wildLen_pos_k u v (by omega)]
            omega
          · rw [show (3 : Nat) = u.length + 3 by omega,
              wildMem_v u v _ (by omega) (by omega)]
            simp only [Bool.and_eq_true, List.isPrefixOf_iff_prefix,
              List.isSuffixOf_iff_suffix, decide_eq_true_eq]
            refine ⟨⟨by simp [hu0], ?_⟩, ?_⟩
            · rw [show u.length + 3 - u.length - 2 = 1 by omega,
                take_one_getD (show 1 ≤ v.length by omega), hb]
            · simp only [List.length_append, List.length_singleton]
              omega
        · rcases List.mem_cons.mp hy with rfl | hy2
          · exact ⟨by omega, hpb1⟩
          · rcases List.mem_cons.mp hy2 with rfl | hy3
            · refine ⟨by omega, ?_⟩
              rw [show (2 : Nat) = u.length + 2 by omega, wildMem_wild]
              simp [hu0]
            · simp at hy3
        · simp at habs
    · rw [wildNode_root_pos u v (by omega)] at hy
      simp only [followEdges_mem] at hy
      rcases hy with ⟨c, t, hct, hcb, hyt⟩ | hy | ⟨habs, -⟩
      · simp only [List.mem_singleton, Prod.mk.injEq] at hct
        subst hyt
        rw [hct.2]
        refine ⟨by omega, ?_⟩
        rw [wildMem_chain u v _ (by omega) (by omega)]
        rw [show (2 : Nat) - 1 = 1 by omega, take_one_getD (show 1 ≤ u.length by omega)]
        have hb : b = u.getD 0 0 := by rw [← hcb, hct.1]
        simp [hb]
      · rcases List.mem_cons.mp hy with rfl | hy2
        · exact ⟨by omega, hpb1⟩
        · simp at hy2
      · simp at habs
  · by_cases hs1 : s = 1
    · subst hs1
      rw [wildNode_one] at hy
      simp only [followEdges_mem] at hy
      rcases hy with ⟨c, t, hct, -, -⟩ | hy | ⟨-, rfl⟩
      · simp at hct
      · simp at hy
      · exact ⟨by omega, hpb1⟩
    · by_cases hsch : s ≤ u.length
      · -- chain node, 2 ≤ s ≤ u.length
        have h2s : 2 ≤ s := by omega
        rw [wildMem_chain u v p h2s (by omega)] at hmem
        have hp : p = u.take (s - 1) := by simpa using hmem
        rw [wildNode_chain u v h2s hsch] at hy
        simp only [followEdges_mem] at hy
        rcases hy with ⟨c, t, hct, hcb, hyt⟩ | hy | ⟨habs, -⟩
        · simp only [List.mem_singleton, Prod.mk.injEq] at hct
          subst hyt
          rw [hct.2]
          refine ⟨by omega, ?_⟩
          rw [wildMem_chain u v _ (by omega) (by omega)]
          rw [show s + 1 - 1 = (s - 1) + 1 by omega,
            take_succ_getD (show s - 1 < u.length by omega)]
          have hb : b = u.getD (s - 1) 0 := by rw [← hcb, hct.1]
          simp [hp, hb]
        · rcases List.mem_cons.mp hy with rfl | hy2
          · exact ⟨by omega, hpb1⟩
          · simp at hy2
        · simp at habs
      · by_cases hsu : s = u.length + 1
        · -- end of the u chain
          have hm1 : 1 ≤ u.length := by omega
          subst hsu
          rw [wildMem_chain u v p (by omega) (by omega)] at hmem
          have hp : p = u := by
            have := (beq_iff_eq).mp hmem
            rwa [show u.length + 1 - 1 = u.length by omega, List.take_length] at this
          have hplen : p.length = u.length := by rw [hp]
          have hupp : u <+: p ++ [b] := by rw [hp]; exact List.prefix_append u [b]
          by_cases hk : v.length = 0
          · rw [wildNode_uEnd_k0 u v hm1 hk] at hy
            simp only [followEdges_mem] at hy
            rcases hy with ⟨c, t, hct, -, -⟩ | hy | ⟨habs, -⟩
            · simp at hct
            · rcases List.mem_cons.mp hy with rfl | hy2
              · exact ⟨by omega, hpb1⟩
              · rcases List.mem_cons.mp hy2 with rfl | hy3
                · refine ⟨by omega, ?_⟩
                  rw [wildMem_wild]
                  simp only [Bool.and_eq_true, List.isPrefixOf_iff_prefix,
                    decide_eq_true_eq]
                  refine ⟨hupp, ?_⟩
                  simp only [List.length_append, List.length_singleton]
                  omega
                · simp at hy3
            · simp at habs
          · rw [wildNode_uEnd_k u v hm1 (by omega)] at hy
            simp only [followEdges_mem] at hy
            rcases hy with ⟨c, t, hct, hcb, hyt⟩ | hy | ⟨habs, -⟩
            · simp only [List.mem_singleton, Prod.mk.injEq] at hct
              subst hyt
              rw [hct.2]
              have hb : b = v.getD 0 0 := by rw [← hcb, hct.1]
              refine ⟨by rw [wildLen_pos_k u v (by omega)]; omega, ?_⟩
              rw [wildMem_v u v _ (by omega) (by omega)]
              simp only [Bool.and_eq_true, List.isPrefixOf_iff_prefix,
                List.isSuffixOf_iff_suffix, decide_eq_true_eq]
              refine ⟨⟨hupp, ?_⟩, ?_⟩
              · rw [show u.length + 3 - u.length - 2 = 1 by omega,
                  take_one_getD (show 1 ≤ v.length by omega), hb]
                exact ⟨p, rfl⟩
              · simp only [List.length_append, List.length_singleton]
                omega
            · rcases List.mem_cons.mp hy with rfl | hy2
              · exact ⟨by omega, hpb1⟩
              · rcases List.mem_cons.mp hy2 with rfl | hy3
                · refine ⟨by omega, ?_⟩
                  rw [wildMem_wild]
                  simp only [Bool.and_eq_true, List.isPrefixOf_iff_prefix,
                    decide_eq_true_eq]
                  refine ⟨hupp, ?_⟩
                  simp only [List.length_append, List.length_singleton]
                  omega
                · simp at hy3
            · simp at habs
        · by_cases hsw : s = u.length + 2
          · -- wildcard self-loop node
            subst hsw
            rw [wildMem_wild] at hmem
            simp only [Bool.and_eq_true, List.isPrefixOf_iff_prefix,
              decide_eq_true_eq] at hmem
            obtain ⟨hup, hlt⟩ := hmem
            have hup2 : u <+: p ++ [b] := hup.trans (List.prefix_append p [b])
            by_cases hk : v.length = 0
            · rw [wildNode_wild_k0 u v hk] at hy
              simp only [followEdges_mem] at hy
              rcases hy with ⟨c, t, hct, -, -⟩ | hy | ⟨habs, -⟩
              · simp at hct
              · rcases List.mem_cons.mp hy with rfl | hy2
                · refine ⟨by omega, ?_⟩
                  rw [wildMem_wild]
                  simp only [Bool.and_eq_true, List.isPrefixOf_iff_prefix,
                    decide_eq_true_eq]
                  exact ⟨hup2, by simp; omega⟩
                · simp at hy2
              · simp at habs
            · rw [wildNode_wild_k u v (by omega)] at hy
              simp only [followEdges_mem] at hy
              rcases hy with ⟨c, t, hct, hcb, hyt⟩ | hy | ⟨habs, -⟩
              · simp only [List.mem_singleton, Prod.mk.injEq] at hct
                subst hyt
                rw [hct.2]
                have hb : b = v.getD 0 0 := by rw [← hcb, hct.1]
                refine ⟨by rw [wildLen_pos_k u v (by omega)]; omega, ?_⟩
                rw [wildMem_v u v _ (by omega) (by omega)]
                simp only [Bool.and_eq_true, List.isPrefixOf_iff_prefix,
                  List.isSuffixOf_iff_suffix, decide_eq_true_eq]
                refine ⟨⟨hup2, ?_⟩, ?_⟩
                · rw [show u.length + 3 - u.length - 2 = 1 by omega,
                    take_one_getD (show 1 ≤ v.length by omega), hb]
                  exact ⟨p, rfl⟩
                · simp only [List.length_append, List.length_singleton]
                  omega
              · rcases List.mem_cons.mp hy with rfl | hy2
                · refine ⟨by omega, ?_⟩
                  rw [wildMem_wild]
                  simp only [Bool.and_eq_true, List.isPrefixOf_iff_prefix,
                    decide_eq_true_eq]
                  exact ⟨hup2, by simp; omega⟩
                · simp at hy2
              · simp at habs
          · -- beyond the wildcard node: v chain, terminal or trailing twin
            have hk1 : 1 ≤ v.length := by
              by_contra hc
              rw [wildLen, if_pos (by omega)] at hs
              omega
            rw [wildLen_pos_k u v hk1] at hs
            by_cases hsv : s ≤ u.length + v.length + 1
            · -- middle of the v chain
              have h3s : u.length + 3 ≤ s := by omega
              rw [wildMem_v u v p h3s (by omega)] at hmem
              simp only [Bool.and_eq_true, List.isPrefixOf_iff_prefix,
                List.isSuffixOf_iff_suffix, decide_eq_true_eq] at hmem
              obtain ⟨⟨hup, hsuf⟩, hlen⟩ := hmem
              have hup2 : u <+: p ++ [b] := hup.trans (List.prefix_append p [b])
              rw [wildNode_vmid u v h3s hsv] at hy
              simp only [followEdges_mem] at hy
              rcases hy with ⟨c, t, hct, hcb, hyt⟩ | hy | ⟨habs, -⟩
              · simp only [List.mem_singleton, Prod.mk.injEq] at hct
                subst hyt
                rw [hct.2]
                have hb : b = v.getD (s - u.length - 2) 0 := by rw [← hcb, hct.1]
                refine ⟨by rw [wildLen_pos_k u v hk1]; omega, ?_⟩
                rw [wildMem_v u v _ (by omega) (by omega)]
                simp only [Bool.and_eq_true, List.isPrefixOf_iff_prefix,
                  List.isSuffixOf_iff_suffix, decide_eq_true_eq]
                refine ⟨⟨hup2, ?_⟩, ?_⟩
                · rw [show s + 1 - u.length - 2 = (s - u.length - 2) + 1 by omega,
                    take_succ_getD (show s - u.length - 2 < v.length by omega), hb]
                  exact suffix_append_one _ hsuf
                · simp only [List.length_append, List.length_singleton]
                  omega
              · rcases List.mem_cons.mp hy with rfl | hy2
                · refine ⟨by omega, ?_⟩
                  rw [wildMem_wild]
                  simp only [Bool.and_eq_true, List.isPrefixOf_iff_prefix,
                    decide_eq_true_eq]
                  exact ⟨hup2, by simp; omega⟩
                · simp at hy2
              · simp at habs
            · by_cases hst : s = u.length + v.length + 2
              · -- terminal state
                subst hst
                rw [wildMem_v u v p (by omega) (by omega)] at hmem
                simp only [Bool.and_eq_true, List.isPrefixOf_iff_prefix,
                  List.isSuffixOf_iff_suffix, decide_eq_true_eq] at hmem
                obtain ⟨⟨hup, hsuf⟩, hlen⟩ := hmem
                rw [show u.length + v.length + 2 - u.length - 2 = v.length by omega,
                  List.take_length] at hsuf
                rw [wildNode_term u v hk1] at hy
                simp only [followEdges_mem] at hy
                rcases hy with ⟨c, t, hct, -, -⟩ | hy | ⟨habs, -⟩
                · simp at hct
                · rcases List.mem_cons.mp hy with rfl | hy2
                  · refine ⟨by rw [wildLen_pos_k u v hk1]; omega, ?_⟩
                    rw [wildMem_sink, sinkCond_append]
                    have hta : termAt u v p = true := by
                      unfold termAt
                      simp only [Bool.and_eq_true, List.isPrefixOf_iff_prefix,
                        List.isSuffixOf_iff_suffix, decide_eq_true_eq]
                      exact ⟨⟨hup, hsuf⟩, by omega⟩
                    rw [hta]
                    simp
                  · simp at hy2
                · simp at habs
              · -- trailing twin
                have hst2 : s = u.length + v.length + 3 := by omega
                subst hst2
                rw [wildMem_sink] at hmem
                rw [wildNode_termW u v hk1] at hy
                simp only [followEdges_mem] at hy
                rcases hy with ⟨c, t, hct, -, -⟩ | hy | ⟨-, rfl⟩
                · simp at hct
                · simp at hy
                · refine ⟨by rw [wildLen_pos_k u v hk1]; omega, ?_⟩
                  rw [wildMem_sink, sinkCond_append, hmem]
                  simp

theorem wild_step_bwd (u v p : List Nat) (b : Nat) (y : Nat)
    (hy : y < wildLen u v) (hmem : wildMem u v (p ++ [b]) y = true) :
    ∃ s, s < wildLen u v ∧ wildMem u v p s = true ∧
      y ∈ (wildNode u v s).followEdges b s := by
  have hL := wildLen_ge u v
  by_cases hy0 : y = 0
  · subst hy0
    rw [wildMem_zero] at hmem
    simp at hmem
  · by_cases hy1 : y = 1
    · subst hy1
      by_cases hp : p = []
      · subst hp
        refine ⟨0, by omega, by rw [wildMem_zero]; rfl, ?_⟩
        by_cases hm : u.length = 0
        · by_cases hk : v.length = 0
          · rw [wildNode_root_zz u v hm hk, followEdges_mem]
            simp
          · rw [wildNode_root_zk u v hm (by omega), followEdges_mem]
            simp
        · rw [wildNode_root_pos u v (by omega), followEdges_mem]
          simp
      · refine ⟨1, by omega, ?_, ?_⟩
        · rw [wildMem_one]
          simp [hp]
        · rw [wildNode_one, followEdges_mem]
          simp
    · by_cases hych : y ≤ u.length + 1
      · -- chain target, 2 ≤ y ≤ u.length + 1
        have h2y : 2 ≤ y := by omega
        have hm1 : 1 ≤ u.length := by omega
        rw [wildMem_chain u v _ h2y hych] at hmem
        have hpb : p ++ [b] = u.take (y - 1) := by simpa using hmem
        have hlen : p.length + 1 = y - 1 := by
          have := congrArg List.length hpb
          simp only [List.length_append, List.length_singleton, List.length_take] at this
          omega
        have hsplit : p = u.take (y - 2) ∧ b = u.getD (y - 2) 0 := by
          rw [show y - 1 = (y - 2) + 1 by omega,
            take_succ_getD (show y - 2 < u.length by omega)] at hpb
          have := List.append_inj hpb (by
            rw [List.length_take_of_le (by omega)]
            omega)
          exact ⟨this.1, List.singleton_inj.mp this.2⟩
        obtain ⟨hp, hb⟩ := hsplit
        by_cases hy2 : y = 2
        · subst hy2
          refine ⟨0, by omega, ?_, ?_⟩
          · rw [wildMem_zero, hp]
            rfl
          · rw [wildNode_root_pos u v hm1, followEdges_mem]
            refine Or.inl ⟨u.getD 0 0, 2, by simp, ?_, rfl⟩
            rw [hb]
        · refine ⟨y - 1, by omega, ?_, ?_⟩
          · rw [wildMem_chain u v _ (by omega) (by omega)]
            rw [show y - 1 - 1 = y - 2 by omega]
            simp [hp]
          · rw [wildNode_chain u v (show 2 ≤ y - 1 by omega) (by omega), followEdges_mem]
            refine Or.inl ⟨u.getD (y - 1 - 1) 0, y - 1 + 1, by simp, ?_, by omega⟩
            rw [show y - 1 - 1 = y - 2 by omega, hb]
      · by_cases hyw : y = u.length + 2
        · -- wildcard target
          subst hyw
          rw [wildMem_wild] at hmem
          simp only [Bool.and_eq_true, List.isPrefixOf_iff_prefix,
            decide_eq_true_eq] at hmem
          obtain ⟨hup, hlt⟩ := hmem
          have hle : u.length ≤ p.length := by
            simp only [List.length_append, List.length_singleton] at hlt
            omega
          have hupp : u <+: p := prefix_of_concat hup hle
          by_cases hpm : p.length = u.length
          · have hpu : p = u := (hupp.eq_of_length hpm.symm).symm
            by_cases hm : u.length = 0
            · have hp0 : p = [] := List.length_eq_zero.mp (by omega)
              refine ⟨0, by omega, by rw [wildMem_zero, hp0]; rfl, ?_⟩
              by_cases hk : v.length = 0
              · rw [wildNode_root_zz u v hm hk, followEdges_mem]
                refine Or.inr (Or.inl ?_)
                simp [hm]
              · rw [wildNode_root_zk u v hm (by omega), followEdges_mem]
                refine Or.inr (Or.inl ?_)
                simp [hm]
            · refine ⟨u.length + 1, by omega, ?_, ?_⟩
              · rw [wildMem_chain u v _ (by omega) (by omega)]
                rw [show u.length + 1 - 1 = u.length by omega, List.take_length]
                simp [hpu]
              · by_cases hk : v.length = 0
                · rw [wildNode_uEnd_k0 u v (by omega) hk, followEdges_mem]
                  right
                  left
                  simp
                · rw [wildNode_uEnd_k u v (by omega) (by omega), followEdges_mem]
                  right
                  left
                  simp
          · refine ⟨u.length + 2, by omega, ?_, ?_⟩
            · rw [wildMem_wild]
              simp only [Bool.and_eq_true, List.isPrefixOf_iff_prefix,
                decide_eq_true_eq]
              exact ⟨hupp, by omega⟩
            · by_cases hk : v.length = 0
              · rw [wildNode_wild_k0 u v hk, followEdges_mem]
                right
                left
                simp
              · rw [wildNode_wild_k u v (by omega), followEdges_mem]
                right
                left
                simp
        · -- beyond the wildcard: v chain, terminal or trailing twin
          have hk1 : 1 ≤ v.length := by
            by_contra hc
            rw [wildLen, if_pos (by omega)] at hy
            omega
          rw [wildLen_pos_k u v hk1] at hy
          by_cases hyv : y ≤ u.length + v.length + 2
          · -- v-chain or terminal target
            have h3y : u.length + 3 ≤ y := by omega
            rw [wildMem_v u v _ h3y hyv] at hmem
            simp only [Bool.and_eq_true, List.isPrefixOf_iff_prefix,
              List.isSuffixOf_iff_suffix, decide_eq_true_eq] at hmem
            obtain ⟨⟨hup, hsuf⟩, hlen⟩ := hmem
            have hsplit : v.getD (y - u.length - 3) 0 = b ∧
                v.take (y - u.length - 3) <:+ p := by
              rw [show y - u.length - 2 = (y - u.length - 3) + 1 by omega,
                take_succ_getD (show y - u.length - 3 < v.length by omega)] at hsuf
              exact suffix_concat_split hsuf
            obtain ⟨hb, hsufp⟩ := hsplit
            have hlenp : p.length + 1 = (p ++ [b]).length := by simp
            by_cases hj1 : y = u.length + 3
            · -- first v state
              subst hj1
              rw [show u.length + 3 - u.length - 3 = 0 by omega] at hb
              have hmle : u.length ≤ p.length := by
                simp only [List.length_append, List.length_singleton] at hlen
                omega
              have hupp : u <+: p := prefix_of_concat hup hmle
              by_cases hpm : p.length = u.length
              · have hpu : p = u := (hupp.eq_of_length hpm.symm).symm
                by_cases hm : u.length = 0
                · have hp0 : p = [] := List.length_eq_zero.mp (by omega)
                  refine ⟨0, by omega, by rw [wildMem_zero, hp0]; rfl, ?_⟩
                  rw [wildNode_root_zk u v hm hk1, followEdges_mem]
                  exact Or.inl ⟨v.getD 0 0, 3, by simp, hb, by omega⟩
                · refine ⟨u.length + 1, by omega, ?_, ?_⟩
                  · rw [wildMem_chain u v _ (by omega) (by omega)]
                    rw [show u.length + 1 - 1 = u.length by omega, List.take_length]
                    simp [hpu]
                  · rw [wildNode_uEnd_k u v (by omega) hk1, followEdges_mem]
                    exact Or.inl ⟨v.getD 0 0, u.length + 3, by simp, hb, rfl⟩
              · refine ⟨u.length + 2, by omega, ?_, ?_⟩
                · rw [wildMem_wild]
                  simp only [Bool.and_eq_true, List.isPrefixOf_iff_prefix,
                    decide_eq_true_eq]
                  exact ⟨hupp, by omega⟩
                · rw [wildNode_wild_k u v hk1, followEdges_mem]
                  exact Or.inl ⟨v.getD 0 0, u.length + 3, by simp, hb, rfl⟩
            · -- deeper v state: predecessor is the previous v state
              have h4y : u.length + 4 ≤ y := by omega
              have hmle : u.length ≤ p.length := by
                simp only [List.length_append, List.length_singleton] at hlen
                omega
              have hupp : u <+: p := prefix_of_concat hup (by omega)
              refine ⟨y - 1, by rw [wildLen_pos_k u v hk1]; omega, ?_, ?_⟩
              · rw [@wildMem_v u v p (y - 1) (by omega) (by omega)]
                simp only [Bool.and_eq_true, List.isPrefixOf_iff_prefix,
                  List.isSuffixOf_iff_suffix, decide_eq_true_eq]
                refine ⟨⟨hupp, ?_⟩, ?_⟩
                · rw [show y - 1 - u.length - 2 = y - u.length - 3 by omega]
                  exact hsufp
                · simp only [List.length_append, List.length_singleton] at hlen
                  omega
              · rw [wildNode_vmid u v (show u.length + 3 ≤ y - 1 by omega)
                  (by omega), followEdges_mem]
                refine Or.inl ⟨v.getD (y - 1 - u.length - 2) 0, y - 1 + 1,
                  by simp, ?_, by omega⟩
                rw [show y - 1 - u.length - 2 = y - u.length - 3 by omega]
                exact hb
          · -- trailing twin target
            have hyt : y = u.length + v.length + 3 := by omega
            subst hyt
            rw [wildMem_sink, sinkCond_append] at hmem
            have hmem2 : sinkCond u v p = true ∨ termAt u v p = true := by
              simpa using hmem
            rcases hmem2 with hsc | hta
            · refine ⟨u.length + v.length + 3, by rw [wildLen_pos_k u v hk1]; omega, ?_, ?_⟩
              · rw [wildMem_sink]
                exact hsc
              · rw [wildNode_termW u v hk1, followEdges_mem]
                right
                right
                exact ⟨rfl, rfl⟩
            · refine ⟨u.length + v.length + 2, by rw [wildLen_pos_k u v hk1]; omega, ?_, ?_⟩
              · rw [wildMem_v u v _ (by omega) (by omega)]
                unfold termAt at hta
                rw [show u.length + v.length + 2 - u.length - 2 = v.length by omega,
                  List.take_length]
                simp only [Bool.and_eq_true, List.isPrefixOf_iff_prefix,
                  List.isSuffixOf_iff_suffix, decide_eq_true_eq] at hta ⊢
                exact ⟨hta.1, by omega⟩
              · rw [wildNode_term u v hk1, followEdges_mem]
                right
                left
                simp

theorem wildStates_getElem? (u v : List Nat) {i : Nat} (h : i < wildLen u v) :
    (wildStates u v)[i]? = some (wildNode u v i) :=
  rangeMap_getElem? _ h

theorem wildActive_pairwise (u v p : List Nat) :
    (wildActive u v p).Pairwise (· < ·) :=
  List.Pairwise.filter _ (List.pairwise_lt_range _)

theorem wildActive_mem (u v p : List Nat) (y : Nat) :
    y ∈ wildActive u v p ↔ y < wildLen u v ∧ wildMem u v p y = true := by
  rw [wildActive]
  simp [List.mem_filter, List.mem_range]

theorem wildActive_step (u v p : List Nat) (b : Nat) :
    stepSet ⟨wildStates u v⟩ (wildActive u v p) b = wildActive u v (p ++ [b]) := by
  refine sorted_mem_ext _ _ (stepSet_pairwise _ _ _) (wildActive_pairwise u v _)
    (fun y => ?_)
  rw [stepSet_mem, wildActive_mem]
  constructor
  · rintro ⟨s, hs, st, hst, hy⟩
    rw [wildActive_mem] at hs
    rw [show (⟨wildStates u v⟩ : Cylon).states = wildStates u v from rfl,
      wildStates_getElem? u v hs.1] at hst
    cases hst
    exact wild_step_fwd u v p b y s hs.1 hs.2 hy
  · intro hy
    obtain ⟨s, hsL, hsm, hfol⟩ := wild_step_bwd u v p b y hy.1 hy.2
    exact ⟨s, (wildActive_mem u v p s).mpr ⟨hsL, hsm⟩, wildNode u v s,
      wildStates_getElem? u v hsL, hfol⟩

theorem wildMem_nil (u v : List Nat) (y : Nat) (hy : y < wildLen u v) :
    wildMem u v [] y = true ↔ y = 0 := by
  constructor
  · intro h
    by_contra hy0
    by_cases hy1 : y = 1
    · subst hy1
      rw [wildMem_one] at h
      simp at h
    · by_cases hych : y ≤ u.length + 1
      · rw [wildMem_chain u v _ (by omega) hych] at h
        have := (beq_iff_eq).mp h
        have hl := congrArg List.length this
        simp only [List.length_nil, List.length_take] at hl
        omega
      · by_cases hyw : y = u.length + 2
        · subst hyw
          rw [wildMem_wild] at h
          simp at h
        · have hk1 : 1 ≤ v.length := by
            by_contra hc
            rw [wildLen, if_pos (by omega)] at hy
            omega
          rw [wildLen_pos_k u v hk1] at hy
          by_cases hyv : y ≤ u.length + v.length + 2
          · rw [wildMem_v u v _ (by omega) hyv] at h
            simp only [Bool.and_eq_true, decide_eq_true_eq] at h
            simp only [List.length_nil] at h
            omega
          · have hyt : y = u.length + v.length + 3 := by omega
            subst hyt
            rw [wildMem_sink] at h
            unfold sinkCond at h
            simp at h
  · intro h
    subst h
    rw [wildMem_zero]
    rfl

theorem wildActive_nil (u v : List Nat) : wildActive u v [] = [0] := by
  refine sorted_mem_ext _ _ (wildActive_pairwise u v []) (by simp) (fun y => ?_)
  rw [wildActive_mem]
  constructor
  · rintro ⟨hy, hm⟩
    simp [(wildMem_nil u v y hy).mp hm]
  · intro hy
    have hy0 : y = 0 := by simpa using hy
    subst hy0
    exact ⟨by have := wildLen_ge u v; omega, by rw [wildMem_zero]; rfl⟩

theorem wild_active (u v p : List Nat) :
    activeAfter ⟨wildStates u v⟩ p = wildActive u v p := by
  induction p using List.reverseRecOn with
  | nil =>
    rw [wildActive_nil]
    rfl
  | append_singleton p' b ih =>
    have hstep : activeAfter ⟨wildStates u v⟩ (p' ++ [b]) =
        stepSet ⟨wildStates u v⟩ (activeAfter ⟨wildStates u v⟩ p') b := by
      unfold activeAfter
      rw [List.foldl_append]
      rfl
    rw [hstep, ih, wildActive_step]

theorem maxByKey_aux (key : Node → Nat) (l : List Node) :
    ∀ (acc : Option Node) (r : Node),
      l.foldl
          (fun acc n =>
            match acc with
            | none => some n
            | some m => if key m ≤ key n then some n else some m)
          acc = some r →
      (r ∈ l ∨ acc = some r) ∧ (∀ x ∈ l, key x ≤ key r) ∧
        (∀ m, acc = some m → key m ≤ key r) := by
  induction l with
  | nil =>
    intro acc r h
    rw [List.foldl_nil] at h
    refine ⟨Or.inr h, by simp, fun m hm => ?_⟩
    rw [h] at hm
    cases hm
    exact le_refl _
  | cons n l ih =>
    intro acc r h
    rw [List.foldl_cons] at h
    cases acc with
    | none =>
      obtain ⟨h1, h2, h3⟩ := ih (some n) r h
      refine ⟨?_, ?_, by simp⟩
      · rcases h1 with h1 | h1
        · exact Or.inl (List.mem_cons_of_mem n h1)
        · cases h1
          exact Or.inl (List.mem_cons_self n l)
      · intro x hx
        rcases List.mem_cons.mp hx with rfl | hx2
        · exact h3 x rfl
        · exact h2 x hx2
    | some m =>
      by_cases hk : key m ≤ key n
      · rw [show (match some m with
            | none => some n
            | some m2 => if key m2 ≤ key n then some n else some m2) = some n
            from if_pos hk] at h
        obtain ⟨h1, h2, h3⟩ := ih (some n) r h
        refine ⟨?_, ?_, ?_⟩
        · rcases h1 with h1 | h1
          · exact Or.inl (List.mem_cons_of_mem n h1)
          · cases h1
            exact Or.inl (List.mem_cons_self n l)
        · intro x hx
          rcases List.mem_cons.mp hx with rfl | hx2
          · exact h3 x rfl
          · exact h2 x hx2
        · intro m2 hm2
          cases hm2
          exact hk.trans (h3 n rfl)
      · rw [show (match some m with
            | none => some n
            | some m2 => if key m2 ≤ key n then some n else some m2) = some m
            from if_neg hk] at h
        obtain ⟨h1, h2, h3⟩ := ih (some m) r h
        refine ⟨?_, ?_, h3⟩
        · rcases h1 with h1 | h1
          · exact Or.inl (List.mem_cons_of_mem n h1)
          · exact Or.inr h1
        · intro x hx
          rcases List.mem_cons.mp hx with rfl | hx2
          · exact (Nat.le_of_not_le hk).trans (h3 m rfl)
          · exact h2 x hx2

theorem maxByKey_spec (key : Node → Nat) (l : List Node) (r : Node)
    (h : maxByKey key l = some r) : r ∈ l ∧ ∀ x ∈ l, key x ≤ key r := by
  obtain ⟨h1, h2, -⟩ := maxByKey_aux key l none r h
  rcases h1 with h1 | h1
  · exact ⟨h1, h2⟩
  · exact absurd h1 (by simp)

theorem maxByKey_some_aux (key : Node → Nat) (l : List Node) :
    ∀ m : Node,
      ∃ r, l.foldl
          (fun acc n =>
            match acc with
            | none => some n
            | some m2 => if key m2 ≤ key n then some n else some m2)
          (some m) = some r := by
  induction l with
  | nil => exact fun m => ⟨m, rfl⟩
  | cons n l ih =>
    intro m
    rw [List.foldl_cons]
    by_cases hk : key m ≤ key n
    · rw [show (match some m with
          | none => some n
          | some m2 => if key m2 ≤ key n then some n else some m2) = some n
          from if_pos hk]
      exact ih n
    · rw [show (match some m with
          | none => some n
          | some m2 => if key m2 ≤ key n then some n else some m2) = some m
          from if_neg hk]
      exact ih m

theorem maxByKey_isSome (key : Node → Nat) (l : List Node) (hl : l ≠ []) :
    ∃ r, maxByKey key l = some r := by
  cases l with
  | nil => exact absurd rfl hl
  | cons n l =>
    rw [maxByKey, List.foldl_cons]
    exact maxByKey_some_aux key l n

theorem filterMap_eq_map_of {α β : Type} (l : List α) (f : α → Option β) (g : α → β)
    (h : ∀ x ∈ l, f x = some (g x)) : l.filterMap f = l.map g := by
  induction l with
  | nil => rfl
  | cons x l ih =>
    rw [List.filterMap_cons, h x (List.mem_cons_self x l), List.map_cons,
      ih (fun y hy => h y (List.mem_cons_of_mem x hy))]

theorem nw_allow (e : List (Nat × Nat)) (w : Nat) (wc : List Nat) :
    Node.normalizedWeight ⟨.allow, e, w, wc⟩ = 1 + 2 * w := rfl

theorem nw_disallow (e : List (Nat × Nat)) (w : Nat) (wc : List Nat) :
    Node.normalizedWeight ⟨.disallow, e, w, wc⟩ = 2 * w := rfl

theorem uwvMatch_iff_term (u v p : List Nat) :
    uwvMatch u v p = true ↔
      ∃ n, n ≤ p.length ∧ termAt u v (p.take n) = true := by
  unfold uwvMatch termAt
  simp only [List.any_eq_true, List.mem_range, Bool.and_eq_true,
    List.isPrefixOf_iff_prefix, List.isSuffixOf_iff_suffix, decide_eq_true_eq]
  constructor
  · rintro ⟨i, hi, ⟨hui, hup⟩, hvd⟩
    have hkd : v.length ≤ p.length - i := by
      have := hvd.length_le
      simp only [List.length_drop] at this
      exact this
    refine ⟨i + v.length, by omega, ⟨?_, ?_⟩, ?_⟩
    · rw [List.prefix_take_iff]
      exact ⟨hup, by omega⟩
    · have hvt : (p.drop i).take v.length = v := (List.prefix_iff_eq_take.mp hvd).symm
      rw [List.take_add p i v.length, hvt]
      exact ⟨p.take i, rfl⟩
    · rw [List.length_take]
      omega
  · rintro ⟨n, hn, ⟨hup, hsuf⟩, hlen⟩
    rw [List.length_take, Nat.min_eq_left hn] at hlen
    refine ⟨n - v.length, by omega, ⟨by omega, ?_⟩, ?_⟩
    · exact hup.trans (List.take_prefix n p)
    · obtain ⟨w, hw⟩ := hsuf
      have hwl : w.length = n - v.length := by
        have := congrArg List.length hw
        simp only [List.length_append, List.length_take, Nat.min_eq_left hn] at this
        omega
      have hp : p = w ++ (v ++ p.drop n) := by
        conv_lhs => rw [← List.take_append_drop n p, ← hw]
        rw [List.append_assoc]
      rw [hp, ← hwl, List.drop_left w (v ++ p.drop n)]
      exact ⟨p.drop n, rfl⟩

theorem termAt_mk (u v q : List Nat) (h1 : u <+: q) (h2 : v <:+ q)
    (h3 : u.length + v.length ≤ q.length) : termAt u v q = true := by
  unfold termAt
  simp only [Bool.and_eq_true, List.isPrefixOf_iff_prefix, List.isSuffixOf_iff_suffix,
    decide_eq_true_eq]
  exact ⟨⟨h1, h2⟩, h3⟩

theorem wild_deny_nodes (u v p : List Nat) (hp : p ≠ [])
    (hden : uwvMatch u v p = true) :
    ∃ d : Nat, (d < wildLen u v ∧ wildMem u v p d = true ∧
        (wildNode u v d).allow = false) ∧
      (∀ i, i < wildLen u v → wildMem u v p i = true →
        Node.normalizedWeight (wildNode u v d) ≤ Node.normalizedWeight (wildNode u v i) →
        (wildNode u v i).allow = false) := by
  have hL := wildLen_ge u v
  have hp1 : 1 ≤ p.length := List.length_pos.mpr hp
  obtain ⟨n, hn, hterm⟩ := (uwvMatch_iff_term u v p).mp hden
  unfold termAt at hterm
  simp only [Bool.and_eq_true, List.isPrefixOf_iff_prefix, List.isSuffixOf_iff_suffix,
    decide_eq_true_eq] at hterm
  obtain ⟨⟨hupn, hsufn⟩, hlenn⟩ := hterm
  rw [List.length_take, Nat.min_eq_left hn] at hlenn
  have hup : u <+: p := hupn.trans (List.take_prefix n p)
  have hmp : u.length ≤ p.length := le_trans hup.length_le (le_refl _)
  by_cases hk0 : v.length = 0
  · have hLz : wildLen u v = u.length + 3 := by rw [wildLen, if_pos hk0]
    by_cases hpm : p.length = u.length
    · -- p = u, the end of the u chain is the Disallow witness
      have hm1 : 1 ≤ u.length := by omega
      have hpu : u = p := hup.eq_of_length (by omega)
      refine ⟨u.length + 1, ⟨by omega, ?_, ?_⟩, ?_⟩
      · rw [wildMem_chain u v _ (by omega) (by omega),
          show u.length + 1 - 1 = u.length by omega, List.take_length]
        simp [hpu]
      · rw [wildNode_uEnd_k0 u v hm1 hk0]
        rfl
      · intro i hi hmi hge
        rw [wildNode_uEnd_k0 u v hm1 hk0, nw_disallow] at hge
        by_cases hi0 : i = 0
        · subst hi0
          rw [wildMem_zero] at hmi
          rw [List.isEmpty_iff] at hmi
          exact absurd hmi hp
        · by_cases hi1 : i = 1
          · subst hi1
            rw [wildNode_one, nw_allow] at hge
            omega
          · by_cases hich : i ≤ u.length
            · rw [wildMem_chain u v _ (by omega) (by omega)] at hmi
              have := congrArg List.length ((beq_iff_eq).mp hmi)
              rw [List.length_take_of_le (by omega)] at this
              omega
            · by_cases hiu : i = u.length + 1
              · subst hiu
                rw [wildNode_uEnd_k0 u v hm1 hk0]
                rfl
              · have hiw : i = u.length + 2 := by omega
                subst hiw
                rw [wildMem_wild] at hmi
                simp only [Bool.and_eq_true, decide_eq_true_eq] at hmi
                omega
    · -- u is a strict prefix of p: the wildcard node is the witness
      have hlt : u.length < p.length := by omega
      refine ⟨u.length + 2, ⟨by omega, ?_, ?_⟩, ?_⟩
      · rw [wildMem_wild]
        simp only [Bool.and_eq_true, List.isPrefixOf_iff_prefix, decide_eq_true_eq]
        exact ⟨hup, hlt⟩
      · rw [wildNode_wild_k0 u v hk0]
        rfl
      · intro i hi hmi hge
        rw [wildNode_wild_k0 u v hk0, nw_disallow] at hge
        by_cases hi0 : i = 0
        · subst hi0
          rw [wildMem_zero] at hmi
          rw [List.isEmpty_iff] at hmi
          exact absurd hmi hp
        · by_cases hi1 : i = 1
          · subst hi1
            rw [wildNode_one, nw_allow] at hge
            omega
          · by_cases hich : i ≤ u.length
            · rw [wildNode_chain u v (by omega) hich, nw_allow] at hge
              omega
            · by_cases hiu : i = u.length + 1
              · subst hiu
                rw [wildNode_uEnd_k0 u v (by omega) hk0]
                rfl
              · have hiw : i = u.length + 2 := by omega
                subst hiw
                rw [wildNode_wild_k0 u v hk0]
                rfl
  · -- v nonempty: the terminal state or its twin is the witness
    have hk1 : 1 ≤ v.length := by omega
    have hLk := wildLen_pos_k u v hk1
    have hforall : ∀ i, i < wildLen u v → wildMem u v p i = true →
        2 * (u.length + v.length + 1) ≤ Node.normalizedWeight (wildNode u v i) →
        (wildNode u v i).allow = false := by
      intro i hi hmi hge
      by_cases hi0 : i = 0
      · subst hi0
        rw [wildMem_zero] at hmi
        rw [List.isEmpty_iff] at hmi
        exact absurd hmi hp
      · by_cases hi1 : i = 1
        · subst hi1
          rw [wildNode_one, nw_allow] at hge
          omega
        · by_cases hich : i ≤ u.length
          · rw [wildNode_chain u v (by omega) hich, nw_allow] at hge
            omega
          · by_cases hiu : i = u.length + 1
            · subst hiu
              rw [wildNode_uEnd_k u v (by omega) hk1, nw_allow] at hge
              omega
            · by_cases hiw : i = u.length + 2
              · subst hiw
                rw [wildNode_wild_k u v hk1, nw_allow] at hge
                omega
              · by_cases hiv : i ≤ u.length + v.length + 1
                · rw [wildNode_vmid u v (by omega) hiv, nw_allow] at hge
                  omega
                · by_cases hit : i = u.length + v.length + 2
                  · subst hit
                    rw [wildNode_term u v hk1]
                    rfl
                  · have hit2 : i = u.length + v.length + 3 := by omega
                    subst hit2
                    rw [wildNode_termW u v hk1]
                    rfl
    by_cases hnp : n = p.length
    · -- the whole path matches: the terminal state is active
      subst hnp
      rw [List.take_length] at hupn hsufn
      refine ⟨u.length + v.length + 2, ⟨by omega, ?_, ?_⟩, ?_⟩
      · rw [wildMem_v u v _ (by omega) (by omega),
          show u.length + v.length + 2 - u.length - 2 = v.length by omega,
          List.take_length]
        simp only [Bool.and_eq_true, List.isPrefixOf_iff_prefix,
          List.isSuffixOf_iff_suffix, decide_eq_true_eq]
        exact ⟨⟨hupn, hsufn⟩, by omega⟩
      · rw [wildNode_term u v hk1]
        rfl
      · intro i hi hmi hge
        rw [wildNode_term u v hk1, nw_disallow] at hge
        exact hforall i hi hmi hge
    · -- a proper prefix matches: the trailing twin is active
      refine ⟨u.length + v.length + 3, ⟨by omega, ?_, ?_⟩, ?_⟩
      · rw [wildMem_sink]
        unfold sinkCond
        simp only [List.any_eq_true, List.mem_range]
        refine ⟨n, by omega, termAt_mk u v _ hupn hsufn ?_⟩
        rw [List.length_take, Nat.min_eq_left hn]
        omega
      · rw [wildNode_termW u v hk1]
        rfl
      · intro i hi hmi hge
        rw [wildNode_termW u v hk1, nw_disallow] at hge
        exact hforall i hi hmi hge

theorem wild_allow_nodes (u v p : List Nat) (hp : p ≠ [])
    (hden : uwvMatch u v p = false) :
    ∀ i, i < wildLen u v → wildMem u v p i = true →
      (wildNode u v i).allow = true := by
  have hL := wildLen_ge u v
  have hp1 : 1 ≤ p.length := List.length_pos.mpr hp
  intro i hi hmi
  by_cases hi0 : i = 0
  · subst hi0
    rw [wildMem_zero] at hmi
    rw [List.isEmpty_iff] at hmi
    exact absurd hmi hp
  · by_cases hi1 : i = 1
    · subst hi1
      rw [wildNode_one]
      rfl
    · by_cases hich : i ≤ u.length
      · rw [wildNode_chain u v (by omega) hich]
        rfl
      · by_cases hiu : i = u.length + 1
        · subst hiu
          rw [wildMem_chain u v _ (by omega) (by omega),
            show u.length + 1 - 1 = u.length by omega, List.take_length] at hmi
          have hpu : p = u := by simpa using hmi
          by_cases hk0 : v.length = 0
          · exfalso
            have hpl : p.length = u.length := by rw [hpu]
            have : uwvMatch u v p = true := by
              refine (uwvMatch_iff_term u v p).mpr ⟨u.length, by omega, ?_⟩
              refine termAt_mk u v _ ?_ ?_ ?_
              · rw [hpu, List.take_length]
              · rw [List.length_eq_zero.mp hk0]
                exact List.nil_suffix
              · rw [hpu, List.take_length]
                omega
            rw [this] at hden
            cases hden
          · rw [wildNode_uEnd_k u v (by omega) (by omega)]
            rfl
        · by_cases hiw : i = u.length + 2
          · subst hiw
            rw [wildMem_wild] at hmi
            simp only [Bool.and_eq_true, List.isPrefixOf_iff_prefix,
              decide_eq_true_eq] at hmi
            by_cases hk0 : v.length = 0
            · exfalso
              have : uwvMatch u v p = true := by
                refine (uwvMatch_iff_term u v p).mpr ⟨u.length, by omega, ?_⟩
                refine termAt_mk u v _ ?_ ?_ ?_
                · rw [List.prefix_take_iff]
                  exact ⟨hmi.1, le_refl _⟩
                · rw [List.length_eq_zero.mp hk0]
                  exact List.nil_suffix
                · rw [List.length_take]
                  omega
              rw [this] at hden
              cases hden
            · rw [wildNode_wild_k u v (by omega)]
              rfl
          · have hk1 : 1 ≤ v.length := by
              by_contra hc
              rw [wildLen, if_pos (by omega)] at hi
              omega
            rw [wildLen_pos_k u v hk1] at hi
            by_cases hiv : i ≤ u.length + v.length + 1
            · rw [wildNode_vmid u v (by omega) hiv]
              rfl
            · exfalso
              by_cases hit : i = u.length + v.length + 2
              · subst hit
                rw [wildMem_v u v _ (by omega) (by omega),
                  show u.length + v.length + 2 - u.length - 2 = v.length by omega,
                  List.take_length] at hmi
                simp only [Bool.and_eq_true, List.isPrefixOf_iff_prefix,
                  List.isSuffixOf_iff_suffix, decide_eq_true_eq] at hmi
                have : uwvMatch u v p = true := by
                  refine (uwvMatch_iff_term u v p).mpr ⟨p.length, le_refl _, ?_⟩
                  rw [List.take_length]
                  exact termAt_mk u v p hmi.1.1 hmi.1.2 (by omega)
                rw [this] at hden
                cases hden
              · have hit2 : i = u.length + v.length + 3 := by omega
                subst hit2
                rw [wildMem_sink] at hmi
                unfold sinkCond at hmi
                simp only [List.any_eq_true, List.mem_range] at hmi
                obtain ⟨n, hn, hta⟩ := hmi
                have : uwvMatch u v p = true :=
                  (uwvMatch_iff_term u v p).mpr ⟨n, by omega, hta⟩
                rw [this] at hden
                cases hden

theorem wild_nodes_list (u v p : List Nat) :
    (wildActive u v p).filterMap (fun s => (Cylon.mk (wildStates u v)).states[s]?) =
      (wildActive u v p).map (wildNode u v) :=
  filterMap_eq_map_of _ _ _
    (fun s hs => wildStates_getElem? u v ((wildActive_mem u v p s).mp hs).1)

end Cylon.Nfa

namespace Cylon

/-- C4 (amended): a single rule `Disallow (u ++ "*" ++ v)` with
metacharacter-free `u` and `v` denies a nonempty path `p` exactly when
some `u ++ w ++ v` is a prefix of `p` (equivalently, `p` splits as
`x ++ y` with `u` a prefix of `x` and `v` a prefix of `y`); the tail
`v` is not required to end the path. -/
theorem c4_wildcard_semantics (u v p : List Nat) (hu : metaFree u) (hv : metaFree v)
    (hp : p ≠ []) :
    (Nfa.Cylon.compile [.disallow (u ++ [WILDCARD_BYTE] ++ v)]).allow p =
      !(uwvMatch u v p) := by
  have hL := Nfa.wildLen_ge u v
  have hcomp : Nfa.Cylon.compile [.disallow (u ++ [WILDCARD_BYTE] ++ v)] =
      ⟨Nfa.wildStates u v⟩ := by
    calc Nfa.Cylon.compile [.disallow (u ++ [WILDCARD_BYTE] ++ v)]
        = ⟨(Nfa.Cylon.compile [.disallow (u ++ [WILDCARD_BYTE] ++ v)]).states⟩ := rfl
      _ = ⟨Nfa.wildStates u v⟩ := by rw [Nfa.wild_compile u v hu hv]
  rw [hcomp]
  have hne : p.isEmpty = false := by
    cases p with
    | nil => exact absurd rfl hp
    | cons a l => rfl
  unfold Nfa.Cylon.allow
  simp only [hne, Bool.false_eq_true, if_false]
  rw [Nfa.wild_active u v p, Nfa.wild_nodes_list u v p]
  have h1mem : (1 : Nat) ∈ Nfa.wildActive u v p := by
    refine (Nfa.wildActive_mem u v p 1).mpr ⟨by omega, ?_⟩
    rw [Nfa.wildMem_one, hne]
    rfl
  have hnodes_ne : (Nfa.wildActive u v p).map (Nfa.wildNode u v) ≠ [] :=
    List.ne_nil_of_mem (List.mem_map_of_mem _ h1mem)
  obtain ⟨r, hr⟩ := Nfa.maxByKey_isSome Nfa.Node.normalizedWeight _ hnodes_ne
  rw [hr]
  obtain ⟨hrmem, hrmax⟩ := Nfa.maxByKey_spec _ _ _ hr
  obtain ⟨i0, hi0act, hi0r⟩ := List.mem_map.mp hrmem
  have hi0 := (Nfa.wildActive_mem u v p i0).mp hi0act
  cases hden : uwvMatch u v p with
  | false =>
    rw [← hi0r]
    show (Nfa.wildNode u v i0).allow = !false
    rw [Nfa.wild_allow_nodes u v p hp hden i0 hi0.1 hi0.2]
    rfl
  | true =>
    obtain ⟨d, ⟨hdL, hdact, -⟩, hdall⟩ := Nfa.wild_deny_nodes u v p hp hden
    have hdmem : Nfa.wildNode u v d ∈ (Nfa.wildActive u v p).map (Nfa.wildNode u v) :=
      List.mem_map_of_mem _ ((Nfa.wildActive_mem u v p d).mpr ⟨hdL, hdact⟩)
    have hge := hrmax _ hdmem
    rw [← hi0r] at hge ⊢
    show (Nfa.wildNode u v i0).allow = !true
    rw [hdall i0 hi0.1 hi0.2 hge]
    rfl

/-- Concrete instance of the amended C4 theorem: the matcher compiled from
`Disallow "a*b"` denies the path "acb". -/
theorem c4_wildcard_semantics_witness :
    (Nfa.Cylon.compile [.disallow (bs "a" ++ [WILDCARD_BYTE] ++ bs "b")]).allow
      (bs "acb") = false :=
  (c4_wildcard_semantics (bs "a") (bs "b") (bs "acb") (by decide) (by decide)
    (by decide)).trans (by decide)

end Cylon

namespace Cylon.Parse

theorem nextHeaderLoop_cons (st : ReaderState) (line : List Char) (rest : List (List Char)) :
    nextHeaderLoop st (line :: rest) =
      (match parseLine line with
       | .userAgent ua =>
         if st.parsingAgents then nextHeaderLoop { st with agents := st.agents ++ [ua] } rest
         else nextHeaderLoop ⟨true, [ua], []⟩ rest
       | .rule r =>
         if st.parsingAgents then
           ({ st with parsingAgents := false, rules := st.rules ++ [r] }, rest)
         else nextHeaderLoop st rest
       | .nothing => nextHeaderLoop st rest) := rfl

theorem nextRulesLoop_cons (st : ReaderState) (line : List Char) (rest : List (List Char)) :
    nextRulesLoop st (line :: rest) =
      (match parseLine line with
       | .rule r =>
         nextRulesLoop { st with parsingAgents := false, rules := st.rules ++ [r] } rest
       | .userAgent ua =>
         if ¬ st.parsingAgents then
           ({ st with parsingAgents := true, agents := st.agents ++ [ua] }, rest)
         else nextRulesLoop st rest
       | .nothing => nextRulesLoop st rest) := rfl

theorem groupsAux_cons (line : List Char) (rest : List (List Char)) (hdr : List (List Char))
    (rls : List ParsedRule) (inRules : Bool) :
    groupsAux (line :: rest) hdr rls inRules =
      (match parseLine line with
       | .nothing => groupsAux rest hdr rls inRules
       | .userAgent ua =>
         if inRules then (hdr, rls) :: groupsAux rest [ua] [] false
         else groupsAux rest (hdr ++ [ua]) rls false
       | .rule r =>
         if hdr.isEmpty then groupsAux rest hdr rls inRules
         else groupsAux rest hdr (rls ++ [r]) true) := rfl

theorem selectSpec_cons (U : List Char) (g : List (List Char) × List ParsedRule)
    (gs : List (List (List Char) × List ParsedRule)) (ar : List Char × List ParsedRule) :
    selectSpec U (g :: gs) ar =
      (match g.1.find? (fun a =>
          (a = ['*'] || containsSub U a) && decide (ar.1.length < a.length)) with
       | some a => selectSpec U gs (a, g.2)
       | none => selectSpec U gs ar) := rfl

theorem noLeadingRule_cons (line : List Char) (rest : List (List Char)) :
    noLeadingRule (line :: rest) =
      (match parseLine line with
       | .rule _ => false
       | .userAgent _ => true
       | .nothing => noLeadingRule rest) := rfl

theorem selectLoop_succ (U : List Char) (fuel : Nat) (ar : List Char × List ParsedRule)
    (st : ReaderState) (lines : List (List Char)) :
    selectLoop U (fuel + 1) ar st lines =
      (match nextHeader st lines with
       | (none, _, _) => ar.2
       | (some agents, st2, rest) =>
         match agents.find? (fun a =>
             (a = ['*'] || containsSub U a) && decide (ar.1.length < a.length)) with
         | some a =>
           let r := nextRules st2 rest
           selectLoop U fuel (a, r.1) r.2.1 r.2.2
         | none => selectLoop U fuel ar st2 rest) := rfl

theorem selector_sim (U : List Char) :
    ∀ n : Nat, ∀ lines : List (List Char), lines.length ≤ n →
      ((∀ fuel (ar : List Char × List ParsedRule) ags, lines.length + 2 ≤ fuel →
        (ags ≠ [] ∨ noLeadingRule lines = true) →
        selectLoop U fuel ar ⟨true, ags, []⟩ lines =
          selectSpec U (groupsAux lines ags [] false) ar) ∧
      (∀ fuel (ar : List Char × List ParsedRule) a rlc ags, ags ≠ [] →
        ags.find? (fun x =>
          (x = ['*'] || containsSub U x) && decide (ar.1.length < x.length)) = some a →
        lines.length + 2 ≤ fuel →
        selectLoop U fuel (a, (nextRules ⟨false, [], rlc⟩ lines).1)
            (nextRules ⟨false, [], rlc⟩ lines).2.1
            (nextRules ⟨false, [], rlc⟩ lines).2.2 =
          selectSpec U (groupsAux lines ags rlc true) ar) ∧
      (∀ fuel (ar : List Char × List ParsedRule) rlc rls ags, ags ≠ [] →
        ags.find? (fun x =>
          (x = ['*'] || containsSub U x) && decide (ar.1.length < x.length)) = none →
        lines.length + 2 ≤ fuel →
        selectLoop U fuel ar ⟨false, [], rlc⟩ lines =
          selectSpec U (groupsAux lines ags rls true) ar)) := by
  have base : ∀ fuel (ar : List Char × List ParsedRule) (st : ReaderState),
      st.agents = [] → 1 ≤ fuel → selectLoop U fuel ar st [] = ar.2 := by
    intro fuel ar st hst hf
    obtain ⟨f, rfl⟩ : ∃ f, fuel = f + 1 := ⟨fuel - 1, by omega⟩
    rw [selectLoop_succ]
    rw [show nextHeader st [] = (none, { st with agents := [] }, []) from by
      unfold nextHeader
      rw [show nextHeaderLoop st [] = (st, []) from rfl]
      dsimp only
      rw [show st.agents.isEmpty = true from by rw [hst]; rfl]
      rfl]
  intro n
  induction n with
  | zero =>
    intro lines hn
    have hnil : lines = [] := List.eq_nil_of_length_eq_zero (by omega)
    subst hnil
    refine ⟨?_, ?_, ?_⟩
    · intro fuel ar ags hfuel hside
      by_cases hag : ags = []
      · subst hag
        rw [base fuel ar ⟨true, [], []⟩ rfl (by omega)]
        rfl
      · have hagsE : ags.isEmpty = false := by
          cases ags with
          | nil => exact absurd rfl hag
          | cons x xs => rfl
        obtain ⟨f, rfl⟩ : ∃ f, fuel = f + 1 := ⟨fuel - 1, by omega⟩
        rw [selectLoop_succ]
        rw [show nextHeader ⟨true, ags, []⟩ [] = (some ags, ⟨true, [], []⟩, []) from by
          unfold nextHeader
          rw [show nextHeaderLoop ⟨true, ags, []⟩ [] = (⟨true, ags, []⟩, []) from rfl]
          dsimp only
          rw [hagsE]
          rfl]
        dsimp only
        rw [show groupsAux [] ags [] false = [(ags, [])] from by
          unfold groupsAux
          rw [hagsE]
          rfl]
        rw [selectSpec_cons]
        cases hf : ags.find? (fun x =>
            (x = ['*'] || containsSub U x) && decide (ar.1.length < x.length)) with
        | some a =>
          show selectLoop U f (a, ([] : List ParsedRule)) ⟨true, [], []⟩ [] =
            selectSpec U [] (a, [])
          rw [base f (a, []) ⟨true, [], []⟩ rfl (by omega)]
          rfl
        | none =>
          show selectLoop U f ar ⟨true, [], []⟩ [] = selectSpec U [] ar
          rw [base f ar ⟨true, [], []⟩ rfl (by omega)]
          rfl
    · intro fuel ar a rlc ags hags hf hfuel
      have hagsE : ags.isEmpty = false := by
        cases ags with
        | nil => exact absurd rfl hags
        | cons x xs => rfl
      show selectLoop U fuel (a, rlc) ⟨false, [], []⟩ [] =
        selectSpec U (groupsAux [] ags rlc true) ar
      rw [base fuel (a, rlc) ⟨false, [], []⟩ rfl (by omega)]
      rw [show groupsAux [] ags rlc true = [(ags, rlc)] from by
        unfold groupsAux
        rw [hagsE]
        rfl]
      rw [selectSpec_cons, hf]
      rfl
    · intro fuel ar rlc rls ags hags hf hfuel
      have hagsE : ags.isEmpty = false := by
        cases ags with
        | nil => exact absurd rfl hags
        | cons x xs => rfl
      rw [base fuel ar ⟨false, [], rlc⟩ rfl (by omega)]
      rw [show groupsAux [] ags rls true = [(ags, rls)] from by
        unfold groupsAux
        rw [hagsE]
        rfl]
      rw [selectSpec_cons, hf]
      rfl
  | succ n ih =>
    intro lines hn
    cases lines with
    | nil => exact ih [] (by simp)
    | cons line rest =>
      obtain ⟨ihA, ihCm, ihCn⟩ := ih rest (by
        simp only [List.length_cons] at hn
        omega)
      refine ⟨?_, ?_, ?_⟩
      · intro fuel ar ags hfuel hside
        simp only [List.length_cons] at hfuel
        cases hl : parseLine line with
        | userAgent ua =>
          obtain ⟨f, rfl⟩ : ∃ f, fuel = f + 1 := ⟨fuel - 1, by omega⟩
          have hstep : nextHeader ⟨true, ags, []⟩ (line :: rest) =
              nextHeader ⟨true, ags ++ [ua], []⟩ rest := by
            unfold nextHeader
            rw [nextHeaderLoop_cons, hl]
            rfl
          rw [selectLoop_succ, hstep, ← selectLoop_succ]
          rw [groupsAux_cons, hl]
          exact ihA (f + 1) ar (ags ++ [ua]) (by omega) (Or.inl (by simp))
        | nothing =>
          obtain ⟨f, rfl⟩ : ∃ f, fuel = f + 1 := ⟨fuel - 1, by omega⟩
          have hstep : nextHeader ⟨true, ags, []⟩ (line :: rest) =
              nextHeader ⟨true, ags, []⟩ rest := by
            unfold nextHeader
            rw [nextHeaderLoop_cons, hl]
          rw [selectLoop_succ, hstep, ← selectLoop_succ]
          rw [groupsAux_cons, hl]
          refine ihA (f + 1) ar ags (by omega) ?_
          rcases hside with h | h
          · exact Or.inl h
          · rw [noLeadingRule_cons, hl] at h
            exact Or.inr h
        | rule r =>
          have hags : ags ≠ [] := by
            rcases hside with h | h
            · exact h
            · rw [noLeadingRule_cons, hl] at h
              exact absurd h (by simp)
          have hagsE : ags.isEmpty = false := by
            cases ags with
            | nil => exact absurd rfl hags
            | cons x xs => rfl
          have hnh : nextHeader ⟨true, ags, []⟩ (line :: rest) =
              (some ags, ⟨false, [], [r]⟩, rest) := by
            unfold nextHeader
            rw [nextHeaderLoop_cons, hl]
            dsimp only
            rw [if_pos (rfl : (true : Bool) = true)]
            dsimp only
            rw [hagsE]
            rfl
          obtain ⟨f, rfl⟩ : ∃ f, fuel = f + 1 := ⟨fuel - 1, by omega⟩
          rw [selectLoop_succ, hnh]
          rw [groupsAux_cons, hl]
          dsimp only
          rw [hagsE]
          cases hf : ags.find? (fun x =>
              (x = ['*'] || containsSub U x) && decide (ar.1.length < x.length)) with
          | some a =>
            exact ihCm f ar a [r] ags hags hf (by omega)
          | none =>
            exact ihCn f ar [r] [r] ags hags hf (by omega)
      · intro fuel ar a rlc ags hags hf hfuel
        simp only [List.length_cons] at hfuel
        have hagsE : ags.isEmpty = false := by
          cases ags with
          | nil => exact absurd rfl hags
          | cons x xs => rfl
        cases hl : parseLine line with
        | rule r2 =>
          have hnr : nextRules ⟨false, [], rlc⟩ (line :: rest) =
              nextRules ⟨false, [], rlc ++ [r2]⟩ rest := by
            unfold nextRules
            rw [nextRulesLoop_cons, hl]
          rw [hnr, groupsAux_cons, hl]
          dsimp only
          rw [hagsE]
          exact ihCm fuel ar a (rlc ++ [r2]) ags hags hf (by omega)
        | nothing =>
          have hnr : nextRules ⟨false, [], rlc⟩ (line :: rest) =
              nextRules ⟨false, [], rlc⟩ rest := by
            unfold nextRules
            rw [nextRulesLoop_cons, hl]
          rw [hnr, groupsAux_cons, hl]
          exact ihCm fuel ar a rlc ags hags hf (by omega)
        | userAgent ua =>
          have hnr : nextRules ⟨false, [], rlc⟩ (line :: rest) =
              (rlc, ⟨true, [ua], []⟩, rest) := by
            unfold nextRules
            rw [nextRulesLoop_cons, hl]
            rfl
          rw [hnr, groupsAux_cons, hl]
          show selectLoop U fuel (a, rlc) ⟨true, [ua], []⟩ rest =
            selectSpec U ((ags, rlc) :: groupsAux rest [ua] [] false) ar
          rw [selectSpec_cons]
          show selectLoop U fuel (a, rlc) ⟨true, [ua], []⟩ rest =
            (match ags.find? (fun x =>
                (x = ['*'] || containsSub U x) && decide (ar.1.length < x.length)) with
             | some a => selectSpec U (groupsAux rest [ua] [] false) (a, rlc)
             | none => selectSpec U (groupsAux rest [ua] [] false) ar)
          rw [hf]
          exact ihA fuel (a, rlc) [ua] (by omega) (Or.inl (by simp))
      · intro fuel ar rlc rls ags hags hf hfuel
        simp only [List.length_cons] at hfuel
        have hagsE : ags.isEmpty = false := by
          cases ags with
          | nil => exact absurd rfl hags
          | cons x xs => rfl
        cases hl : parseLine line with
        | rule r2 =>
          obtain ⟨f, rfl⟩ : ∃ f, fuel = f + 1 := ⟨fuel - 1, by omega⟩
          have hstep : nextHeader ⟨false, [], rlc⟩ (line :: rest) =
              nextHeader ⟨false, [], rlc⟩ rest := by
            unfold nextHeader
            rw [nextHeaderLoop_cons, hl]
            rfl
          rw [selectLoop_succ, hstep, ← selectLoop_succ]
          rw [groupsAux_cons, hl]
          dsimp only
          rw [hagsE]
          exact ihCn (f + 1) ar rlc (rls ++ [r2]) ags hags hf (by omega)
        | nothing =>
          obtain ⟨f, rfl⟩ : ∃ f, fuel = f + 1 := ⟨fuel - 1, by omega⟩
          have hstep : nextHeader ⟨false, [], rlc⟩ (line :: rest) =
              nextHeader ⟨false, [], rlc⟩ rest := by
            unfold nextHeader
            rw [nextHeaderLoop_cons, hl]
          rw [selectLoop_succ, hstep, ← selectLoop_succ]
          rw [groupsAux_cons, hl]
          exact ihCn (f + 1) ar rlc rls ags hags hf (by omega)
        | userAgent ua =>
          obtain ⟨f, rfl⟩ : ∃ f, fuel = f + 1 := ⟨fuel - 1, by omega⟩
          have hstep : nextHeader ⟨false, [], rlc⟩ (line :: rest) =
              nextHeader ⟨true, [ua], []⟩ rest := by
            unfold nextHeader
            rw [nextHeaderLoop_cons, hl]
            rfl
          rw [selectLoop_succ, hstep, ← selectLoop_succ]
          rw [groupsAux_cons, hl]
          show selectLoop U (f + 1) ar ⟨true, [ua], []⟩ rest =
            selectSpec U ((ags, rls) :: groupsAux rest [ua] [] false) ar
          rw [selectSpec_cons]
          show selectLoop U (f + 1) ar ⟨true, [ua], []⟩ rest =
            (match ags.find? (fun x =>
                (x = ['*'] || containsSub U x) && decide (ar.1.length < x.length)) with
             | some a => selectSpec U (groupsAux rest [ua] [] false) (a, rls)
             | none => selectSpec U (groupsAux rest [ua] [] false) ar)
          rw [hf]
          exact ihA (f + 1) ar [ua] (by omega) (Or.inl (by simp))

end Cylon.Parse

namespace Cylon

/-- C5 (amended): on a file with no rule line before the first
user-agent line, the compiler selects the rule list of the last group
whose header contains a token that matches the lowercased caller
identity (the literal "*" or a substring of it) and is strictly longer
than the previously kept token; within a header the first such token in
header order is kept, not the longest. -/
theorem c5_selector_semantics (userAgent : List Char) (lines : List (List Char))
    (hnl : Parse.noLeadingRule lines = true) :
    Parse.compileRules userAgent lines =
      Parse.selectSpec (userAgent.map Parse.asciiLower) (Parse.groupsOf lines) ([], []) := by
  unfold Parse.compileRules Parse.groupsOf Parse.selectFuel
  exact (Parse.selector_sim (userAgent.map Parse.asciiLower) lines.length lines
    (le_refl _)).1 (lines.length + 2) ([], []) [] (le_refl _) (Or.inr hnl)

/-- Concrete instance of the amended C5 theorem: for the identity "abb"
the second group wins with its token "bb", and both the code's selector
and the group-based description produce its rule list. -/
theorem c5_selector_semantics_witness :
    Parse.compileRules ("abb".data)
      ["user-agent: a".data, "disallow: /x".data,
       "user-agent: bb".data, "disallow: /y".data] =
      [.disallow ("/y".data)] :=
  (c5_selector_semantics ("abb".data)
    ["user-agent: a".data, "disallow: /x".data,
     "user-agent: bb".data, "disallow: /y".data] (by decide)).trans (by decide)

end Cylon

namespace Cylon.Nfa

theorem bytesLe_nil_left (b : List Nat) : bytesLe [] b = true := rfl

theorem bytesLe_cons_nil (x : Nat) (xs : List Nat) : bytesLe (x :: xs) [] = false := rfl

theorem bytesLe_cons (x y : Nat) (xs ys : List Nat) :
    bytesLe (x :: xs) (y :: ys) =
      if x < y then true else if y < x then false else bytesLe xs ys := rfl

theorem bytesLe_refl : ∀ a : List Nat, bytesLe a a = true
  | [] => rfl
  | x :: xs => by
    rw [bytesLe_cons, if_neg (lt_irrefl x), if_neg (lt_irrefl x)]
    exact bytesLe_refl xs

theorem bytesLe_total : ∀ a b : List Nat, bytesLe a b = true ∨ bytesLe b a = true
  | [], _ => Or.inl rfl
  | _ :: _, [] => Or.inr rfl
  | x :: xs, y :: ys => by
    rcases Nat.lt_trichotomy x y with h | h | h
    · left; rw [bytesLe_cons, if_pos h]
    · subst h
      rcases bytesLe_total xs ys with h2 | h2
      · left; rw [bytesLe_cons, if_neg (lt_irrefl x), if_neg (lt_irrefl x)]; exact h2
      · right; rw [bytesLe_cons, if_neg (lt_irrefl x), if_neg (lt_irrefl x)]; exact h2
    · right; rw [bytesLe_cons, if_pos h]

theorem bytesLe_trans {a b c : List Nat} (h1 : bytesLe a b = true)
    (h2 : bytesLe b c = true) : bytesLe a c = true := by
  induction a generalizing b c with
  | nil => rfl
  | cons x xs ih =>
    cases b with
    | nil => rw [bytesLe_cons_nil] at h1; exact absurd h1 (by simp)
    | cons y ys =>
      cases c with
      | nil => rw [bytesLe_cons_nil] at h2; exact absurd h2 (by simp)
      | cons z zs =>
        rw [bytesLe_cons] at h1 h2 ⊢
        rcases Nat.lt_trichotomy x y with hxy | hxy | hxy
        · rcases Nat.lt_trichotomy y z with hyz | hyz | hyz
          · rw [if_pos (Nat.lt_trans hxy hyz)]
          · subst hyz; rw [if_pos hxy]
          · rw [if_neg (Nat.lt_asymm hyz), if_pos hyz] at h2
            exact absurd h2 (by simp)
        · subst hxy
          rw [if_neg (lt_irrefl x), if_neg (lt_irrefl x)] at h1
          rcases Nat.lt_trichotomy x z with hxz | hxz | hxz
          · rw [if_pos hxz]
          · subst hxz
            rw [if_neg (lt_irrefl x), if_neg (lt_irrefl x)] at h2 ⊢
            exact ih h1 h2
          · rw [if_neg (Nat.lt_asymm hxz), if_pos hxz] at h2
            exact absurd h2 (by simp)
        · rw [if_neg (Nat.lt_asymm hxy), if_pos hxy] at h1
          exact absurd h1 (by simp)

theorem bytesLe_antisymm {a b : List Nat} (h1 : bytesLe a b = true)
    (h2 : bytesLe b a = true) : a = b := by
  induction a generalizing b with
  | nil =>
    cases b with
    | nil => rfl
    | cons y ys => rw [bytesLe_cons_nil] at h2; exact absurd h2 (by simp)
  | cons x xs ih =>
    cases b with
    | nil => rw [bytesLe_cons_nil] at h1; exact absurd h1 (by simp)
    | cons y ys =>
      rw [bytesLe_cons] at h1 h2
      rcases Nat.lt_trichotomy x y with hxy | hxy | hxy
      · rw [if_neg (Nat.lt_asymm hxy), if_pos hxy] at h2
        exact absurd h2 (by simp)
      · subst hxy
        rw [if_neg (lt_irrefl x), if_neg (lt_irrefl x)] at h1 h2
        rw [ih h1 h2]
      · rw [if_neg (Nat.lt_asymm hxy), if_pos hxy] at h1
        exact absurd h1 (by simp)

theorem bytesLe_take {a b : List Nat} (h : bytesLe a b = true) (k : Nat) :
    bytesLe (a.take k) (b.take k) = true := by
  induction a generalizing b k with
  | nil => rw [List.take_nil]; rfl
  | cons x xs ih =>
    cases b with
    | nil => rw [bytesLe_cons_nil] at h; exact absurd h (by simp)
    | cons y ys =>
      cases k with
      | zero => rfl
      | succ k2 =>
        rw [List.take_succ_cons, List.take_succ_cons, bytesLe_cons]
        rw [bytesLe_cons] at h
        rcases Nat.lt_trichotomy x y with hxy | hxy | hxy
        · rw [if_pos hxy]
        · subst hxy
          rw [if_neg (lt_irrefl x), if_neg (lt_irrefl x)] at h ⊢
          exact ih h k2
        · rw [if_neg (Nat.lt_asymm hxy), if_pos hxy] at h
          exact absurd h (by simp)

theorem sortRules_perm (rules : List Rule) : List.Perm (sortRules rules) rules :=
  List.perm_insertionSort _ rules

theorem sortRules_sorted (rules : List Rule) :
    List.Sorted (fun a b : Rule => bytesLe a.inner b.inner = true) (sortRules rules) := by
  haveI : IsTotal Rule (fun a b : Rule => bytesLe a.inner b.inner = true) :=
    ⟨fun a b => bytesLe_total a.inner b.inner⟩
  haveI : IsTrans Rule (fun a b : Rule => bytesLe a.inner b.inner = true) :=
    ⟨fun _ _ _ h1 h2 => bytesLe_trans h1 h2⟩
  exact List.sorted_insertionSort _ rules

end Cylon.Nfa

namespace Cylon.Dfa

theorem bytesLt_trans {a b c : List Nat} (h1 : bytesLt a b) (h2 : bytesLt b c) :
    bytesLt a c := by
  refine ⟨Nfa.bytesLe_trans h1.1 h2.1, ?_⟩
  intro hac
  subst hac
  exact h2.2 (Nfa.bytesLe_antisymm h2.1 h1.1)

theorem bytesLt_of_le_of_lt {a b c : List Nat} (h1 : Nfa.bytesLe a b = true)
    (h2 : bytesLt b c) : bytesLt a c := by
  refine ⟨Nfa.bytesLe_trans h1 h2.1, ?_⟩
  intro hac
  subst hac
  exact h2.2 (Nfa.bytesLe_antisymm h2.1 h1)

theorem bytesLt_irrefl (a : List Nat) : ¬ bytesLt a a := fun h => h.2 rfl

theorem sumMap_append {α : Type} (f : α → Nat) (l1 l2 : List α) :
    ((l1 ++ l2).map f).sum = (l1.map f).sum + (l2.map f).sum := by
  rw [List.map_append, List.sum_append]

theorem sumMap_le {α : Type} {f g : α → Nat} {l : List α} (h : ∀ x ∈ l, f x ≤ g x) :
    (l.map f).sum ≤ (l.map g).sum :=
  List.sum_le_sum h

theorem sumMap_add_le {α : Type} {f g k : α → Nat} {l : List α}
    (h : ∀ x ∈ l, f x + g x ≤ k x) :
    (l.map f).sum + (l.map g).sum ≤ (l.map k).sum := by
  induction l with
  | nil => simp
  | cons x xs ih =>
    simp only [List.map_cons, List.sum_cons]
    have h1 := h x (List.mem_cons_self x xs)
    have h2 := ih (fun y hy => h y (List.mem_cons_of_mem x hy))
    omega

theorem sumMap_eq_zero {α : Type} {f : α → Nat} {l : List α} (h : ∀ x ∈ l, f x = 0) :
    (l.map f).sum = 0 := by
  induction l with
  | nil => rfl
  | cons x xs ih =>
    simp only [List.map_cons, List.sum_cons]
    rw [h x (List.mem_cons_self x xs), ih (fun y hy => h y (List.mem_cons_of_mem x hy))]

theorem rowOk_mono {n m : Nat} {row : List Transition} (h : rowOk n row) (hnm : n ≤ m) :
    rowOk m row :=
  ⟨h.1, fun t ht => lt_of_lt_of_le (h.2 t ht) hnm⟩

end Cylon.Dfa

namespace Cylon.Dfa

theorem dStepRule_skip1 {pp : List Nat} {ws : Nat} {lb : Option Nat} {ps restLen : Nat}
    {acc : DAcc} {r : Rule} (h : ¬ pp.isPrefixOf r.inner = true) :
    dStepRule pp ws lb ps restLen acc r = acc := by
  unfold dStepRule
  dsimp only
  rw [if_pos h]

theorem dStepRule_skip2 {pp : List Nat} {ws : Nat} {lb : Option Nat} {ps restLen : Nat}
    {acc : DAcc} {r : Rule} (h : r.inner = pp) :
    dStepRule pp ws lb ps restLen acc r = acc := by
  unfold dStepRule
  dsimp only
  by_cases h1 : pp.isPrefixOf r.inner = true
  · rw [if_neg (not_not_intro h1), if_pos h]
  · rw [if_pos h1]

theorem dStepRule_skip3 {pp : List Nat} {ws : Nat} {lb : Option Nat} {ps restLen : Nat}
    {acc : DAcc} {r : Rule} (h1 : pp.isPrefixOf r.inner = true) (h2 : r.inner ≠ pp)
    (h3 : acc.currPfx = r.inner.take (pp.length + 1)) :
    dStepRule pp ws lb ps restLen acc r = acc := by
  unfold dStepRule
  dsimp only
  rw [if_neg (not_not_intro h1), if_neg h2, if_pos h3]

theorem dStepRule_push_fields {pp : List Nat} {ws : Nat} {lb : Option Nat} {ps restLen : Nat}
    {acc : DAcc} {r : Rule} (h1 : pp.isPrefixOf r.inner = true) (h2 : r.inner ≠ pp)
    (h3 : acc.currPfx ≠ r.inner.take (pp.length + 1)) :
    ∃ (ed : Edge) (st : State),
      dStepRule pp ws lb ps restLen acc r =
        ⟨acc.t ++ [⟨ed, acc.transitions.length + (restLen + (acc.pushed ++
            [(⟨r.inner.take (pp.length + 1), ws, acc.transitions.length, st⟩ : DItem)]).length)⟩],
         acc.pushed ++ [⟨r.inner.take (pp.length + 1), ws, acc.transitions.length, st⟩],
         if lb = some WILDCARD_BYTE then
           modifyRow acc.transitions ps (fun row => row ++
             [⟨ed, acc.transitions.length + (restLen + (acc.pushed ++
               [(⟨r.inner.take (pp.length + 1), ws, acc.transitions.length, st⟩ : DItem)]).length)⟩])
         else acc.transitions,
         r.inner.take (pp.length + 1)⟩ := by
  apply Exists.intro
  apply Exists.intro
  unfold dStepRule
  dsimp only
  rw [if_neg (not_not_intro h1), if_neg h2, if_neg h3]

theorem dStepRule_accOk {L restLen ws : Nat} {pp : List Nat} {lb : Option Nat} {ps : Nat}
    {r : Rule} {acc : DAcc} (h : accOk L restLen ws acc) :
    accOk L restLen ws (dStepRule pp ws lb ps restLen acc r) := by
  obtain ⟨h1, h2, h3, h4, h5⟩ := h
  by_cases hp1 : pp.isPrefixOf r.inner = true
  case neg => rw [dStepRule_skip1 hp1]; exact ⟨h1, h2, h3, h4, h5⟩
  by_cases hp2 : r.inner = pp
  · rw [dStepRule_skip2 hp2]; exact ⟨h1, h2, h3, h4, h5⟩
  by_cases hp3 : acc.currPfx = r.inner.take (pp.length + 1)
  · rw [dStepRule_skip3 hp1 hp2 hp3]; exact ⟨h1, h2, h3, h4, h5⟩
  obtain ⟨ed, st, heq⟩ := @dStepRule_push_fields pp ws lb ps restLen acc r hp1 hp2 hp3
  rw [heq]
  refine ⟨?_, ?_, ?_, ?_, ?_⟩
  · show (if lb = some WILDCARD_BYTE then _ else acc.transitions).length = L
    split
    · simp only [modifyRow, List.length_set]
      exact h1
    · exact h1
  · intro row hrow
    simp only [List.length_append, List.length_cons, List.length_nil]
    show rowOk (L + 1 + restLen + (acc.pushed.length + (0 + 1))) row
    dsimp only at hrow
    split at hrow
    · by_cases hps : acc.transitions.length ≤ ps
      · rw [modifyRow, List.set_eq_of_length_le hps] at hrow
        exact rowOk_mono (h2 row hrow) (by omega)
      · rw [modifyRow] at hrow
        rcases List.mem_or_eq_of_mem_set hrow with hm | hm
        · exact rowOk_mono (h2 row hm) (by omega)
        · subst hm
          have hbase : acc.transitions.getD ps [] ∈ acc.transitions := by
            rw [List.getD_eq_getElem?_getD, List.getElem?_eq_getElem (by omega)]
            exact List.getElem_mem _
          obtain ⟨⟨t0, ht0m, ht0e⟩, hbnd⟩ := h2 _ hbase
          refine ⟨⟨t0, List.mem_append_left _ ht0m, ht0e⟩, ?_⟩
          intro t ht
          rcases List.mem_append.mp ht with htm | htm
          · have := hbnd t htm
            omega
          · simp only [List.mem_singleton] at htm
            subst htm
            show acc.transitions.length + (restLen + (acc.pushed ++ _).length) <
              L + 1 + restLen + (acc.pushed.length + (0 + 1))
            simp only [List.length_append, List.length_cons, List.length_nil]
            omega
    · exact rowOk_mono (h2 row hrow) (by omega)
  · obtain ⟨t0, ht0m, ht0e⟩ := h3
    exact ⟨t0, List.mem_append_left _ ht0m, ht0e⟩
  · intro t ht
    simp only [List.length_append, List.length_cons, List.length_nil]
    dsimp only at ht
    rcases List.mem_append.mp ht with htm | htm
    · have := h4 t htm
      omega
    · simp only [List.mem_singleton] at htm
      subst htm
      show acc.transitions.length + (restLen + (acc.pushed ++ _).length) <
        L + 1 + restLen + (acc.pushed.length + (0 + 1))
      simp only [List.length_append, List.length_cons, List.length_nil]
      omega
  · intro x hx
    dsimp only at hx
    rcases List.mem_append.mp hx with hxm | hxm
    · exact h5 x hxm
    · simp only [List.mem_singleton] at hxm
      subst hxm
      rfl

theorem dfold_accOk {L restLen ws : Nat} {pp : List Nat} {lb : Option Nat} {ps : Nat} :
    ∀ (rs : List Rule) (acc : DAcc), accOk L restLen ws acc →
      accOk L restLen ws (rs.foldl (dStepRule pp ws lb ps restLen) acc)
  | [], _, h => h
  | r :: rest, acc, h => by
    rw [List.foldl_cons]
    exact dfold_accOk rest _ (dStepRule_accOk h)

end Cylon.Dfa

namespace Cylon.Dfa

theorem dProcessItem_build (rules : List Rule) (it : DItem) (states : List State)
    (transitions : List (List Transition)) (rest : List DItem)
    (hb : buildOk states transitions (it :: rest)) :
    buildOk (dProcessItem rules it states transitions rest.length).1
      (dProcessItem rules it states transitions rest.length).2.1
      (rest ++ (dProcessItem rules it states transitions rest.length).2.2) ∧
    (dProcessItem rules it states transitions rest.length).1.length = states.length + 1 := by
  obtain ⟨hlen, h0, h1, hni, hrows, hq⟩ := hb
  simp only [List.length_cons] at hrows
  have h1lt : 1 < states.length := by
    cases states with
    | nil => exact absurd h1 (by simp)
    | cons a l =>
      cases l with
      | nil => exact absurd h1 (by simp)
      | cons b l2 => simp
  have hL2 : 2 ≤ transitions.length := by omega
  have hit01 : it.wildcardState = 0 ∨ it.wildcardState = 1 :=
    hq it (List.mem_cons_self _ _)
  have hmaOf : ∀ n : Nat, ∃ t ∈ [(⟨Edge.matchAny, n⟩ : Transition)],
      t.edge = Edge.matchAny := fun n => ⟨⟨Edge.matchAny, n⟩, by simp, rfl⟩
  have hbOf : ∀ n : Nat, n < transitions.length + 1 + rest.length →
      ∀ t ∈ [(⟨Edge.matchAny, n⟩ : Transition)],
        t.target < transitions.length + 1 + rest.length := by
    intro n hn t ht
    simp only [List.mem_singleton] at ht
    subst ht
    exact hn
  have hgetD : ∀ w : Nat, w = 0 ∨ w = 1 →
      states.getD w State.intermediate ≠ State.intermediate := by
    intro w hw
    rcases hw with h | h <;> subst h
    · rw [List.getD_eq_getElem?_getD, h0]
      intro h
      exact State.noConfusion h
    · rw [List.getD_eq_getElem?_getD, h1]
      intro h
      exact State.noConfusion h
  have core : ∀ (ws : Nat) (t0 : List Transition) (newState : State),
      ws = 0 ∨ ws = 1 →
      (∃ t ∈ t0, t.edge = Edge.matchAny) →
      (∀ t ∈ t0, t.target < transitions.length + 1 + rest.length) →
      newState ≠ State.intermediate →
      ∀ (lb : Option Nat) (psZ : Nat),
      buildOk (states ++ [newState])
        ((rules.foldl (dStepRule it.pfx ws lb psZ rest.length)
            ⟨t0, [], transitions, []⟩).transitions ++
          [(rules.foldl (dStepRule it.pfx ws lb psZ rest.length)
            ⟨t0, [], transitions, []⟩).t])
        (rest ++ (rules.foldl (dStepRule it.pfx ws lb psZ rest.length)
            ⟨t0, [], transitions, []⟩).pushed) := by
    intro ws t0 newState hws ht0ma ht0b hns lb psZ
    have hseed : accOk transitions.length rest.length ws ⟨t0, [], transitions, []⟩ := by
      refine ⟨rfl, ?_, ht0ma, ?_, ?_⟩
      · intro row hrow
        refine rowOk_mono (hrows row hrow) ?_
        dsimp only
        omega
      · intro t ht
        have h2 := ht0b t ht
        dsimp only
        omega
      · intro x hx
        exact absurd hx (List.not_mem_nil x)
    obtain ⟨ha1, ha2, ha3, ha4, ha5⟩ :=
      @dfold_accOk transitions.length rest.length ws it.pfx lb psZ rules
        ⟨t0, [], transitions, []⟩ hseed
    refine ⟨?_, ?_, ?_, ?_, ?_, ?_⟩
    · simp only [List.length_append, List.length_cons, List.length_nil]
      omega
    · rw [List.getElem?_append_left (by omega)]
      exact h0
    · rw [List.getElem?_append_left (by omega)]
      exact h1
    · intro s hs
      rcases List.mem_append.mp hs with hm | hm
      · exact hni s hm
      · simp only [List.mem_singleton] at hm
        subst hm
        exact hns
    · intro row hrow
      rcases List.mem_append.mp hrow with hm | hm
      · refine rowOk_mono (ha2 row hm) ?_
        simp only [List.length_append, List.length_cons, List.length_nil]
        omega
      · simp only [List.mem_singleton] at hm
        subst hm
        refine ⟨ha3, fun t ht => ?_⟩
        have h2 := ha4 t ht
        simp only [List.length_append, List.length_cons, List.length_nil]
        omega
    · intro x hx
      rcases List.mem_append.mp hx with hm | hm
      · exact hq x (List.mem_cons_of_mem _ hm)
      · rcases hws with h | h
        · exact Or.inl (by rw [ha5 x hm, h])
        · exact Or.inr (by rw [ha5 x hm, h])
  unfold dProcessItem
  dsimp only
  cases hst : it.state with
  | allow =>
    dsimp only
    refine ⟨core 0 _ State.allow (Or.inl rfl) ?_ ?_ ?_ _ _, by simp⟩
    · split
      · exact hmaOf _
      split
      · exact hmaOf _
      · exact hmaOf _
    · split
      · exact hbOf _ (by omega)
      split
      · exact hbOf _ (by omega)
      · exact hbOf _ (by omega)
    · intro h
      exact State.noConfusion h
  | disallow =>
    dsimp only
    refine ⟨core _ _ State.disallow ?_ ?_ ?_ ?_ _ _, by simp⟩
    · split
      · exact hit01
      · exact Or.inr rfl
    · split
      · exact hmaOf _
      split
      · exact hmaOf _
      · exact hmaOf _
    · split
      · rcases hit01 with h | h <;> (rw [h]; exact hbOf _ (by omega))
      split
      · exact hbOf _ (by omega)
      · exact hbOf _ (by omega)
    · intro h
      exact State.noConfusion h
  | intermediate =>
    dsimp only
    refine ⟨core it.wildcardState _ _ hit01 ?_ ?_ (hgetD it.wildcardState hit01) _ _, by simp⟩
    · split
      · exact hmaOf _
      split
      · exact hmaOf _
      · exact hmaOf _
    · split
      · rcases hit01 with h | h <;> (rw [h]; exact hbOf _ (by omega))
      split
      · exact hbOf _ (by omega)
      · rcases hit01 with h | h <;> (rw [h]; exact hbOf _ (by omega))

end Cylon.Dfa

namespace Cylon.Dfa

theorem pfx_len_lt {pp a : List Nat} (h : pp.isPrefixOf a = true) (hne : a ≠ pp) :
    pp.length < a.length := by
  have hp := List.isPrefixOf_iff_prefix.mp h
  rcases Nat.lt_or_ge pp.length a.length with h2 | h2
  · exact h2
  · exact absurd (List.IsPrefix.eq_of_length hp (Nat.le_antisymm hp.length_le h2)).symm hne

theorem take_child_len {pp a : List Nat} (h : pp.isPrefixOf a = true) (hne : a ≠ pp) :
    (a.take (pp.length + 1)).length = pp.length + 1 := by
  rw [List.length_take]
  have := pfx_len_lt h hne
  omega

theorem pfx_isPrefixOf_child {pp a : List Nat} (h : pp.isPrefixOf a = true) :
    pp <+: a.take (pp.length + 1) := by
  have hp := List.isPrefixOf_iff_prefix.mp h
  rw [List.prefix_iff_eq_take] at hp ⊢
  rw [List.take_take]
  have hm : min pp.length (pp.length + 1) = pp.length := by omega
  rw [hm]
  exact hp

theorem contributor_props {pp a b : List Nat} (hA : pp.isPrefixOf a = true) (hAne : a ≠ pp)
    (hB : (a.take (pp.length + 1)).isPrefixOf b = true) :
    pp.isPrefixOf b = true ∧ b ≠ pp ∧ b.take (pp.length + 1) = a.take (pp.length + 1) := by
  have hq0len : (a.take (pp.length + 1)).length = pp.length + 1 := take_child_len hA hAne
  have hq0b : a.take (pp.length + 1) <+: b := List.isPrefixOf_iff_prefix.mp hB
  have hppq0 : pp <+: a.take (pp.length + 1) := pfx_isPrefixOf_child hA
  refine ⟨List.isPrefixOf_iff_prefix.mpr (hppq0.trans hq0b), ?_, ?_⟩
  · intro hbpp
    have hl := hq0b.length_le
    rw [hbpp] at hl
    omega
  · have hb2 := List.prefix_iff_eq_take.mp hq0b
    rw [hq0len] at hb2
    exact hb2.symm

theorem cursorSlack_add_blockSlack_le (pp c q0 : List Nat) (hlt : bytesLt c q0) (r : Rule) :
    cursorSlack pp q0 r + blockSlack pp q0 r ≤ cursorSlack pp c r := by
  unfold cursorSlack blockSlack
  by_cases hE1 : pp.isPrefixOf r.inner = true
  case neg =>
    rw [if_neg (fun hc => hE1 hc.1), if_neg (fun hc => hE1 hc.1), if_neg (fun hc => hE1 hc.1)]
  by_cases hE2 : r.inner ≠ pp
  case neg =>
    rw [if_neg (fun hc => hE2 hc.2.1), if_neg (fun hc => hE2 hc.2.1),
      if_neg (fun hc => hE2 hc.2.1)]
  by_cases hq : r.inner.take (pp.length + 1) = q0
  · rw [if_neg (fun hc => bytesLt_irrefl q0 (by rw [hq] at hc; exact hc.2.2)),
      if_pos ⟨hE1, hE2, hq⟩, if_pos ⟨hE1, hE2, by rw [hq]; exact hlt⟩]
    omega
  · by_cases hlt2 : bytesLt q0 (r.inner.take (pp.length + 1))
    · rw [if_pos ⟨hE1, hE2, hlt2⟩, if_neg (fun hc => hq hc.2.2),
        if_pos ⟨hE1, hE2, bytesLt_trans hlt hlt2⟩]
      omega
    · rw [if_neg (fun hc => hlt2 hc.2.2), if_neg (fun hc => hq hc.2.2)]
      exact le_trans (by omega) (Nat.zero_le _)

theorem ruleSlack_child_le_blockSlack {pp : List Nat} {a : Rule}
    (hA : pp.isPrefixOf a.inner = true) (hAne : a.inner ≠ pp) (r : Rule) :
    ruleSlack (a.inner.take (pp.length + 1)) r ≤
      blockSlack pp (a.inner.take (pp.length + 1)) r := by
  unfold ruleSlack blockSlack
  by_cases hc : (a.inner.take (pp.length + 1)).isPrefixOf r.inner = true ∧
      r.inner ≠ a.inner.take (pp.length + 1)
  · obtain ⟨h1, h2, h3⟩ := contributor_props hA hAne hc.1
    rw [if_pos hc, if_pos ⟨h1, h2, h3⟩]
    have := take_child_len hA hAne
    omega
  · rw [if_neg hc]
    exact Nat.zero_le _

theorem ruleSlack_child_eq_zero {pp c : List Nat} {a r : Rule}
    (hA : pp.isPrefixOf a.inner = true) (hAne : a.inner ≠ pp)
    (hlt : bytesLt c (a.inner.take (pp.length + 1)))
    (hcons : pp.isPrefixOf r.inner = true → r.inner ≠ pp →
      Nfa.bytesLe (r.inner.take (pp.length + 1)) c = true) :
    ruleSlack (a.inner.take (pp.length + 1)) r = 0 := by
  unfold ruleSlack
  rw [if_neg]
  intro hc
  obtain ⟨h1, h2, h3⟩ := contributor_props hA hAne hc.1
  have hle := hcons h1 h2
  rw [h3] at hle
  exact hlt.2 (Nfa.bytesLe_antisymm hlt.1 hle)

theorem ruleSlack_self_lt {pp : List Nat} {a : Rule} (hA : pp.isPrefixOf a.inner = true)
    (hAne : a.inner ≠ pp) :
    1 + ruleSlack (a.inner.take (pp.length + 1)) a ≤ a.inner.length - pp.length := by
  unfold ruleSlack
  have hlen := pfx_len_lt hA hAne
  have hq0len := take_child_len hA hAne
  by_cases hc : (a.inner.take (pp.length + 1)).isPrefixOf a.inner = true ∧
      a.inner ≠ a.inner.take (pp.length + 1)
  · rw [if_pos hc]
    omega
  · rw [if_neg hc]
    omega

end Cylon.Dfa

namespace Cylon.Dfa

set_option maxHeartbeats 1600000 in
theorem dfold_pot (rules : List Rule) (pp : List Nat) (ws ps restLen : Nat) (lb : Option Nat) :
    ∀ (rs consumed : List Rule) (acc : DAcc),
    rules = consumed ++ rs →
    List.Sorted (fun a b : Rule => Nfa.bytesLe a.inner b.inner = true) rs →
    (∀ r ∈ consumed, pp.isPrefixOf r.inner = true → r.inner ≠ pp →
      Nfa.bytesLe (r.inner.take (pp.length + 1)) acc.currPfx = true) →
    (∀ r ∈ rs, pp.isPrefixOf r.inner = true → r.inner ≠ pp →
      Nfa.bytesLe acc.currPfx (r.inner.take (pp.length + 1)) = true) →
    queuePot rules (rs.foldl (dStepRule pp ws lb ps restLen) acc).pushed ≤
      queuePot rules acc.pushed + (rs.map (cursorSlack pp acc.currPfx)).sum := by
  intro rs
  induction rs with
  | nil =>
    intro consumed acc hsplit hsort hcons hdom
    simp only [List.foldl_nil, List.map_nil, List.sum_nil, Nat.add_zero]
    exact le_refl _
  | cons a tail ih =>
    intro consumed acc hsplit hsort hcons hdom
    rw [List.foldl_cons, List.map_cons, List.sum_cons]
    have hsortT := (List.sorted_cons.mp hsort).2
    have hsortH := (List.sorted_cons.mp hsort).1
    by_cases hp1 : pp.isPrefixOf a.inner = true
    case neg =>
      rw [dStepRule_skip1 hp1]
      refine le_trans (ih (consumed ++ [a]) acc ?_ hsortT ?_ ?_) (by omega)
      · rw [hsplit, List.append_assoc]
        rfl
      · intro r hr hp hne
        rcases List.mem_append.mp hr with hm | hm
        · exact hcons r hm hp hne
        · simp only [List.mem_singleton] at hm
          subst hm
          exact absurd hp hp1
      · intro r hr hp hne
        exact hdom r (List.mem_cons_of_mem _ hr) hp hne
    by_cases hp2 : a.inner = pp
    · rw [dStepRule_skip2 hp2]
      refine le_trans (ih (consumed ++ [a]) acc ?_ hsortT ?_ ?_) (by omega)
      · rw [hsplit, List.append_assoc]
        rfl
      · intro r hr hp hne
        rcases List.mem_append.mp hr with hm | hm
        · exact hcons r hm hp hne
        · simp only [List.mem_singleton] at hm
          subst hm
          exact absurd hp2 hne
      · intro r hr hp hne
        exact hdom r (List.mem_cons_of_mem _ hr) hp hne
    by_cases hp3 : acc.currPfx = a.inner.take (pp.length + 1)
    · rw [dStepRule_skip3 hp1 hp2 hp3]
      refine le_trans (ih (consumed ++ [a]) acc ?_ hsortT ?_ ?_) (by omega)
      · rw [hsplit, List.append_assoc]
        rfl
      · intro r hr hp hne
        rcases List.mem_append.mp hr with hm | hm
        · exact hcons r hm hp hne
        · simp only [List.mem_singleton] at hm
          subst hm
          rw [← hp3]
          exact Nfa.bytesLe_refl _
      · intro r hr hp hne
        exact hdom r (List.mem_cons_of_mem _ hr) hp hne
    · obtain ⟨ed, st, heq⟩ := @dStepRule_push_fields pp ws lb ps restLen acc a hp1 hp2 hp3
      have hleq0 : Nfa.bytesLe acc.currPfx (a.inner.take (pp.length + 1)) = true :=
        hdom a (List.mem_cons_self _ _) hp1 hp2
      have hlt : bytesLt acc.currPfx (a.inner.take (pp.length + 1)) := ⟨hleq0, hp3⟩
      have hnewpfx : (dStepRule pp ws lb ps restLen acc a).currPfx =
          a.inner.take (pp.length + 1) := by rw [heq]
      have hnewpushed : (dStepRule pp ws lb ps restLen acc a).pushed =
          acc.pushed ++ [⟨a.inner.take (pp.length + 1), ws, acc.transitions.length, st⟩] := by
        rw [heq]
      have hconsN : ∀ r ∈ consumed ++ [a], pp.isPrefixOf r.inner = true → r.inner ≠ pp →
          Nfa.bytesLe (r.inner.take (pp.length + 1))
            ((dStepRule pp ws lb ps restLen acc a).currPfx) = true := by
        intro r hr hp hne
        rw [hnewpfx]
        rcases List.mem_append.mp hr with hm | hm
        · exact Nfa.bytesLe_trans (hcons r hm hp hne) hleq0
        · simp only [List.mem_singleton] at hm
          subst hm
          exact Nfa.bytesLe_refl _
      have hdomN : ∀ r ∈ tail, pp.isPrefixOf r.inner = true → r.inner ≠ pp →
          Nfa.bytesLe ((dStepRule pp ws lb ps restLen acc a).currPfx)
            (r.inner.take (pp.length + 1)) = true := by
        intro r hr hp hne
        rw [hnewpfx]
        exact Nfa.bytesLe_take (hsortH r hr) (pp.length + 1)
      have hIH := ih (consumed ++ [a]) (dStepRule pp ws lb ps restLen acc a)
        (by rw [hsplit, List.append_assoc]; rfl) hsortT hconsN hdomN
      rw [hnewpfx] at hIH
      have heq2 : queuePot rules (dStepRule pp ws lb ps restLen acc a).pushed =
          queuePot rules acc.pushed + (1 + pfxPot rules (a.inner.take (pp.length + 1))) := by
        rw [hnewpushed]
        unfold queuePot
        rw [List.map_append, List.sum_append]
        simp only [List.map_cons, List.map_nil, List.sum_cons, List.sum_nil]
        omega
      have hkey1 : 1 + pfxPot rules (a.inner.take (pp.length + 1)) ≤
          (a.inner.length - pp.length) +
            (tail.map (blockSlack pp (a.inner.take (pp.length + 1)))).sum := by
        have hzero : (consumed.map (ruleSlack (a.inner.take (pp.length + 1)))).sum = 0 :=
          sumMap_eq_zero (fun r hr => ruleSlack_child_eq_zero hp1 hp2 hlt (hcons r hr))
        have hself := ruleSlack_self_lt hp1 hp2
        have hblock := @sumMap_le Rule (ruleSlack (a.inner.take (pp.length + 1)))
          (blockSlack pp (a.inner.take (pp.length + 1))) tail
          (fun r _ => ruleSlack_child_le_blockSlack hp1 hp2 r)
        have hsum : pfxPot rules (a.inner.take (pp.length + 1)) =
            (consumed.map (ruleSlack (a.inner.take (pp.length + 1)))).sum +
              (ruleSlack (a.inner.take (pp.length + 1)) a +
                (tail.map (ruleSlack (a.inner.take (pp.length + 1)))).sum) := by
          rw [hsplit]
          unfold pfxPot
          rw [List.map_append, List.sum_append, List.map_cons, List.sum_cons]
        rw [hsum, hzero]
        omega
      have hkey2 : (tail.map (cursorSlack pp (a.inner.take (pp.length + 1)))).sum +
          (tail.map (blockSlack pp (a.inner.take (pp.length + 1)))).sum ≤
          (tail.map (cursorSlack pp acc.currPfx)).sum :=
        sumMap_add_le (fun r _ =>
          cursorSlack_add_blockSlack_le pp acc.currPfx (a.inner.take (pp.length + 1)) hlt r)
      have hkey3 : cursorSlack pp acc.currPfx a = a.inner.length - pp.length := by
        unfold cursorSlack
        rw [if_pos ⟨hp1, hp2, hlt⟩]
      omega

end Cylon.Dfa

namespace Cylon.Dfa

theorem queuePot_nil (rules : List Rule) : queuePot rules [] = 0 := rfl

theorem queuePot_append (rules : List Rule) (q1 q2 : List DItem) :
    queuePot rules (q1 ++ q2) = queuePot rules q1 + queuePot rules q2 := by
  unfold queuePot
  rw [List.map_append, List.sum_append]

theorem queuePot_cons (rules : List Rule) (it : DItem) (q : List DItem) :
    queuePot rules (it :: q) = 1 + pfxPot rules it.pfx + queuePot rules q := by
  unfold queuePot
  rw [List.map_cons, List.sum_cons]

theorem cursorSlack_le_ruleSlack (pp c : List Nat) (r : Rule) :
    cursorSlack pp c r ≤ ruleSlack pp r := by
  unfold cursorSlack ruleSlack
  by_cases hc : pp.isPrefixOf r.inner = true ∧ r.inner ≠ pp ∧
      bytesLt c (r.inner.take (pp.length + 1))
  · rw [if_pos hc, if_pos ⟨hc.1, hc.2.1⟩]
  · rw [if_neg hc]
    exact Nat.zero_le _

theorem dProcessItem_pushed (rules : List Rule) (it : DItem) (states : List State)
    (transitions : List (List Transition)) (restLen : Nat) :
    ∃ (ws : Nat) (t0 : List Transition),
      (dProcessItem rules it states transitions restLen).2.2 =
        (rules.foldl (dStepRule it.pfx ws it.pfx.getLast? it.parentState restLen)
          ⟨t0, [], transitions, []⟩).pushed := by
  apply Exists.intro
  apply Exists.intro
  unfold dProcessItem
  dsimp only

theorem dProcessItem_pot (rules : List Rule)
    (hsort : List.Sorted (fun a b : Rule => Nfa.bytesLe a.inner b.inner = true) rules)
    (it : DItem) (states : List State) (transitions : List (List Transition))
    (restLen : Nat) :
    queuePot rules (dProcessItem rules it states transitions restLen).2.2 ≤
      pfxPot rules it.pfx := by
  obtain ⟨ws, t0, hpush⟩ := dProcessItem_pushed rules it states transitions restLen
  rw [hpush]
  have hfold := dfold_pot rules it.pfx ws it.parentState restLen it.pfx.getLast?
    rules [] ⟨t0, [], transitions, []⟩ rfl hsort
    (fun r hr => absurd hr (List.not_mem_nil r))
    (fun _ _ _ _ => rfl)
  dsimp only at hfold
  rw [queuePot_nil] at hfold
  have hcs := @sumMap_le Rule (cursorSlack it.pfx []) (ruleSlack it.pfx) rules
    (fun r _ => cursorSlack_le_ruleSlack it.pfx [] r)
  have hpp : pfxPot rules it.pfx = (rules.map (ruleSlack it.pfx)).sum := rfl
  omega

theorem dCompileLoop_build (rules : List Rule)
    (hsort : List.Sorted (fun a b : Rule => Nfa.bytesLe a.inner b.inner = true) rules) :
    ∀ (fuel : Nat) (states : List State) (transitions : List (List Transition))
      (queue : List DItem),
      buildOk states transitions queue →
      queuePot rules queue < fuel →
      machOk ⟨(dCompileLoop rules fuel states transitions queue).1,
        (dCompileLoop rules fuel states transitions queue).2⟩ ∧
      states.length ≤ (dCompileLoop rules fuel states transitions queue).1.length ∧
      (queue ≠ [] → states.length < (dCompileLoop rules fuel states transitions queue).1.length) := by
  intro fuel
  induction fuel with
  | zero =>
    intro states transitions queue hb hpot
    exact absurd hpot (by omega)
  | succ f ih =>
    intro states transitions queue hb hpot
    cases queue with
    | nil =>
      obtain ⟨hlen, h0, h1, hni, hrows, hq⟩ := hb
      simp only [dCompileLoop]
      refine ⟨⟨hlen, hni, ?_⟩, le_refl _, fun h => absurd rfl h⟩
      intro row hrow
      exact rowOk_mono (hrows row hrow) (by simp)
    | cons it rest =>
      simp only [dCompileLoop]
      obtain ⟨hbuild, hlen1⟩ := dProcessItem_build rules it states transitions rest hb
      have hdec := dProcessItem_pot rules hsort it states transitions rest.length
      have hpot2 : queuePot rules
          (rest ++ (dProcessItem rules it states transitions rest.length).2.2) <
          queuePot rules (it :: rest) := by
        rw [queuePot_append, queuePot_cons]
        omega
      have ihres := ih (dProcessItem rules it states transitions rest.length).1
        (dProcessItem rules it states transitions rest.length).2.1
        (rest ++ (dProcessItem rules it states transitions rest.length).2.2)
        hbuild (by rw [queuePot_cons] at hpot hpot2; omega)
      refine ⟨ihres.1, ?_, ?_⟩
      · have := ihres.2.1
        omega
      · intro _
        have := ihres.2.1
        omega

theorem dfaFuel_eq (rules : List Rule) :
    dfaFuel rules = (rules.map (fun r => r.inner.length)).sum + 2 := by
  unfold dfaFuel
  have main : ∀ (l : List Rule) (n : Nat),
      l.foldl (fun a r => a + r.inner.length) n = n + (l.map (fun r => r.inner.length)).sum := by
    intro l
    induction l with
    | nil => intro n; simp
    | cons r rest ih =>
      intro n
      rw [List.foldl_cons, ih, List.map_cons, List.sum_cons]
      omega
  rw [main]
  omega

theorem compile_machOk (rules : List Rule) :
    machOk (Cylon.compile rules) ∧ 2 < (Cylon.compile rules).states.length := by
  unfold Cylon.compile
  dsimp only
  have hsort := Nfa.sortRules_sorted rules
  have hb : buildOk [State.allow, State.disallow]
      [[⟨Edge.matchAny, 0⟩], [⟨Edge.matchAny, 1⟩]]
      [⟨[], 0, 0, State.intermediate⟩] := by
    refine ⟨rfl, rfl, rfl, ?_, ?_, ?_⟩
    · intro s hs
      intro h
      subst h
      simp at hs
    · intro row hrow
      simp only [List.mem_cons, List.not_mem_nil, or_false] at hrow
      rcases hrow with rfl | rfl
      · exact ⟨⟨⟨Edge.matchAny, 0⟩, by simp, rfl⟩, by
          intro t ht
          simp only [List.mem_singleton] at ht
          subst ht
          simp⟩
      · exact ⟨⟨⟨Edge.matchAny, 1⟩, by simp, rfl⟩, by
          intro t ht
          simp only [List.mem_singleton] at ht
          subst ht
          simp⟩
    · intro x hx
      simp only [List.mem_singleton] at hx
      subst hx
      exact Or.inl rfl
  have hpot : queuePot (Nfa.sortRules rules) [⟨[], 0, 0, State.intermediate⟩] <
      dfaFuel rules := by
    have h1 : pfxPot (Nfa.sortRules rules) [] ≤
        ((Nfa.sortRules rules).map (fun r => r.inner.length)).sum := by
      refine sumMap_le ?_
      intro r _
      unfold ruleSlack
      split
      · omega
      · exact Nat.zero_le _
    have h2 : ((Nfa.sortRules rules).map (fun r => r.inner.length)).sum =
        (rules.map (fun r => r.inner.length)).sum :=
      ((Nfa.sortRules_perm rules).map _).sum_eq
    rw [dfaFuel_eq, queuePot_cons, queuePot_nil]
    dsimp only
    omega
  obtain ⟨hm, hle, hlt⟩ := dCompileLoop_build (Nfa.sortRules rules) hsort (dfaFuel rules)
    [State.allow, State.disallow]
    [[⟨Edge.matchAny, 0⟩], [⟨Edge.matchAny, 1⟩]]
    [⟨[], 0, 0, State.intermediate⟩] hb hpot
  refine ⟨hm, ?_⟩
  have h3 := hlt (by simp)
  simpa using h3

end Cylon.Dfa

namespace Cylon.Dfa

theorem findStep_total {row : List Transition} {n : Nat} (h : rowOk n row) (ch : Nat) :
    ∃ s, findStep row ch = some s ∧ s < n := by
  obtain ⟨⟨t0, ht0m, ht0e⟩, hb⟩ := h
  cases hfs : findStep row ch with
  | none =>
    exfalso
    unfold findStep at hfs
    have hfind := Option.map_eq_none'.mp hfs
    have h2 := List.find?_eq_none.mp hfind t0 (List.mem_reverse.mpr ht0m)
    exact h2 (by rw [ht0e])
  | some s =>
    refine ⟨s, rfl, ?_⟩
    unfold findStep at hfs
    rw [Option.map_eq_some'] at hfs
    obtain ⟨t, hfind, hts⟩ := hfs
    subst hts
    exact hb t (List.mem_reverse.mp (List.mem_of_find?_eq_some hfind))

theorem eowStep_lt {row : List Transition} {n s : Nat} (h : rowOk n row) (hs : s < n) :
    eowStep row s < n := by
  unfold eowStep
  cases hf : (row.reverse.find? (fun t =>
      match t.edge with
      | Edge.matchEow => true
      | Edge.matchAny => true
      | Edge.matchByte _ => false)).map Transition.target with
  | none => exact hs
  | some m =>
    rw [Option.map_eq_some'] at hf
    obtain ⟨t, hfind, hts⟩ := hf
    subst hts
    exact h.2 t (List.mem_reverse.mp (List.mem_of_find?_eq_some hfind))

theorem stateOf_eq (c : Cylon) (path : List Nat) :
    stateOf c path =
      match path.foldl (dfaStep c) (some 2) with
      | none => none
      | some s =>
        match c.transitions[s]? with
        | none => none
        | some row => some (eowStep row s) := rfl

theorem dfaStep_some {c : Cylon} {s : Nat} {row : List Transition}
    (hrow : c.transitions[s]? = some row) (ch : Nat) :
    dfaStep c (some s) ch = findStep row ch := by
  show (match c.transitions[s]? with
    | none => none
    | some row => findStep row ch) = findStep row ch
  rw [hrow]

theorem stateOf_total {c : Cylon} (h : machOk c) (h2 : 2 < c.transitions.length)
    (path : List Nat) : ∃ s, stateOf c path = some s ∧ s < c.transitions.length := by
  obtain ⟨hlen, hni, hrows⟩ := h
  have main : ∀ (p : List Nat) (s : Nat), s < c.transitions.length →
      ∃ s2, p.foldl (dfaStep c) (some s) = some s2 ∧ s2 < c.transitions.length := by
    intro p
    induction p with
    | nil =>
      intro s hs
      exact ⟨s, rfl, hs⟩
    | cons ch rest ih =>
      intro s hs
      obtain ⟨row, hrow⟩ : ∃ row, c.transitions[s]? = some row :=
        ⟨_, List.getElem?_eq_getElem hs⟩
      obtain ⟨s2, hs2, hs2lt⟩ := findStep_total (hrows row (List.getElem?_mem hrow)) ch
      rw [List.foldl_cons, dfaStep_some hrow, hs2]
      exact ih s2 hs2lt
  obtain ⟨sf, hsf, hsflt⟩ := main path 2 h2
  rw [stateOf_eq, hsf]
  show ∃ s, (match c.transitions[sf]? with
    | none => none
    | some row => some (eowStep row sf)) = some s ∧ s < c.transitions.length
  obtain ⟨row, hrow⟩ : ∃ row, c.transitions[sf]? = some row :=
    ⟨_, List.getElem?_eq_getElem hsflt⟩
  rw [hrow]
  exact ⟨eowStep row sf, rfl, eowStep_lt (hrows row (List.getElem?_mem hrow)) hsflt⟩

theorem allow_total {c : Cylon} (h : machOk c) (h2 : 2 < c.transitions.length)
    (path : List Nat) : ∃ b, c.allow path = some b := by
  obtain ⟨s, hsf, hslt⟩ := stateOf_total h h2 path
  unfold Cylon.allow
  rw [hsf]
  show ∃ b, (match c.states[s]? with
    | none => none
    | some State.allow => some true
    | some State.disallow => some false
    | some State.intermediate => none) = some b
  obtain ⟨st, hst⟩ : ∃ st, c.states[s]? = some st :=
    ⟨_, List.getElem?_eq_getElem (by rw [h.1]; exact hslt)⟩
  rw [hst]
  have hne := h.2.1 st (List.getElem?_mem hst)
  cases st with
  | allow => exact ⟨true, rfl⟩
  | disallow => exact ⟨false, rfl⟩
  | intermediate => exact absurd rfl hne

end Cylon.Dfa

namespace Cylon

/-- C8: the allow query never fails.  On every matcher compiled by the
deterministic variant and every path byte sequence (empty and
arbitrarily long included) the query reaches an Allow or Disallow
verdict: the embedding models the `unwrap()` panics, the out-of-range
indexings and the `unreachable!()` of dfa.rs `Cylon::allow` as `none`,
and `none` never occurs.  The non-deterministic query is total by
construction because every lookup of nfa.rs `Cylon::allow` is defaulted
through `get`. -/
theorem c8_query_totality (rules : List Rule) (path : List Nat) :
    (∃ b, (Dfa.Cylon.compile rules).allow path = some b) ∧
    ((Nfa.Cylon.compile rules).allow path = true ∨
      (Nfa.Cylon.compile rules).allow path = false) := by
  obtain ⟨hok, hlen⟩ := Dfa.compile_machOk rules
  refine ⟨Dfa.allow_total hok (by rw [← hok.1]; exact hlen) path, ?_⟩
  rcases Bool.eq_false_or_eq_true ((Nfa.Cylon.compile rules).allow path) with h | h
  · exact Or.inl h
  · exact Or.inr h

end Cylon
